import Mathlib

/-!
# robin: content-defined chunking (`robinFinger.go`)

A shallow embedding of the Go package `robin` and a verification of its
specification.

Conventions of the embedding.

* A Go `[]byte` is a `List Byte`, a byte being a `Fin 256`.
* A Go `int` (positions, sizes, the configuration) is an `Int`.  Every position
  the code computes is bounded by the length of a buffer, so no wrap-around of
  `int` is modelled.  The checksum arithmetic is `int64` arithmetic and can
  overflow: every `int64` operation is followed by `wrapInt64`.
* A call either returns (`Run.done`), stops with a Go run-time panic
  (`Run.panic`), or is still running when the fuel given to its loop is used up
  (`Run.fuel`).  A loop that never ends is one that answers `Run.fuel` for
  every amount of fuel.
* `crypto/md5` is not part of the package: the digest function is the
  parameter `md5Sum` of everything that computes a key, so that what is proved
  holds whatever the digest is.  MD5 itself (RFC 1321) is embedded as `md5`, and
  is what the parameter is when keys are evaluated.
* The platform is a 64-bit one: an `int` has 64 bits and the `maxAlloc` of the
  runtime is `2^48` bytes.
* `bufio.Scanner` and `io.Reader` are not part of the package either; the part
  of them `ShardingWithHandle` drives is embedded from the Go standard library.
-/

namespace Robin

/-- A byte of a Go byte slice. -/
abbrev Byte := Fin 256

/-- The Go `error` values that can reach the package: its own two, those of
`io` and `bufio` that a `bufio.Scanner` reports, and any other value, which
only a reader or a handler supplied by the caller can produce. -/
inductive GoError where
  | invalidArgument
  | outOfOride
  | EOF
  | ErrFinalToken
  | ErrTooLong
  | ErrNegativeAdvance
  | ErrAdvanceTooFar
  | ErrBadReadCount
  | ErrNoProgress
  | other (tag : Nat)
  deriving DecidableEq, Repr

/-- The package variable `INVALID_ARGUMENT`. -/
def INVALID_ARGUMENT : GoError := GoError.invalidArgument

/-- The Go run-time panics the code can raise. -/
inductive Panic where
  | sliceBounds
  | indexRange
  | divideByZero
  | makeSliceLen
  deriving DecidableEq, Repr

/-- The outcome of running a piece of Go code. -/
inductive Run (α : Type) where
  | done (a : α)
  | panic (p : Panic)
  | fuel
  deriving DecidableEq, Repr

/-- Runs a loop whose body is `step`: `Sum.inl` is the state for the next
iteration, `Sum.inr` leaves the loop. -/
def iterate {σ ρ : Type} (step : σ → σ ⊕ Run ρ) : Nat → σ → Run ρ
  | 0, _ => Run.fuel
  | n + 1, s =>
    match step s with
    | Sum.inl s' => iterate step n s'
    | Sum.inr out => out

/-- Two's-complement wrap-around of an integer into the range of `int64`. -/
def wrapInt64 (x : Int) : Int := (x + 2 ^ 63) % 2 ^ 64 - 2 ^ 63

/-- The Go slice expression `b[lo:hi]`; `none` is the slice-bounds panic. -/
def slice (b : List Byte) (lo hi : Int) : Option (List Byte) :=
  if 0 ≤ lo ∧ lo ≤ hi ∧ hi ≤ b.length then
    some ((b.take hi.toNat).drop lo.toNat)
  else none

/-- The Go index expression `l[i]`; `none` is the index-out-of-range panic. -/
def index (l : List Int) (i : Int) : Option Int :=
  if 0 ≤ i then l.get? i.toNat else none

/-- The struct `polynomialInfo`: one stored chunk. -/
structure polynomialInfo where
  data : List Byte
  robinChecksum : Int
  key : String
  deriving DecidableEq, Repr

/-- The struct `RobinFingerInfo`: the chunks in insertion order. -/
structure RobinFingerInfo where
  poly : List polynomialInfo
  deriving DecidableEq, Repr

/-- The struct `RobinFinger`: the configuration and its weight table. -/
structure RobinFinger where
  min : Int
  max : Int
  avg : Int
  win : Int
  prime : Int
  polynomialFactor : List Int
  deriving DecidableEq, Repr

/-- The loop of `Init` that fills the weight table: `n` entries are still to be
written and `factor` is the value for the next one. -/
def InitFill (prime : Int) : Nat → Int → List Int
  | 0, _ => []
  | n + 1, factor => factor :: InitFill prime n (wrapInt64 (factor * prime))

/-- The constant `maxAlloc` of the Go runtime on a 64-bit platform with 48 bits
of heap address (such as linux/amd64): the largest size, in bytes, that `make`
accepts. -/
def maxAlloc : Nat := 2 ^ 48

/-- The method `RobinFinger.Init`: the receiver after the call and the error
returned.  `make([]int64, win+1)` is the `makeslice` of the Go runtime: it
panics (`len out of range`) on a negative length and on a length whose 8-byte
elements take more than `maxAlloc` bytes, which is also what it does when
`win + 1` or `8 * (win + 1)` overflows.  An allocation that `makeslice` accepts
is taken to succeed. -/
def RobinFinger.Init (r : RobinFinger) (prime min max avg win : Int) :
    Run (RobinFinger × Option GoError) :=
  if min ≤ win then Run.done (r, some INVALID_ARGUMENT)
  else if win + 1 < 0 ∨ 8 * (win + 1) > maxAlloc then Run.panic Panic.makeSliceLen
  else
    Run.done
      ({ min := min, max := max, avg := avg, win := win, prime := prime,
         polynomialFactor := InitFill prime (win + 1).toNat 1 }, none)

/-- The digit of `encoding/hex` for a value below 16. -/
def hexDigit (n : Nat) : Char :=
  "0123456789abcdef".toList.getD n '0'

/-- The function `hex.EncodeToString`. -/
def hexEncodeToString (bs : List Byte) : String :=
  String.mk (bs.flatMap fun b => [hexDigit (b.val / 16), hexDigit (b.val % 16)])

/-- The method `RobinFinger.genKey`: the hex form of the MD5 digest of `buf`. -/
def genKey (md5Sum : List Byte → List Byte) (buf : List Byte) : String :=
  hexEncodeToString (md5Sum buf)

/-- The `range` loop that sums a window: `i` is the index of the next byte. -/
def rollLoop (r : RobinFinger) : List Byte → Nat → Int → Option Int
  | [], _, acc => some acc
  | v :: vs, i, acc =>
    match index r.polynomialFactor (r.win - i) with
    | none => none
    | some factor => rollLoop r vs (i + 1) (wrapInt64 (acc + wrapInt64 (v.val * factor)))

/-- The weighted sum of a window, `rollChecksum` after its loop. -/
def rollChecksum (r : RobinFinger) (winData : List Byte) : Option Int :=
  rollLoop r winData 0 0

/-- The closure `appendSharding` of `Sharding`. -/
def appendSharding (md5Sum : List Byte → List Byte) (poly : List polynomialInfo)
    (buf : List Byte) (checksum : Int) : List polynomialInfo :=
  poly ++ [{ data := buf, robinChecksum := checksum, key := genKey md5Sum buf }]

/-- The variables of the loop of `Sharding`. -/
structure ShardingState where
  startPos : Int
  winStartPos : Int
  poly : List polynomialInfo
  deriving DecidableEq, Repr

/-- One iteration of the `for` loop of `Sharding`. -/
def ShardingStep (md5Sum : List Byte → List Byte) (r : RobinFinger) (src : List Byte)
    (s : ShardingState) : ShardingState ⊕ Run (RobinFingerInfo × Option GoError) :=
  if s.startPos ≥ src.length then Sum.inr (Run.done ({ poly := s.poly }, none))
  else
    match slice src s.startPos src.length with
    | none => Sum.inr (Run.panic Panic.sliceBounds)
    | some buf =>
      if s.winStartPos + r.win ≥ buf.length then
        Sum.inr (Run.done ({ poly := appendSharding md5Sum s.poly buf 0 }, none))
      else if s.winStartPos + r.win ≥ r.max then
        match slice buf 0 r.max with
        | none => Sum.inr (Run.panic Panic.sliceBounds)
        | some chunk =>
          Sum.inl { startPos := s.startPos + r.max, winStartPos := r.min - r.win,
                    poly := appendSharding md5Sum s.poly chunk 0 }
      else
        match slice buf s.winStartPos (s.winStartPos + r.win) with
        | none => Sum.inr (Run.panic Panic.sliceBounds)
        | some winData =>
          match rollChecksum r winData with
          | none => Sum.inr (Run.panic Panic.indexRange)
          | some sum =>
            if r.avg = 0 then Sum.inr (Run.panic Panic.divideByZero)
            else if Int.tmod sum r.avg = r.prime then
              match slice buf 0 (s.winStartPos + r.win) with
              | none => Sum.inr (Run.panic Panic.sliceBounds)
              | some chunk =>
                Sum.inl { startPos := s.startPos + (s.winStartPos + r.win),
                          winStartPos := r.min - r.win,
                          poly := appendSharding md5Sum s.poly chunk sum }
            else
              Sum.inl { startPos := s.startPos, winStartPos := s.winStartPos + 1,
                        poly := s.poly }

/-- The method `RobinFinger.Sharding`: the chunk set and the error returned. -/
def Sharding (md5Sum : List Byte → List Byte) (r : RobinFinger) (src : List Byte)
    (fuel : Nat) : Run (RobinFingerInfo × Option GoError) :=
  if (src.length : Int) < r.min ∨ r.min < r.win then
    Run.done ({ poly := appendSharding md5Sum [] src 0 }, none)
  else
    iterate (ShardingStep md5Sum r src) fuel
      { startPos := 0, winStartPos := r.min - r.win, poly := [] }

/-- A callback `f func(data []byte, checksum int64, key string) error`, with the
state `σ` it keeps between calls. -/
abbrev Handler (σ : Type) := σ → List Byte → Int → String → σ × Option GoError

/-- The handler that copies each chunk it is given into a list and never fails. -/
def collect : Handler (List polynomialInfo) :=
  fun acc data checksum key =>
    (acc ++ [{ data := data, robinChecksum := checksum, key := key }], none)

/-- The variables of the split function of `ShardingWithHandle`: its local `sz`,
the captured `offset`, and the state of the handler. -/
structure SplitState (σ : Type) where
  sz : Int
  offset : Int
  h : σ

/-- What one call of the split function leaves behind: the `advance` and the
error it returns (its token is always `nil`), the captured `offset` and the
state of the handler. -/
structure SplitReturn (σ : Type) where
  advance : Int
  err : Option GoError
  offset : Int
  h : σ

/-- One pass from the label `Next` of the split function to the next `goto` or
`return`. -/
def splitStep {σ : Type} (md5Sum : List Byte → List Byte) (r : RobinFinger)
    (f : Handler σ) (b : List Byte) (atEOF : Bool) (s : SplitState σ) :
    SplitState σ ⊕ Run (SplitReturn σ) :=
  if s.sz ≥ b.length then
    Sum.inr (Run.done { advance := s.sz, err := none, offset := s.offset, h := s.h })
  else
    match slice b s.sz b.length with
    | none => Sum.inr (Run.panic Panic.sliceBounds)
    | some tmpBuf =>
      if s.offset + r.win > tmpBuf.length then
        if atEOF then
          let res := f s.h tmpBuf 0 (genKey md5Sum tmpBuf)
          Sum.inr (Run.done { advance := s.sz + tmpBuf.length, err := res.2,
                              offset := s.offset, h := res.1 })
        else
          Sum.inr (Run.done { advance := s.sz, err := none, offset := s.offset, h := s.h })
      else if s.offset + r.win > r.max then
        match slice tmpBuf 0 r.max with
        | none => Sum.inr (Run.panic Panic.sliceBounds)
        | some chunk =>
          let res := f s.h chunk 0 (genKey md5Sum chunk)
          match res.2 with
          | some e =>
            Sum.inr (Run.done { advance := s.sz + r.max, err := some e,
                                offset := r.min - r.win, h := res.1 })
          | none => Sum.inl { sz := s.sz + r.max, offset := r.min - r.win, h := res.1 }
      else
        match slice tmpBuf s.offset (s.offset + r.win) with
        | none => Sum.inr (Run.panic Panic.sliceBounds)
        | some winData =>
          match rollChecksum r winData with
          | none => Sum.inr (Run.panic Panic.indexRange)
          | some sum =>
            if r.avg = 0 then Sum.inr (Run.panic Panic.divideByZero)
            else if Int.tmod sum r.avg = r.prime then
              match slice tmpBuf 0 (s.offset + r.win) with
              | none => Sum.inr (Run.panic Panic.sliceBounds)
              | some chunk =>
                let res := f s.h chunk sum (genKey md5Sum chunk)
                match res.2 with
                | some e =>
                  Sum.inr (Run.done { advance := s.sz + (s.offset + r.win), err := some e,
                                      offset := r.min - r.win, h := res.1 })
                | none =>
                  Sum.inl { sz := s.sz + (s.offset + r.win), offset := r.min - r.win,
                            h := res.1 }
            else Sum.inl { sz := s.sz, offset := s.offset + 1, h := s.h }

/-- The split function of `ShardingWithHandle`, called on the bytes `b` the
scanner holds, the captured `offset` and the handler state being `offset` and
`h` when it is called. -/
def split {σ : Type} (md5Sum : List Byte → List Byte) (r : RobinFinger)
    (f : Handler σ) (fuel : Nat) (offset : Int) (h : σ) (b : List Byte) (atEOF : Bool) :
    Run (SplitReturn σ) :=
  iterate (splitStep md5Sum r f b atEOF) fuel { sz := 0, offset := offset, h := h }

/-- An `io.Reader` over a byte sequence: `data` is what it has not delivered
yet, and `sched` lists how many bytes its coming calls are willing to deliver
(a call beyond the list delivers all it can).  Once `data` is exhausted every
call answers `0, io.EOF`. -/
structure Reader where
  data : List Byte
  sched : List Nat
  deriving DecidableEq, Repr

/-- The method `Read` on a destination of `cap` bytes: the bytes copied, the
error and the reader afterwards. -/
def Reader.Read (rd : Reader) (cap : Nat) : List Byte × Option GoError × Reader :=
  match rd.data with
  | [] => ([], some GoError.EOF, rd)
  | _ :: _ =>
    let n := Nat.min (rd.sched.headD cap) cap
    (rd.data.take n, none, { data := rd.data.drop n, sched := rd.sched.tail })

/-- The reader `bytes.NewReader(B)`: every call delivers all that fits. -/
def readerOver (B : List Byte) : Reader := { data := B, sched := [] }

/-- The constant `bufio.MaxScanTokenSize`. -/
def MaxScanTokenSize : Nat := 64 * 1024

/-- The constant `startBufSize` of `bufio`. -/
def startBufSize : Nat := 4096

/-- The constant `maxConsecutiveEmptyReads` of `bufio`. -/
def maxConsecutiveEmptyReads : Nat := 100

/-- The largest `int`, as `bufio` computes it. -/
def maxInt : Nat := 2 ^ 63 - 1

/-- The fields of a `bufio.Scanner` that `Scan` uses, with the state of the
split function: `bufLen` is `len(s.buf)`, `data` is `s.buf[s.start:s.end]`. -/
structure Scanner (σ : Type) where
  rd : Reader
  bufLen : Nat
  start : Nat
  data : List Byte
  err : Option GoError
  offset : Int
  h : σ

/-- The method `Scanner.setErr`: the first error other than `io.EOF` is kept. -/
def setErr (old : Option GoError) (e : GoError) : Option GoError :=
  match old with
  | none => some e
  | some GoError.EOF => some e
  | some e0 => some e0

/-- The read loop at the end of an iteration of `Scan`; `tries` counts down from
`maxConsecutiveEmptyReads` the empty reads still tolerated. -/
def readLoop {σ : Type} : Nat → Scanner σ → Scanner σ
  | tries, s =>
    let res := s.rd.Read (s.bufLen - (s.start + s.data.length))
    if s.bufLen - (s.start + s.data.length) < res.1.length then
      { s with rd := res.2.2, err := setErr s.err GoError.ErrBadReadCount }
    else
      let s1 := { s with rd := res.2.2, data := s.data ++ res.1 }
      match res.2.1 with
      | some e => { s1 with err := setErr s1.err e }
      | none =>
        if res.1.length > 0 then s1
        else
          match tries with
          | 0 => { s1 with err := setErr s1.err GoError.ErrNoProgress }
          | t + 1 => readLoop t s1

/-- The second half of an iteration of `Scan`, reached when no token was
produced: stop on an error, else make room in the buffer and read. -/
def scanFill {σ : Type} (s : Scanner σ) : Scanner σ ⊕ Run (Scanner σ) :=
  if s.err ≠ none then Sum.inr (Run.done { s with start := 0, data := [] })
  else
    let s1 : Scanner σ :=
      if s.start > 0 ∧ (s.start + s.data.length = s.bufLen ∨ s.start > s.bufLen / 2) then
        { s with start := 0 }
      else s
    if s1.start + s1.data.length = s1.bufLen then
      if s1.bufLen ≥ MaxScanTokenSize ∨ s1.bufLen > maxInt / 2 then
        Sum.inr (Run.done { s1 with err := setErr s1.err GoError.ErrTooLong })
      else
        let newSize := if s1.bufLen * 2 = 0 then startBufSize else s1.bufLen * 2
        Sum.inl (readLoop maxConsecutiveEmptyReads
          { s1 with bufLen := Nat.min newSize MaxScanTokenSize, start := 0 })
    else Sum.inl (readLoop maxConsecutiveEmptyReads s1)

/-- One iteration of the loop of `Scanner.Scan` with the split function of
`ShardingWithHandle`, whose token is always `nil`: `Sum.inr` is a return of
`Scan`, which is then always a return of `false`. -/
def scanStep {σ : Type} (md5Sum : List Byte → List Byte) (r : RobinFinger)
    (f : Handler σ) (fuel : Nat) (s : Scanner σ) : Scanner σ ⊕ Run (Scanner σ) :=
  if s.data.length > 0 ∨ s.err ≠ none then
    match split md5Sum r f fuel s.offset s.h s.data (decide (s.err ≠ none)) with
    | Run.fuel => Sum.inr Run.fuel
    | Run.panic p => Sum.inr (Run.panic p)
    | Run.done ret =>
      match ret.err with
      | some e =>
        if e = GoError.ErrFinalToken then
          Sum.inr (Run.done { s with offset := ret.offset, h := ret.h })
        else
          Sum.inr (Run.done { s with offset := ret.offset, h := ret.h, err := setErr s.err e })
      | none =>
        if ret.advance < 0 then
          Sum.inr (Run.done { s with offset := ret.offset, h := ret.h,
                                     err := setErr s.err GoError.ErrNegativeAdvance })
        else if ret.advance > s.data.length then
          Sum.inr (Run.done { s with offset := ret.offset, h := ret.h,
                                     err := setErr s.err GoError.ErrAdvanceTooFar })
        else
          scanFill { s with offset := ret.offset, h := ret.h,
                            start := s.start + ret.advance.toNat,
                            data := s.data.drop ret.advance.toNat }
  else scanFill s

/-- The method `Scanner.Err`: `io.EOF` is reported as `nil`. -/
def scannerErr (err : Option GoError) : Option GoError :=
  match err with
  | some GoError.EOF => none
  | e => e

/-- The method `RobinFinger.ShardingWithHandle` over the reader `rd` with the
handler `f` started in state `h`: the error returned and the state the handler
is left in.  `Scan` never returns `true` (no token is ever produced), so the
loop `for s.Scan() {}` is one call of `Scan`. -/
def ShardingWithHandle {σ : Type} (md5Sum : List Byte → List Byte) (r : RobinFinger)
    (rd : Reader) (f : Handler σ) (h : σ) (fuel : Nat) : Run (Option GoError × σ) :=
  match iterate (scanStep md5Sum r f fuel) fuel
      { rd := rd, bufLen := 0, start := 0, data := [], err := none,
        offset := r.min - r.win, h := h } with
  | Run.done s => Run.done (scannerErr s.err, s.h)
  | Run.panic p => Run.panic p
  | Run.fuel => Run.fuel

/-- The Go index expression `poly[i]` on the stored chunks; `none` is the
index-out-of-range panic. -/
def polyAt (poly : List polynomialInfo) (i : Int) : Option polynomialInfo :=
  if 0 ≤ i then poly.get? i.toNat else none

/-- The method `RobinFingerInfo.Count`. -/
def RobinFingerInfo.Count (r : RobinFingerInfo) : Int :=
  if r.poly = [] then 0 else r.poly.length

/-- The method `RobinFingerInfo.At`: the data, checksum, key and error returned
(a `nil` slice is the empty list). -/
def RobinFingerInfo.At (r : RobinFingerInfo) (i : Int) :
    Run (List Byte × Int × String × Option GoError) :=
  if i ≥ r.poly.length then Run.done ([], 0, "", some GoError.outOfOride)
  else
    match polyAt r.poly i with
    | none => Run.panic Panic.indexRange
    | some p => Run.done (p.data, p.robinChecksum, p.key, none)

/-- The method `RobinFingerInfo.Equal`. -/
def RobinFingerInfo.Equal (r : RobinFingerInfo) (idx : Int) (checkSum : Int) (key : String) :
    Run Bool :=
  if idx ≥ r.poly.length then Run.done false
  else
    match polyAt r.poly idx with
    | none => Run.panic Panic.indexRange
    | some p => Run.done (p.robinChecksum == checkSum && p.key == key)

/-! ## MD5, embedded from RFC 1321 to evaluate keys -/

/-- The rotation amounts of the 64 operations of MD5 (RFC 1321). -/
def md5Shift : List Nat :=
  [7, 12, 17, 22, 7, 12, 17, 22, 7, 12, 17, 22, 7, 12, 17, 22,
   5, 9, 14, 20, 5, 9, 14, 20, 5, 9, 14, 20, 5, 9, 14, 20,
   4, 11, 16, 23, 4, 11, 16, 23, 4, 11, 16, 23, 4, 11, 16, 23,
   6, 10, 15, 21, 6, 10, 15, 21, 6, 10, 15, 21, 6, 10, 15, 21]

/-- The 64 additive constants of MD5, `floor(2^32 * |sin(i + 1)|)`. -/
def md5Table : List Nat :=
  [0xd76aa478, 0xe8c7b756, 0x242070db, 0xc1bdceee, 0xf57c0faf, 0x4787c62a, 0xa8304613,
   0xfd469501, 0x698098d8, 0x8b44f7af, 0xffff5bb1, 0x895cd7be, 0x6b901122, 0xfd987193,
   0xa679438e, 0x49b40821, 0xf61e2562, 0xc040b340, 0x265e5a51, 0xe9b6c7aa, 0xd62f105d,
   0x02441453, 0xd8a1e681, 0xe7d3fbc8, 0x21e1cde6, 0xc33707d6, 0xf4d50d87, 0x455a14ed,
   0xa9e3e905, 0xfcefa3f8, 0x676f02d9, 0x8d2a4c8a, 0xfffa3942, 0x8771f681, 0x6d9d6122,
   0xfde5380c, 0xa4beea44, 0x4bdecfa9, 0xf6bb4b60, 0xbebfbc70, 0x289b7ec6, 0xeaa127fa,
   0xd4ef3085, 0x04881d05, 0xd9d4d039, 0xe6db99e5, 0x1fa27cf8, 0xc4ac5665, 0xf4292244,
   0x432aff97, 0xab9423a7, 0xfc93a039, 0x655b59c3, 0x8f0ccc92, 0xffeff47d, 0x85845dd1,
   0x6fa87e4f, 0xfe2ce6e0, 0xa3014314, 0x4e0811a1, 0xf7537e82, 0xbd3af235, 0x2ad7d2bb,
   0xeb86d391]

/-- Rotation of a 32-bit word to the left by `c` bits. -/
def rotateLeft32 (x c : Nat) : Nat :=
  ((x <<< c) ||| (x >>> (32 - c))) % 2 ^ 32

/-- The `n` bytes of `x`, least significant first. -/
def littleEndian : Nat → Nat → List Nat
  | 0, _ => []
  | n + 1, x => x % 256 :: littleEndian n (x / 256)

/-- The number whose bytes, least significant first, are `bs`. -/
def ofLittleEndian : List Nat → Nat
  | [] => 0
  | b :: bs => b + 256 * ofLittleEndian bs

/-- The message of MD5 after padding: a byte `0x80`, zero bytes up to 56 modulo
64, and the length of the message in bits as 8 bytes. -/
def md5Pad (msg : List Nat) : List Nat :=
  msg ++ [0x80] ++ List.replicate ((119 - msg.length % 64) % 64) 0 ++
    littleEndian 8 (8 * msg.length % 2 ^ 64)

/-- The 32-bit words of a list of bytes, four bytes to a word. -/
def md5Words : Nat → List Nat → List Nat
  | 0, _ => []
  | n + 1, bs => ofLittleEndian (bs.take 4) :: md5Words n (bs.drop 4)

/-- Operation `i` of the 64 operations MD5 applies to a block with words `M`. -/
def md5Op (M : List Nat) (st : Nat × Nat × Nat × Nat) (i : Nat) : Nat × Nat × Nat × Nat :=
  let a := st.1
  let b := st.2.1
  let c := st.2.2.1
  let d := st.2.2.2
  let nb := b ^^^ 0xffffffff
  let nd := d ^^^ 0xffffffff
  let f :=
    if i < 16 then (b &&& c) ||| (nb &&& d)
    else if i < 32 then (d &&& b) ||| (nd &&& c)
    else if i < 48 then b ^^^ c ^^^ d
    else c ^^^ (b ||| nd)
  let g :=
    if i < 16 then i
    else if i < 32 then (5 * i + 1) % 16
    else if i < 48 then (3 * i + 5) % 16
    else (7 * i) % 16
  let x := (f + a + md5Table.getD i 0 + M.getD g 0) % 2 ^ 32
  (d, (b + rotateLeft32 x (md5Shift.getD i 0)) % 2 ^ 32, b, c)

/-- MD5 on one block of 64 bytes: the state after the block. -/
def md5Block (st : Nat × Nat × Nat × Nat) (block : List Nat) : Nat × Nat × Nat × Nat :=
  let out := (List.range 64).foldl (md5Op (md5Words 16 block)) st
  ((st.1 + out.1) % 2 ^ 32, (st.2.1 + out.2.1) % 2 ^ 32, (st.2.2.1 + out.2.2.1) % 2 ^ 32,
    (st.2.2.2 + out.2.2.2) % 2 ^ 32)

/-- MD5 over `n` blocks of 64 bytes. -/
def md5Blocks : Nat → Nat × Nat × Nat × Nat → List Nat → Nat × Nat × Nat × Nat
  | 0, st, _ => st
  | n + 1, st, bs => md5Blocks n (md5Block st (bs.take 64)) (bs.drop 64)

/-- The byte with value `n` modulo 256. -/
def toByte (n : Nat) : Byte := ⟨n % 256, Nat.mod_lt n (by decide)⟩

/-- The function `md5.Sum` of `crypto/md5`: the MD5 digest (RFC 1321), 16 bytes. -/
def md5 (msg : List Byte) : List Byte :=
  let padded := md5Pad (msg.map fun b => b.val)
  let st := md5Blocks (padded.length / 64) (0x67452301, 0xefcdab89, 0x98badcfe, 0x10325476)
    padded
  (littleEndian 4 st.1 ++ littleEndian 4 st.2.1 ++ littleEndian 4 st.2.2.1 ++
    littleEndian 4 st.2.2.2).map toByte

/-! ## Definitions used to state the properties -/

/-- The window the loop of `Sharding` looks at: `win` bytes from `winStartPos`
on in `src[startPos:]`. -/
def windowAt (src : List Byte) (startPos winStartPos win : Int) : List Byte :=
  ((src.drop startPos.toNat).take (winStartPos + win).toNat).drop winStartPos.toNat

/-- The weighted sum of a window as the specification writes it,
`sum_{i=0}^{win-1} window[i] * weights[win - i]`, in int64 arithmetic. -/
def specWeightedSum (weights : List Int) (win : Nat) (window : List Byte) : Int :=
  wrapInt64 (((List.range win).map fun i =>
    ((window.getD i 0).val : Int) * weights.getD (win - i) 0).sum)

/-- The measure that decreases along the loop of `Sharding`: the bytes of `src`
beyond the end of the window. -/
def ShardingState.room (r : RobinFinger) (src : List Byte) (s : ShardingState) : Nat :=
  ((src.length : Int) - (s.startPos + s.winStartPos + r.win)).toNat

/-- What the specification says of the checksum of a chunk: it is `0`, or it is
the weighted sum of the last `win` bytes of the chunk and its remainder on
division by `avg` is the configured prime. -/
def checksumMeaning (r : RobinFinger) (p : polynomialInfo) : Prop :=
  p.robinChecksum = 0 ∨
    (0 ≤ r.win ∧ r.win ≤ p.data.length ∧
      p.robinChecksum = specWeightedSum r.polynomialFactor r.win.toNat
        (p.data.drop (p.data.length - r.win.toNat)) ∧
      Int.tmod p.robinChecksum r.avg = r.prime)

/-- The total length of the chunks `0 .. i` of a chunk list: the offset in the
buffer at which chunk `i` ends. -/
def endOffset (poly : List polynomialInfo) (i : Nat) : Nat :=
  ((poly.take (i + 1)).map fun p => p.data.length).sum

/-- A stand-in for the MD5 digest, used to evaluate examples: the first 16
bytes of the input. -/
def demoDigest : List Byte → List Byte := fun b => b.take 16

/-- The configuration `Init(3, 3, 6, 4, 2)` leaves in the receiver. -/
def demoConfig : RobinFinger :=
  { min := 3, max := 6, avg := 4, win := 2, prime := 3, polynomialFactor := [1, 3, 9] }

/-- A buffer that `demoConfig` cuts at a boundary, at `max`, at a boundary
again, and at its end. -/
def demoBuffer : List Byte := [7, 1, 2, 9, 9, 9, 9, 9, 9, 5, 1, 2, 8, 8]

/-- The chunks of `demoBuffer` under `demoConfig` and `demoDigest`. -/
def demoChunks : List polynomialInfo :=
  [{ data := [7, 1, 2], robinChecksum := 15, key := "070102" },
   { data := [9, 9, 9, 9, 9, 9], robinChecksum := 0, key := "090909090909" },
   { data := [5, 1, 2], robinChecksum := 15, key := "050102" },
   { data := [8, 8], robinChecksum := 0, key := "0808" }]

/-- The chunks of `demoBuffer` under `demoConfig`, with their MD5 keys. -/
def demoChunksMD5 : List polynomialInfo :=
  [{ data := [7, 1, 2], robinChecksum := 15, key := "8134ea580fd8003ee6fe21fa6914fd59" },
   { data := [9, 9, 9, 9, 9, 9], robinChecksum := 0, key := "5078d500ad4eabc5d28aae5109a98e5c" },
   { data := [5, 1, 2], robinChecksum := 15, key := "d4d9e2fb5e2c48d671fbc59cbfc689cd" },
   { data := [8, 8], robinChecksum := 0, key := "c3eecd083c0f4827f526059b03b75e4c" }]

/-- A zero-valued `RobinFinger`, the receiver before `Init`. -/
def zeroConfig : RobinFinger :=
  { min := 0, max := 0, avg := 0, win := 0, prime := 0, polynomialFactor := [] }

/-- The total length of the chunks of a list. -/
def totalLength (poly : List polynomialInfo) : Nat :=
  (poly.map fun p => p.data.length).sum

/-- The invariant of the loop of `Sharding` when `min <= max`. -/
def ShardingState.Inv (r : RobinFinger) (s : ShardingState) : Prop :=
  0 ≤ s.startPos ∧ s.startPos = totalLength s.poly ∧
    r.min ≤ s.winStartPos + r.win ∧ s.winStartPos + r.win ≤ r.max

/-- The split function of `ShardingWithHandle` from `tmpBuf := b[sz:]` on. -/
def splitBody {σ : Type} (md5Sum : List Byte → List Byte) (r : RobinFinger)
    (f : Handler σ) (tmpBuf : List Byte) (atEOF : Bool) (s : SplitState σ) :
    SplitState σ ⊕ Run (SplitReturn σ) :=
  if s.offset + r.win > tmpBuf.length then
    if atEOF then
      Sum.inr (Run.done { advance := s.sz + tmpBuf.length,
                          err := (f s.h tmpBuf 0 (genKey md5Sum tmpBuf)).2,
                          offset := s.offset,
                          h := (f s.h tmpBuf 0 (genKey md5Sum tmpBuf)).1 })
    else
      Sum.inr (Run.done { advance := s.sz, err := none, offset := s.offset, h := s.h })
  else if s.offset + r.win > r.max then
    match slice tmpBuf 0 r.max with
    | none => Sum.inr (Run.panic Panic.sliceBounds)
    | some chunk =>
      match (f s.h chunk 0 (genKey md5Sum chunk)).2 with
      | some e =>
        Sum.inr (Run.done { advance := s.sz + r.max, err := some e,
                            offset := r.min - r.win,
                            h := (f s.h chunk 0 (genKey md5Sum chunk)).1 })
      | none => Sum.inl { sz := s.sz + r.max, offset := r.min - r.win,
                          h := (f s.h chunk 0 (genKey md5Sum chunk)).1 }
  else
    match slice tmpBuf s.offset (s.offset + r.win) with
    | none => Sum.inr (Run.panic Panic.sliceBounds)
    | some winData =>
      match rollChecksum r winData with
      | none => Sum.inr (Run.panic Panic.indexRange)
      | some sum =>
        if r.avg = 0 then Sum.inr (Run.panic Panic.divideByZero)
        else if Int.tmod sum r.avg = r.prime then
          match slice tmpBuf 0 (s.offset + r.win) with
          | none => Sum.inr (Run.panic Panic.sliceBounds)
          | some chunk =>
            match (f s.h chunk sum (genKey md5Sum chunk)).2 with
            | some e =>
              Sum.inr (Run.done { advance := s.sz + (s.offset + r.win), err := some e,
                                  offset := r.min - r.win,
                                  h := (f s.h chunk sum (genKey md5Sum chunk)).1 })
            | none =>
              Sum.inl { sz := s.sz + (s.offset + r.win), offset := r.min - r.win,
                        h := (f s.h chunk sum (genKey md5Sum chunk)).1 }
        else Sum.inl { sz := s.sz, offset := s.offset + 1, h := s.h }

/-- The invariant of the loop of the split function when `min <= max`. -/
def SplitState.Inv {σ : Type} (r : RobinFinger) (b : List Byte) (s : SplitState σ) : Prop :=
  0 ≤ s.sz ∧ s.sz ≤ b.length ∧ r.min ≤ s.offset + r.win ∧ s.offset + r.win ≤ r.max + 1

/-- The measure that decreases along the loop of the split function. -/
def SplitState.room {σ : Type} (r : RobinFinger) (b : List Byte) (s : SplitState σ) : Nat :=
  (2 * (b.length : Int) - (2 * s.sz + s.offset + r.win)).toNat

/-- The state `t` is reached from `s` by iterations of the loop with body `step`. -/
inductive StepsTo {σ ρ : Type} (step : σ → σ ⊕ Run ρ) : σ → σ → Prop where
  | refl (s : σ) : StepsTo step s s
  | head {s s' t : σ} : step s = Sum.inl s' → StepsTo step s' t → StepsTo step s t

/-- A state of the split function with `sz` counted from `a` bytes earlier. -/
def SplitState.shift {σ : Type} (a : Int) (s : SplitState σ) : SplitState σ :=
  { s with sz := s.sz + a }

/-- An outcome of the split function with `sz` and the advance counted from `a`
bytes earlier. -/
def shiftOut {σ : Type} (a : Int) :
    SplitState σ ⊕ Run (SplitReturn σ) → SplitState σ ⊕ Run (SplitReturn σ)
  | Sum.inl s => Sum.inl (s.shift a)
  | Sum.inr (Run.done ret) => Sum.inr (Run.done { ret with advance := ret.advance + a })
  | Sum.inr (Run.panic p) => Sum.inr (Run.panic p)
  | Sum.inr Run.fuel => Sum.inr Run.fuel

/-- A returned value of the split function with the advance counted from `a`
bytes earlier. -/
def shiftRun {σ : Type} (a : Int) : Run (SplitReturn σ) → Run (SplitReturn σ)
  | Run.done ret => Run.done { ret with advance := ret.advance + a }
  | Run.panic p => Run.panic p
  | Run.fuel => Run.fuel

/-- What `scanFill` leaves of the scanner `S` when it reads: the bytes held and
still to come are the same, and either the reader was exhausted and the error is
now `io.EOF`, or at least one byte was read. -/
def FillsFrom {σ : Type} (S S' : Scanner σ) : Prop :=
  S'.offset = S.offset ∧ S'.h = S.h ∧ S'.start + S'.data.length ≤ S'.bufLen ∧
    S'.data ++ S'.rd.data = S.data ++ S.rd.data ∧ (∀ k ∈ S'.rd.sched, 0 < k) ∧
    ((S.rd.data = [] ∧ S'.err = some GoError.EOF ∧ S'.rd.data = []) ∨
      (S'.err = none ∧ S'.rd.data.length < S.rd.data.length))

/-- A handler that never returns an error. -/
def NeverFails {σ : Type} (f : Handler σ) : Prop :=
  ∀ (h : σ) (data : List Byte) (checksum : Int) (key : String), (f h data checksum key).2 = none

/-- The invariant of the loop of `Scan` under `ShardingWithHandle` over a reader
of `B`: the bytes consumed so far are a segment `pre` of `B`, and the split
function run once over all of `B` reaches the state the scanner is in after
consuming `pre`. -/
def ScanInv {σ : Type} (md5Sum : List Byte → List Byte) (r : RobinFinger) (f : Handler σ)
    (B : List Byte) (h0 : σ) (S : Scanner σ) : Prop :=
  ∃ pre : List Byte, pre ++ (S.data ++ S.rd.data) = B ∧
    StepsTo (splitStep md5Sum r f B true) ⟨0, r.min - r.win, h0⟩
      ⟨pre.length, S.offset, S.h⟩ ∧
    r.min ≤ S.offset + r.win ∧ S.offset + r.win ≤ r.max + 1 ∧
    S.start + S.data.length ≤ S.bufLen ∧
    (S.err = none ∨ (S.err = some GoError.EOF ∧ S.rd.data = [])) ∧
    (∀ k ∈ S.rd.sched, 0 < k)

/-- The measure that decreases along the loop of `Scan`. -/
def Scanner.room {σ : Type} (S : Scanner σ) : Nat :=
  2 * S.rd.data.length + (if S.err = none then 1 else 0)

/-- A chunk `a` delivered to the handler agrees with the chunk `b` that
`Sharding` stores: same data, same key, and the same checksum unless the chunk
is `max` bytes long. -/
def ChunkAgree (r : RobinFinger) (a b : polynomialInfo) : Prop :=
  a.data = b.data ∧ a.key = b.key ∧
    (a.robinChecksum = b.robinChecksum ∨ (b.data.length : Int) = r.max)

/-- The chunks delivered to the handler agree with those `Sharding` stores: all
of them by `ChunkAgree`, but for the last, which agrees in data and key. -/
def FinalAgree (r : RobinFinger) (out poly : List polynomialInfo) : Prop :=
  List.Forall₂ (ChunkAgree r) out poly ∨
    ∃ out0 poly0 a b, out = out0 ++ [a] ∧ poly = poly0 ++ [b] ∧
      List.Forall₂ (ChunkAgree r) out0 poly0 ∧ a.data = b.data ∧ a.key = b.key

/-- A handler that counts its invocations and never fails. -/
def countCalls : Handler Nat := fun n _ _ _ => (n + 1, none)

/-- The configuration that `Init(3, 512, 2048, 1024, 31)`, the call of
`fileDiff.go`, leaves in the receiver. -/
def referenceConfig : RobinFinger :=
  { min := 512, max := 2048, avg := 1024, win := 31, prime := 3,
    polynomialFactor := InitFill 3 32 1 }

/-- The weighted sum of a window of 31 bytes in unbounded integers:
`sum_{i=0}^{30} window[i] * 3^(31-i)`. -/
def exactWeightedSum (window : List Byte) : Int :=
  ((List.range 31).map fun i => ((window.getD i 0).val : Int) * 3 ^ (31 - i)).sum

/-- The earliest-boundary rule for a chunk `p` that starts at offset `s` of `B`:
every candidate length `L'` with `min <= L' < len(p)` has a window
`B[s+L'-win .. s+L')` whose weighted sum fails the boundary test; if
`len(p) < max` the window ending at `len(p)` passes it and the checksum of `p`
is that sum; if `len(p) = max` the checksum is `0`. -/
def EarliestBoundary (r : RobinFinger) (B : List Byte) (s : Nat) (p : polynomialInfo) : Prop :=
  (∀ L : Int, r.min ≤ L → L < p.data.length →
      ∃ sum, rollChecksum r (windowAt B s (L - r.win) r.win) = some sum ∧
        Int.tmod sum r.avg ≠ r.prime) ∧
    ((p.data.length : Int) < r.max →
      ∃ sum, rollChecksum r (windowAt B s (p.data.length - r.win) r.win) = some sum ∧
        Int.tmod sum r.avg = r.prime ∧ p.robinChecksum = sum) ∧
    ((p.data.length : Int) = r.max → p.robinChecksum = 0)

/-- An outcome of an iteration of the loop of `Sharding` on `B[k:]`, seen from
`B` after the chunks `pre` were stored. -/
def shiftSharding (k : Nat) (pre : List polynomialInfo) :
    ShardingState ⊕ Run (RobinFingerInfo × Option GoError) →
      ShardingState ⊕ Run (RobinFingerInfo × Option GoError)
  | Sum.inl s => Sum.inl ⟨s.startPos + k, s.winStartPos, pre ++ s.poly⟩
  | Sum.inr (Run.done (rfi, e)) => Sum.inr (Run.done (⟨pre ++ rfi.poly⟩, e))
  | Sum.inr (Run.panic p) => Sum.inr (Run.panic p)
  | Sum.inr Run.fuel => Sum.inr Run.fuel

/-- A result of the loop of `Sharding` on `B[k:]`, seen from `B` after the
chunks `pre` were stored. -/
def shiftResult (pre : List polynomialInfo) :
    Run (RobinFingerInfo × Option GoError) → Run (RobinFingerInfo × Option GoError)
  | Run.done (rfi, e) => Run.done (⟨pre ++ rfi.poly⟩, e)
  | Run.panic p => Run.panic p
  | Run.fuel => Run.fuel

/-- The state a handler `f` started in `h` is left in after it was called, in
order, on the chunks `l` (and returned `nil` each time). -/
def runHandler {σ : Type} (f : Handler σ) (h : σ) (l : List polynomialInfo) : σ :=
  l.foldl (fun h p => (f h p.data p.robinChecksum p.key).1) h

/-- An outcome of the split function under the handler `collect`, read as the
outcome under a handler `f` started in `h0` that is called on the same chunks. -/
def handlerOut {σ : Type} (f : Handler σ) (h0 : σ) :
    SplitState (List polynomialInfo) ⊕ Run (SplitReturn (List polynomialInfo)) →
      SplitState σ ⊕ Run (SplitReturn σ)
  | Sum.inl s => Sum.inl ⟨s.sz, s.offset, runHandler f h0 s.h⟩
  | Sum.inr (Run.done ret) =>
    Sum.inr (Run.done ⟨ret.advance, ret.err, ret.offset, runHandler f h0 ret.h⟩)
  | Sum.inr (Run.panic p) => Sum.inr (Run.panic p)
  | Sum.inr Run.fuel => Sum.inr Run.fuel

/-- A result of the split function under the handler `collect`, read as the
result under a handler `f` started in `h0` that is called on the same chunks. -/
def handlerRun {σ : Type} (f : Handler σ) (h0 : σ) :
    Run (SplitReturn (List polynomialInfo)) → Run (SplitReturn σ)
  | Run.done ret => Run.done ⟨ret.advance, ret.err, ret.offset, runHandler f h0 ret.h⟩
  | Run.panic p => Run.panic p
  | Run.fuel => Run.fuel

/-- The state of `Scan` while the split function keeps asking for more bytes of
a reader of `B` that delivers all that fits: nothing was consumed, and the
buffer is full. -/
def FillInv {σ : Type} (B : List Byte) (o : Int) (h0 : σ) (S : Scanner σ) : Prop :=
  S.err = none ∧ S.start = 0 ∧ S.offset = o ∧ S.h = h0 ∧ S.data ++ S.rd.data = B ∧
    S.rd.sched = [] ∧ S.data.length = S.bufLen ∧ S.bufLen ≤ MaxScanTokenSize

/-- The configuration `Init(3, 3, 6, 4, -1)` leaves: a window of `-1` bytes. -/
def negativeWindowConfig : RobinFinger :=
  { min := 3, max := 6, avg := 4, win := -1, prime := 3, polynomialFactor := [] }

/-- The configuration `Init(3, 65537, 65537, 4, 2)` leaves: chunks longer than
the largest token of a `bufio.Scanner`. -/
def longChunkConfig : RobinFinger :=
  { min := 65537, max := 65537, avg := 4, win := 2, prime := 3, polynomialFactor := [1, 3, 9] }

/-- A buffer of `65536` zero bytes. -/
def zeroBuffer : List Byte := List.replicate 65536 0

/-- A handler that counts its invocations and returns the error `e` on its
`k`-th invocation, `nil` on the others. -/
def failAt (k : Nat) (e : GoError) : Handler Nat :=
  fun n _ _ _ => (n + 1, if n + 1 = k then some e else none)

/-! # Verification -/

/-! ## Loops -/

theorem iterate_invariant {σ ρ : Type} (step : σ → σ ⊕ Run ρ) (Inv : σ → Prop)
    (Post : Run ρ → Prop)
    (hstep : ∀ s s', Inv s → step s = Sum.inl s' → Inv s')
    (hout : ∀ s out, Inv s → step s = Sum.inr out → Post out)
    (hfuel : Post Run.fuel) : ∀ n s, Inv s → Post (iterate step n s) := by
  intro n
  induction n with
  | zero => intro s _; simpa [iterate] using hfuel
  | succ n ih =>
    intro s hs
    cases h : step s with
    | inl s' => simpa [iterate, h] using ih s' (hstep s s' hs h)
    | inr out => simpa [iterate, h] using hout s out hs h

theorem iterate_mono {σ ρ : Type} (step : σ → σ ⊕ Run ρ) :
    ∀ n s, iterate step n s ≠ Run.fuel → ∀ k, iterate step (n + k) s = iterate step n s := by
  intro n
  induction n with
  | zero => intro s h; simp [iterate] at h
  | succ n ih =>
    intro s h k
    have e : n + 1 + k = (n + k) + 1 := by omega
    rw [e]
    cases hs : step s with
    | inl s' =>
      simp only [iterate, hs] at h ⊢
      exact ih s' h k
    | inr out => simp [iterate, hs]

theorem iterate_terminates {σ ρ : Type} (step : σ → σ ⊕ Run ρ) (Inv : σ → Prop)
    (μ : σ → Nat)
    (hstep : ∀ s s', Inv s → step s = Sum.inl s' → Inv s' ∧ μ s' < μ s)
    (hout : ∀ s out, Inv s → step s = Sum.inr out → out ≠ Run.fuel) :
    ∀ n s, Inv s → μ s < n → iterate step n s ≠ Run.fuel := by
  intro n
  induction n with
  | zero => intro s _ h; omega
  | succ n ih =>
    intro s hs hlt
    cases h : step s with
    | inl s' =>
      have := hstep s s' hs h
      simpa [iterate, h] using ih s' this.1 (by omega)
    | inr out => simpa [iterate, h] using hout s out hs h

theorem iterate_le {σ ρ : Type} (step : σ → σ ⊕ Run ρ) (n m : Nat) (s : σ)
    (h : iterate step n s ≠ Run.fuel) (hnm : n ≤ m) :
    iterate step m s = iterate step n s := by
  obtain ⟨k, rfl⟩ := Nat.exists_eq_add_of_le hnm
  exact iterate_mono step n s h k

/-! ## Slices -/

theorem slice_eq_some {b c : List Byte} {lo hi : Int} (h : slice b lo hi = some c) :
    0 ≤ lo ∧ lo ≤ hi ∧ hi ≤ b.length ∧ c = (b.take hi.toNat).drop lo.toNat := by
  unfold slice at h
  split at h
  · rename_i hc
    simp only [Option.some.injEq] at h
    exact ⟨hc.1, hc.2.1, hc.2.2, h.symm⟩
  · simp at h

theorem slice_of_le {b : List Byte} {lo hi : Int} (h0 : 0 ≤ lo) (h1 : lo ≤ hi)
    (h2 : hi ≤ b.length) : slice b lo hi = some ((b.take hi.toNat).drop lo.toNat) := by
  unfold slice
  rw [if_pos ⟨h0, h1, h2⟩]

theorem slice_tail {b : List Byte} {lo : Int} (h0 : 0 ≤ lo) (h1 : lo ≤ b.length) :
    slice b lo b.length = some (b.drop lo.toNat) := by
  rw [slice_of_le h0 h1 le_rfl]
  simp

theorem slice_head {b : List Byte} {hi : Int} (h0 : 0 ≤ hi) (h1 : hi ≤ b.length) :
    slice b 0 hi = some (b.take hi.toNat) := by
  rw [slice_of_le le_rfl h0 h1]
  simp

theorem ShardingStep_inl {md5Sum : List Byte → List Byte} {r : RobinFinger}
    {src : List Byte} {s s' : ShardingState}
    (h : ShardingStep md5Sum r src s = Sum.inl s') :
    0 ≤ s.startPos ∧ s.startPos < src.length ∧
    s.winStartPos + r.win < (src.drop s.startPos.toNat).length ∧
    ((r.max ≤ s.winStartPos + r.win ∧ 0 ≤ r.max ∧
        s' = ⟨s.startPos + r.max, r.min - r.win,
              appendSharding md5Sum s.poly ((src.drop s.startPos.toNat).take r.max.toNat) 0⟩) ∨
     (s.winStartPos + r.win < r.max ∧ 0 ≤ s.winStartPos ∧ 0 ≤ r.win ∧ r.avg ≠ 0 ∧
        ∃ sum, rollChecksum r (windowAt src s.startPos s.winStartPos r.win) = some sum ∧
          ((Int.tmod sum r.avg = r.prime ∧
              s' = ⟨s.startPos + (s.winStartPos + r.win), r.min - r.win,
                    appendSharding md5Sum s.poly
                      ((src.drop s.startPos.toNat).take (s.winStartPos + r.win).toNat) sum⟩) ∨
           (Int.tmod sum r.avg ≠ r.prime ∧ s' = ⟨s.startPos, s.winStartPos + 1, s.poly⟩)))) := by
  unfold ShardingStep at h
  split at h
  · simp at h
  rename_i h1
  split at h
  · simp at h
  rename_i buf hbuf
  obtain ⟨hb0, hb1, -, rfl⟩ := slice_eq_some hbuf
  simp only [Int.toNat_ofNat, List.take_length] at h ⊢
  split at h
  · simp at h
  rename_i h2
  refine ⟨hb0, by omega, by omega, ?_⟩
  split at h
  · rename_i h3
    split at h
    · simp at h
    rename_i chunk hchunk
    obtain ⟨-, hc1, -, rfl⟩ := slice_eq_some hchunk
    left
    simp only [Sum.inl.injEq] at h
    refine ⟨h3, hc1, ?_⟩
    rw [← h]; simp
  · rename_i h3
    split at h
    · simp at h
    rename_i winData hwin
    obtain ⟨hw0, hw1, -, rfl⟩ := slice_eq_some hwin
    split at h
    · simp at h
    rename_i sum hsum
    split at h
    · simp at h
    rename_i havg
    right
    refine ⟨by omega, hw0, by omega, havg, sum, hsum, ?_⟩
    split at h
    · rename_i hp
      split at h
      · simp at h
      rename_i chunk hchunk
      obtain ⟨-, -, -, rfl⟩ := slice_eq_some hchunk
      left
      simp only [Sum.inl.injEq] at h
      refine ⟨hp, ?_⟩
      rw [← h]; simp
    · rename_i hp
      right
      simp only [Sum.inl.injEq] at h
      exact ⟨hp, h.symm⟩

theorem ShardingStep_done {md5Sum : List Byte → List Byte} {r : RobinFinger}
    {src : List Byte} {s : ShardingState} {rfi : RobinFingerInfo} {e : Option GoError}
    (h : ShardingStep md5Sum r src s = Sum.inr (Run.done (rfi, e))) :
    e = none ∧
    (((src.length : Int) ≤ s.startPos ∧ rfi.poly = s.poly) ∨
     (0 ≤ s.startPos ∧ s.startPos < src.length ∧
        ((src.drop s.startPos.toNat).length : Int) ≤ s.winStartPos + r.win ∧
        rfi.poly = appendSharding md5Sum s.poly (src.drop s.startPos.toNat) 0)) := by
  unfold ShardingStep at h
  split at h
  · rename_i h1
    simp only [Sum.inr.injEq, Run.done.injEq, Prod.mk.injEq] at h
    refine ⟨h.2.symm, Or.inl ⟨h1, ?_⟩⟩
    rw [← h.1]
  rename_i h1
  split at h
  · simp at h
  rename_i buf hbuf
  obtain ⟨hb0, hb1, -, rfl⟩ := slice_eq_some hbuf
  simp only [Int.toNat_ofNat, List.take_length] at h ⊢
  split at h
  · rename_i h2
    simp only [Sum.inr.injEq, Run.done.injEq, Prod.mk.injEq] at h
    refine ⟨h.2.symm, Or.inr ⟨hb0, by omega, h2, ?_⟩⟩
    rw [← h.1]
  split at h
  · split at h <;> simp at h
  split at h
  · simp at h
  split at h
  · simp at h
  split at h
  · simp at h
  split at h
  · split at h <;> simp at h
  · simp at h

theorem Sharding_induction (md5Sum : List Byte → List Byte) (r : RobinFinger)
    (src : List Byte) (Inv : ShardingState → Prop) (P : RobinFingerInfo → Prop)
    (hsmall : ((src.length : Int) < r.min ∨ r.min < r.win) →
      P ⟨appendSharding md5Sum [] src 0⟩)
    (hinit : ¬ ((src.length : Int) < r.min ∨ r.min < r.win) → Inv ⟨0, r.min - r.win, []⟩)
    (hstep : ∀ s s', Inv s → ShardingStep md5Sum r src s = Sum.inl s' → Inv s')
    (hdone : ∀ s rfi e, Inv s →
      ShardingStep md5Sum r src s = Sum.inr (Run.done (rfi, e)) → P rfi)
    (fuel : Nat) (rfi : RobinFingerInfo) (e : Option GoError)
    (h : Sharding md5Sum r src fuel = Run.done (rfi, e)) : P rfi := by
  unfold Sharding at h
  split at h
  · rename_i hc
    simp only [Run.done.injEq, Prod.mk.injEq] at h
    rw [← h.1]
    exact hsmall hc
  · rename_i hc
    have key := iterate_invariant (ShardingStep md5Sum r src) Inv
      (fun out => ∀ rfi e, out = Run.done (rfi, e) → P rfi) hstep
      (fun s out hs hso rfi e he => hdone s rfi e hs (he ▸ hso))
      (fun _ _ he => by simp at he) fuel ⟨0, r.min - r.win, []⟩ (hinit hc)
    exact key rfi e h

theorem Sharding_err_nil (md5Sum : List Byte → List Byte) (r : RobinFinger)
    (src : List Byte) (fuel : Nat) (rfi : RobinFingerInfo) (e : Option GoError)
    (h : Sharding md5Sum r src fuel = Run.done (rfi, e)) : e = none := by
  unfold Sharding at h
  split at h
  · simp only [Run.done.injEq, Prod.mk.injEq] at h
    exact h.2.symm
  · have key := iterate_invariant (ShardingStep md5Sum r src) (fun _ => True)
      (fun out => ∀ rfi e, out = Run.done (rfi, e) → e = none) (fun _ _ _ _ => trivial)
      (fun s out _ hso rfi e he => (ShardingStep_done (he ▸ hso)).1)
      (fun _ _ he => by simp at he) fuel ⟨0, r.min - r.win, []⟩ trivial
    exact key rfi e h

theorem Sharding_keys (md5Sum : List Byte → List Byte) (r : RobinFinger)
    (src : List Byte) (fuel : Nat) (rfi : RobinFingerInfo) (e : Option GoError)
    (h : Sharding md5Sum r src fuel = Run.done (rfi, e)) :
    ∀ p ∈ rfi.poly, p.key = genKey md5Sum p.data := by
  refine Sharding_induction md5Sum r src
    (fun s => ∀ p ∈ s.poly, p.key = genKey md5Sum p.data)
    (fun rfi => ∀ p ∈ rfi.poly, p.key = genKey md5Sum p.data) ?_ ?_ ?_ ?_ fuel rfi e h
  · intro _ p hp
    simp [appendSharding] at hp
    rw [hp]
  · intro _ p hp
    simp at hp
  · intro s s' hs hstep p hp
    obtain ⟨-, -, -, hcase⟩ := ShardingStep_inl hstep
    rcases hcase with ⟨-, -, rfl⟩ | ⟨-, -, -, -, sum, -, ⟨-, rfl⟩ | ⟨-, rfl⟩⟩
    · simp only [appendSharding, List.mem_append, List.mem_singleton] at hp
      rcases hp with hp | rfl
      · exact hs p hp
      · rfl
    · simp only [appendSharding, List.mem_append, List.mem_singleton] at hp
      rcases hp with hp | rfl
      · exact hs p hp
      · rfl
    · exact hs p hp
  · intro s rfi e hs hdone p hp
    obtain ⟨-, hcase⟩ := ShardingStep_done hdone
    rcases hcase with ⟨-, hpoly⟩ | ⟨-, -, -, hpoly⟩
    · rw [hpoly] at hp; exact hs p hp
    · rw [hpoly] at hp
      simp only [appendSharding, List.mem_append, List.mem_singleton] at hp
      rcases hp with hp | rfl
      · exact hs p hp
      · rfl

theorem Sharding_concat (md5Sum : List Byte → List Byte) (r : RobinFinger)
    (src : List Byte) (fuel : Nat) (rfi : RobinFingerInfo) (e : Option GoError)
    (h : Sharding md5Sum r src fuel = Run.done (rfi, e)) :
    (rfi.poly.map fun p => p.data).flatten = src := by
  refine Sharding_induction md5Sum r src
    (fun s => 0 ≤ s.startPos ∧ s.startPos ≤ src.length ∧
      (s.poly.map fun p => p.data).flatten = src.take s.startPos.toNat)
    (fun rfi => (rfi.poly.map fun p => p.data).flatten = src) ?_ ?_ ?_ ?_ fuel rfi e h
  · intro _
    simp [appendSharding]
  · intro _
    simp
  · intro s s' ⟨h0, h1, hj⟩ hstep
    obtain ⟨-, hlt, hw, hcase⟩ := ShardingStep_inl hstep
    simp only [List.length_drop] at hw
    rcases hcase with ⟨hm, hm0, rfl⟩ | ⟨hm, hw0, hwin, -, sum, -, ⟨-, rfl⟩ | ⟨-, rfl⟩⟩
    · refine ⟨by simp; omega, by simp; omega, ?_⟩
      simp only [appendSharding, List.map_append, List.flatten_append, hj, List.map_cons,
        List.map_nil, List.flatten_cons, List.flatten_nil, List.append_nil]
      rw [Int.toNat_add h0 hm0, List.take_add]
    · refine ⟨by simp; omega, by simp; omega, ?_⟩
      simp only [appendSharding, List.map_append, List.flatten_append, hj, List.map_cons,
        List.map_nil, List.flatten_cons, List.flatten_nil, List.append_nil]
      rw [Int.toNat_add h0 (by omega), List.take_add]
    · exact ⟨h0, h1, hj⟩
  · intro s rfi e ⟨h0, h1, hj⟩ hdone
    obtain ⟨-, hcase⟩ := ShardingStep_done hdone
    rcases hcase with ⟨hge, hpoly⟩ | ⟨-, -, -, hpoly⟩
    · rw [hpoly, hj]
      apply List.take_of_length_le
      omega
    · rw [hpoly]
      simp only [appendSharding, List.map_append, List.flatten_append, hj, List.map_cons,
        List.map_nil, List.flatten_cons, List.flatten_nil, List.append_nil]
      exact List.take_append_drop _ _

/-! ## int64 arithmetic -/

theorem wrapInt64_modEq (x : Int) : wrapInt64 x ≡ x [ZMOD 2 ^ 64] := by
  unfold wrapInt64 Int.ModEq
  omega

theorem wrapInt64_congr {x y : Int} (h : x ≡ y [ZMOD 2 ^ 64]) : wrapInt64 x = wrapInt64 y := by
  unfold wrapInt64
  unfold Int.ModEq at h
  omega

theorem wrapInt64_of_range {x : Int} (h0 : -2 ^ 63 ≤ x) (h1 : x < 2 ^ 63) : wrapInt64 x = x := by
  unfold wrapInt64
  omega

theorem wrapInt64_range (x : Int) : -2 ^ 63 ≤ wrapInt64 x ∧ wrapInt64 x < 2 ^ 63 := by
  unfold wrapInt64
  omega

theorem wrapInt64_idem (x : Int) : wrapInt64 (wrapInt64 x) = wrapInt64 x :=
  wrapInt64_congr (wrapInt64_modEq x)

/-! ## The weight table -/

theorem InitFill_length (prime : Int) : ∀ (n : Nat) (f : Int), (InitFill prime n f).length = n := by
  intro n
  induction n with
  | zero => intro f; rfl
  | succ n ih => intro f; simp [InitFill, ih]

theorem InitFill_get (prime : Int) : ∀ (n : Nat) (f : Int) (i : Nat), i < n →
    (InitFill prime n f).get? i = some (if i = 0 then f else wrapInt64 (f * prime ^ i)) := by
  intro n
  induction n with
  | zero => intro f i h; omega
  | succ n ih =>
    intro f i h
    cases i with
    | zero => simp [InitFill]
    | succ i =>
      simp only [InitFill, List.get?_cons_succ]
      rw [ih _ i (by omega)]
      simp only [Nat.succ_ne_zero, if_false]
      congr 1
      split
      · rename_i h0
        subst h0
        simp
      · apply wrapInt64_congr
        have := (wrapInt64_modEq (f * prime)).mul_right (prime ^ i)
        calc wrapInt64 (f * prime) * prime ^ i ≡ f * prime * prime ^ i [ZMOD 2 ^ 64] := this
          _ = f * prime ^ (i + 1) := by ring

theorem InitFill_one_get (prime : Int) (n i : Nat) (h : i < n) :
    (InitFill prime n 1).get? i = some (wrapInt64 (prime ^ i)) := by
  rw [InitFill_get prime n 1 i h]
  split
  · rename_i h0
    subst h0
    simp [wrapInt64]
  · simp

theorem index_eq_some {l : List Int} {i f : Int} (h : index l i = some f) :
    0 ≤ i ∧ i.toNat < l.length ∧ l.getD i.toNat 0 = f := by
  unfold index at h
  split at h
  · rename_i h0
    rw [List.get?_eq_some] at h
    obtain ⟨hlt, hget⟩ := h
    refine ⟨h0, hlt, ?_⟩
    rw [List.getD_eq_getElem _ _ hlt]
    simpa using hget
  · simp at h

theorem rollLoop_eq (r : RobinFinger) : ∀ (vs : List Byte) (i : Nat) (acc s : Int),
    wrapInt64 acc = acc → rollLoop r vs i acc = some s →
    s = wrapInt64 (acc + ((List.range vs.length).map fun j =>
      ((vs.getD j 0).val : Int) * r.polynomialFactor.getD (r.win.toNat - (i + j)) 0).sum) := by
  intro vs
  induction vs with
  | nil =>
    intro i acc s hacc h
    simp only [rollLoop, Option.some.injEq] at h
    simp [← h, hacc]
  | cons v vs ih =>
    intro i acc s hacc h
    simp only [rollLoop] at h
    split at h
    · simp at h
    rename_i f hf
    obtain ⟨h0, -, hget⟩ := index_eq_some hf
    have hidx : (r.win - (i : Int)).toNat = r.win.toNat - i := by omega
    rw [hidx] at hget
    rw [ih (i + 1) _ s (wrapInt64_idem _) h]
    apply wrapInt64_congr
    simp only [List.length_cons, List.range_succ_eq_map, List.map_cons, List.sum_cons,
      List.map_map, List.getD_cons_zero, Nat.add_zero, hget]
    have e1 : ((fun j => ((List.getD (v :: vs) j 0).val : Int) *
          r.polynomialFactor.getD (r.win.toNat - (i + j)) 0) ∘ Nat.succ)
        = fun j => ((vs.getD j 0).val : Int) *
          r.polynomialFactor.getD (r.win.toNat - (i + 1 + j)) 0 := by
      funext j
      simp only [Function.comp, List.getD_cons_succ]
      congr 3
      omega
    rw [e1]
    have := ((wrapInt64_modEq (acc + wrapInt64 ((v.val : Int) * f))).trans
      ((wrapInt64_modEq ((v.val : Int) * f)).add_left acc))
    calc _ ≡ acc + (v.val : Int) * f + _ [ZMOD 2 ^ 64] := this.add_right _
      _ = _ := by ring

theorem rollChecksum_eq {r : RobinFinger} {winData : List Byte} {s : Int}
    (h : rollChecksum r winData = some s) (hlen : winData.length = r.win.toNat) :
    s = specWeightedSum r.polynomialFactor r.win.toNat winData := by
  have := rollLoop_eq r winData 0 0 s (by decide) h
  rw [this]
  unfold specWeightedSum
  simp [hlen]

theorem rollLoop_isSome (r : RobinFinger) : ∀ (vs : List Byte) (i : Nat) (acc : Int),
    0 ≤ r.win → (i + vs.length : Int) ≤ r.win → r.win < r.polynomialFactor.length →
    ∃ s, rollLoop r vs i acc = some s := by
  intro vs
  induction vs with
  | nil => intro i acc _ _ _; exact ⟨acc, rfl⟩
  | cons v vs ih =>
    intro i acc h0 hlen htab
    simp only [rollLoop]
    have : index r.polynomialFactor (r.win - i) =
        some (r.polynomialFactor.getD (r.win - i).toNat 0) := by
      unfold index
      simp only [List.length_cons] at hlen
      rw [if_pos (by push_cast at hlen; omega)]
      have hlt : (r.win - (i : Int)).toNat < r.polynomialFactor.length := by omega
      rw [List.get?_eq_get hlt, List.getD_eq_getElem _ _ hlt]
      rfl
    rw [this]
    simp only [List.length_cons] at hlen
    exact ih (i + 1) _ h0 (by push_cast at hlen ⊢; omega) htab

theorem rollChecksum_isSome {r : RobinFinger} {winData : List Byte}
    (h0 : 0 ≤ r.win) (hlen : (winData.length : Int) ≤ r.win)
    (htab : r.win < r.polynomialFactor.length) : ∃ s, rollChecksum r winData = some s :=
  rollLoop_isSome r winData 0 0 h0 (by simpa using hlen) htab

theorem slice_eq_none {b : List Byte} {lo hi : Int} (h : slice b lo hi = none) :
    ¬ (0 ≤ lo ∧ lo ≤ hi ∧ hi ≤ b.length) := by
  unfold slice at h
  split at h
  · simp at h
  · assumption

theorem ShardingStep_no_panic {md5Sum : List Byte → List Byte} {r : RobinFinger}
    {src : List Byte} {s : ShardingState} {p : Panic}
    (hwin : 0 ≤ r.win) (htab : r.win < r.polynomialFactor.length) (havg : r.avg ≠ 0)
    (hmax : 0 ≤ r.max) (hs : 0 ≤ s.startPos) (hw : 0 ≤ s.winStartPos) :
    ShardingStep md5Sum r src s ≠ Sum.inr (Run.panic p) := by
  intro h
  unfold ShardingStep at h
  split at h
  · simp at h
  rename_i h1
  split at h
  · rename_i hn
    exact slice_eq_none hn ⟨hs, by omega, le_rfl⟩
  rename_i buf hbuf
  obtain ⟨-, -, -, rfl⟩ := slice_eq_some hbuf
  simp only [Int.toNat_ofNat, List.take_length] at h
  split at h
  · simp at h
  rename_i h2
  split at h
  · rename_i h3
    split at h
    · rename_i hn
      exact slice_eq_none hn ⟨le_rfl, hmax, by omega⟩
    · simp at h
  · split at h
    · rename_i hn
      exact slice_eq_none hn ⟨hw, by omega, by omega⟩
    rename_i winData hwd
    obtain ⟨-, -, -, rfl⟩ := slice_eq_some hwd
    split at h
    · rename_i hn
      have hlen : (((List.take (s.winStartPos + r.win).toNat
          (List.drop s.startPos.toNat src)).drop s.winStartPos.toNat).length : Int) ≤ r.win := by
        simp only [List.length_drop, List.length_take]
        omega
      obtain ⟨sum, hsum⟩ := rollChecksum_isSome hwin hlen htab
      rw [hsum] at hn
      simp at hn
    split at h
    · split at h
      · rename_i hn
        exact slice_eq_none hn ⟨le_rfl, by omega, by omega⟩
      · simp at h
    · simp at h

theorem Sharding_returns (md5Sum : List Byte → List Byte) (r : RobinFinger)
    (src : List Byte) (hwin : 0 ≤ r.win) (hmin : r.win < r.min) (hmax : 1 ≤ r.max)
    (havg : r.avg ≠ 0) (htab : r.win < r.polynomialFactor.length) :
    ∃ rfi, ∀ fuel, src.length < fuel → Sharding md5Sum r src fuel = Run.done (rfi, none) := by
  by_cases hc : (src.length : Int) < r.min ∨ r.min < r.win
  · exact ⟨_, fun fuel _ => by unfold Sharding; rw [if_pos hc]⟩
  · set s0 : ShardingState := ⟨0, r.min - r.win, []⟩ with hs0
    let Inv : ShardingState → Prop := fun s =>
      0 ≤ s.startPos ∧ r.min ≤ s.winStartPos + r.win ∧
        (s.winStartPos + r.win ≤ r.min ∨ s.winStartPos + r.win ≤ r.max)
    have hInv0 : Inv s0 := ⟨le_rfl, by simp [hs0], Or.inl (by simp [hs0])⟩
    have hstep : ∀ s s', Inv s → ShardingStep md5Sum r src s = Sum.inl s' →
        Inv s' ∧ s'.room r src < s.room r src := by
      intro s s' ⟨h0, h1, h2⟩ hst
      obtain ⟨-, hlt, hw, hcase⟩ := ShardingStep_inl hst
      simp only [List.length_drop] at hw
      unfold ShardingState.room
      rcases hcase with ⟨hm, hm0, rfl⟩ | ⟨hm, hw0, -, -, sum, -, ⟨-, rfl⟩ | ⟨-, rfl⟩⟩
      · refine ⟨⟨by simp; omega, by simp, Or.inl (by simp)⟩, ?_⟩
        simp only
        omega
      · refine ⟨⟨by simp; omega, by simp, Or.inl (by simp)⟩, ?_⟩
        simp only
        omega
      · refine ⟨⟨h0, by simp; omega, Or.inr (by simp; omega)⟩, ?_⟩
        simp only
        omega
    have hnf : ∀ fuel, src.length < fuel →
        iterate (ShardingStep md5Sum r src) fuel s0 ≠ Run.fuel := by
      intro fuel hf
      refine iterate_terminates _ Inv (ShardingState.room r src) hstep ?_ fuel s0 hInv0 ?_
      · intro s out hs hso hout
        subst hout
        unfold ShardingStep at hso
        repeat' split at hso
        all_goals simp at hso
      · unfold ShardingState.room
        simp only [hs0]
        omega
    have hnp : ∀ fuel p, iterate (ShardingStep md5Sum r src) fuel s0 ≠ Run.panic p := by
      intro fuel p
      refine iterate_invariant (ShardingStep md5Sum r src) Inv
        (fun out => out ≠ Run.panic p) (fun s s' hs hst => (hstep s s' hs hst).1) ?_
        (by simp) fuel s0 hInv0
      intro s out ⟨h0, h1, h2⟩ hso hout
      subst hout
      exact ShardingStep_no_panic hwin htab havg (by omega) h0 (by omega) hso
    have hdone : ∀ fuel, src.length < fuel → ∃ rfi,
        iterate (ShardingStep md5Sum r src) fuel s0 = Run.done (rfi, none) := by
      intro fuel hf
      cases hres : iterate (ShardingStep md5Sum r src) fuel s0 with
      | fuel => exact absurd hres (hnf fuel hf)
      | panic p => exact absurd hres (hnp fuel p)
      | done a =>
        obtain ⟨rfi, e⟩ := a
        have : Sharding md5Sum r src fuel = Run.done (rfi, e) := by
          unfold Sharding; rw [if_neg hc]; exact hres
        rw [Sharding_err_nil md5Sum r src fuel rfi e this]
        exact ⟨rfi, rfl⟩
    obtain ⟨rfi, hrfi⟩ := hdone (src.length + 1) (by omega)
    refine ⟨rfi, fun fuel hf => ?_⟩
    unfold Sharding
    rw [if_neg hc, ← hrfi]
    exact iterate_le _ _ _ _ (by rw [hrfi]; simp) (by omega)

theorem Sharding_nonfinal_bounds (md5Sum : List Byte → List Byte) (r : RobinFinger)
    (src : List Byte) (hmax : r.min ≤ r.max)
    (fuel : Nat) (rfi : RobinFingerInfo) (e : Option GoError)
    (h : Sharding md5Sum r src fuel = Run.done (rfi, e)) :
    ∀ i p, i + 1 < rfi.poly.length → rfi.poly.get? i = some p →
      r.min ≤ p.data.length ∧ (p.data.length : Int) ≤ r.max := by
  refine Sharding_induction md5Sum r src
    (fun s => r.min ≤ s.winStartPos + r.win ∧ s.winStartPos + r.win ≤ r.max ∧
      ∀ p ∈ s.poly, r.min ≤ p.data.length ∧ (p.data.length : Int) ≤ r.max)
    (fun rfi => ∀ i p, i + 1 < rfi.poly.length → rfi.poly.get? i = some p →
      r.min ≤ p.data.length ∧ (p.data.length : Int) ≤ r.max) ?_ ?_ ?_ ?_ fuel rfi e h
  · intro _ i p hi
    simp [appendSharding] at hi
  · intro _
    exact ⟨by simp, by simpa using hmax, by simp⟩
  · intro s s' ⟨h1, h2, hp⟩ hstep
    obtain ⟨h0, hlt, hw, hcase⟩ := ShardingStep_inl hstep
    simp only [List.length_drop] at hw
    rcases hcase with ⟨hm, hm0, rfl⟩ | ⟨hm, hw0, hwin, -, sum, -, ⟨-, rfl⟩ | ⟨-, rfl⟩⟩
    · refine ⟨by simp, by simpa using hmax, ?_⟩
      intro p hpm
      simp only [appendSharding, List.mem_append, List.mem_singleton] at hpm
      rcases hpm with hpm | rfl
      · exact hp p hpm
      · simp only [List.length_take, List.length_drop]
        omega
    · refine ⟨by simp, by simpa using hmax, ?_⟩
      intro p hpm
      simp only [appendSharding, List.mem_append, List.mem_singleton] at hpm
      rcases hpm with hpm | rfl
      · exact hp p hpm
      · simp only [List.length_take, List.length_drop]
        omega
    · exact ⟨by simp; omega, by simp; omega, hp⟩
  · intro s rfi e ⟨h1, h2, hp⟩ hdone i p hi hget
    obtain ⟨-, hcase⟩ := ShardingStep_done hdone
    rcases hcase with ⟨-, hpoly⟩ | ⟨-, -, -, hpoly⟩
    · rw [hpoly] at hget
      exact hp p (List.get?_mem hget)
    · rw [hpoly] at hget hi
      simp only [appendSharding, List.length_append, List.length_singleton] at hi
      simp only [appendSharding] at hget
      rw [List.get?_append (by omega)] at hget
      exact hp p (List.get?_mem hget)

theorem Sharding_checksums (md5Sum : List Byte → List Byte) (r : RobinFinger)
    (src : List Byte) (fuel : Nat) (rfi : RobinFingerInfo) (e : Option GoError)
    (h : Sharding md5Sum r src fuel = Run.done (rfi, e)) :
    ∀ p ∈ rfi.poly, checksumMeaning r p := by
  refine Sharding_induction md5Sum r src
    (fun s => ∀ p ∈ s.poly, checksumMeaning r p)
    (fun rfi => ∀ p ∈ rfi.poly, checksumMeaning r p) ?_ ?_ ?_ ?_ fuel rfi e h
  · intro _ p hp
    simp only [appendSharding, List.nil_append, List.mem_singleton] at hp
    subst hp
    exact Or.inl rfl
  · intro _ p hp
    simp at hp
  · intro s s' hs hstep p hp
    obtain ⟨h0, hlt, hw, hcase⟩ := ShardingStep_inl hstep
    simp only [List.length_drop] at hw
    rcases hcase with ⟨-, -, rfl⟩ | ⟨hm, hw0, hwin, -, sum, hsum, ⟨hmod, rfl⟩ | ⟨-, rfl⟩⟩
    · simp only [appendSharding, List.mem_append, List.mem_singleton] at hp
      rcases hp with hp | rfl
      · exact hs p hp
      · exact Or.inl rfl
    · simp only [appendSharding, List.mem_append, List.mem_singleton] at hp
      rcases hp with hp | rfl
      · exact hs p hp
      · right
        have hlen : ((List.drop s.startPos.toNat src).take (s.winStartPos + r.win).toNat).length
            = (s.winStartPos + r.win).toNat := by
          simp only [List.length_take, List.length_drop]
          omega
        have hdrop : (s.winStartPos + r.win).toNat - r.win.toNat = s.winStartPos.toNat := by
          omega
        refine ⟨hwin, ?_, ?_, hmod⟩
        · simp only [hlen]; omega
        · simp only [hlen, hdrop]
          apply rollChecksum_eq hsum
          unfold windowAt
          simp only [List.length_drop, hlen]
          omega
    · exact hs p hp
  · intro s rfi e hs hdone p hp
    obtain ⟨-, hcase⟩ := ShardingStep_done hdone
    rcases hcase with ⟨-, hpoly⟩ | ⟨-, -, -, hpoly⟩
    · rw [hpoly] at hp; exact hs p hp
    · rw [hpoly] at hp
      simp only [appendSharding, List.mem_append, List.mem_singleton] at hp
      rcases hp with hp | rfl
      · exact hs p hp
      · exact Or.inl rfl

/-! ## The claims about `Sharding` and `Init` -/

/-- C2, concatenation law: whenever `Sharding` returns, the data of its chunks,
concatenated in order, is exactly the buffer, and the lengths of the chunks sum
to the length of the buffer. -/
theorem Sharding_concatenation_law (md5Sum : List Byte → List Byte) (r : RobinFinger)
    (src : List Byte) (fuel : Nat) (rfi : RobinFingerInfo) (e : Option GoError)
    (h : Sharding md5Sum r src fuel = Run.done (rfi, e)) :
    (rfi.poly.map fun p => p.data).flatten = src ∧
      (rfi.poly.map fun p => p.data.length).sum = src.length := by
  have hc := Sharding_concat md5Sum r src fuel rfi e h
  refine ⟨hc, ?_⟩
  have hl := congrArg List.length hc
  rw [List.length_flatten, List.map_map] at hl
  exact hl

/-- The concatenation law on `demoBuffer`. -/
theorem Sharding_concatenation_law_witness :
    Sharding demoDigest demoConfig demoBuffer 20 = Run.done ({ poly := demoChunks }, none) ∧
      (demoChunks.map fun p => p.data).flatten = demoBuffer ∧
      (demoChunks.map fun p => p.data.length).sum = demoBuffer.length :=
  ⟨by decide, Sharding_concatenation_law demoDigest demoConfig demoBuffer 20
    { poly := demoChunks } none (by decide)⟩

/-- C3, size bounds: with `win < min <= max` and `avg > 0`, in every result of
`Sharding` every chunk except possibly the first and the last has its length in
`[min, max]`, and no chunk other than the last is longer than `max`; and
`Sharding` does return, within `len(src) + 1` iterations, when moreover
`0 <= win` and the weight table has its `win + 1` entries. -/
theorem Sharding_size_bounds (md5Sum : List Byte → List Byte) (r : RobinFinger)
    (src : List Byte) (hwin : r.win < r.min) (hmax : r.min ≤ r.max) (havg : 0 < r.avg) :
    (∀ fuel rfi e, Sharding md5Sum r src fuel = Run.done (rfi, e) →
      (∀ i p, 0 < i → i + 1 < rfi.poly.length → rfi.poly.get? i = some p →
        r.min ≤ p.data.length ∧ (p.data.length : Int) ≤ r.max) ∧
      (∀ i p, i + 1 < rfi.poly.length → rfi.poly.get? i = some p →
        (p.data.length : Int) ≤ r.max)) ∧
    (0 ≤ r.win → r.win < r.polynomialFactor.length →
      ∃ rfi, ∀ fuel, src.length < fuel →
        Sharding md5Sum r src fuel = Run.done (rfi, none)) := by
  refine ⟨fun fuel rfi e h => ?_, fun h0 htab => ?_⟩
  · have hb := Sharding_nonfinal_bounds md5Sum r src hmax fuel rfi e h
    exact ⟨fun i p _ hi hp => hb i p hi hp, fun i p hi hp => (hb i p hi hp).2⟩
  · exact Sharding_returns md5Sum r src h0 hwin (by omega) (by omega) htab

/-- The size bounds on the chunks of `demoBuffer`. -/
theorem Sharding_size_bounds_witness :
    (demoConfig.win < demoConfig.min ∧ demoConfig.min ≤ demoConfig.max ∧
      0 < demoConfig.avg) ∧
    Sharding demoDigest demoConfig demoBuffer 20 = Run.done ({ poly := demoChunks }, none) ∧
    (∀ i p, 0 < i → i + 1 < demoChunks.length → demoChunks.get? i = some p →
      demoConfig.min ≤ p.data.length ∧ (p.data.length : Int) ≤ demoConfig.max) ∧
    (∀ i p, i + 1 < demoChunks.length → demoChunks.get? i = some p →
      (p.data.length : Int) ≤ demoConfig.max) :=
  ⟨by decide, by decide,
    (Sharding_size_bounds demoDigest demoConfig demoBuffer (by decide) (by decide)
      (by decide)).1 20 { poly := demoChunks } none (by decide)⟩

/-- C4, small input: a buffer shorter than `min`, the empty one included, is
returned as exactly one chunk, the buffer itself, with checksum `0`; this needs
no iteration of the loop, so it holds for every fuel. -/
theorem Sharding_small_input (md5Sum : List Byte → List Byte) (r : RobinFinger)
    (src : List Byte) (fuel : Nat) (h : (src.length : Int) < r.min) :
    Sharding md5Sum r src fuel =
      Run.done ({ poly := [{ data := src, robinChecksum := 0,
                             key := genKey md5Sum src }] }, none) := by
  unfold Sharding
  rw [if_pos (Or.inl h)]
  rfl

/-- The small-input case on a buffer of two bytes and on the empty buffer. -/
theorem Sharding_small_input_witness :
    Sharding demoDigest demoConfig [7, 1] 0 =
        Run.done ({ poly := [{ data := [7, 1], robinChecksum := 0, key := "0701" }] }, none) ∧
      Sharding demoDigest demoConfig [] 0 =
        Run.done ({ poly := [{ data := [], robinChecksum := 0, key := "" }] }, none) :=
  ⟨Sharding_small_input demoDigest demoConfig [7, 1] 0 (by decide),
   Sharding_small_input demoDigest demoConfig [] 0 (by decide)⟩

theorem Init_accepted {r0 r : RobinFinger} {prime min max avg win : Int}
    (h : RobinFinger.Init r0 prime min max avg win = Run.done (r, none)) :
    win < min ∧ -1 ≤ win ∧
      r = { min := min, max := max, avg := avg, win := win, prime := prime,
            polynomialFactor := InitFill prime (win + 1).toNat 1 } := by
  unfold RobinFinger.Init at h
  split at h
  · simp at h
  split at h
  · simp at h
  rename_i hmake
  simp only [Run.done.injEq, Prod.mk.injEq, and_true] at h
  exact ⟨by omega, by omega, h.symm⟩

theorem Sharding_endless (md5Sum : List Byte → List Byte) :
    ∀ (fuel : Nat) (poly : List polynomialInfo),
      iterate (ShardingStep md5Sum
          { min := 3, max := 0, avg := 4, win := 2, prime := 3, polynomialFactor := [1, 3, 9] }
          [7, 1, 2, 9])
        fuel { startPos := 0, winStartPos := 1, poly := poly } = Run.fuel := by
  intro fuel
  induction fuel with
  | zero => intro poly; rfl
  | succ n ih =>
    intro poly
    have hstep : ShardingStep md5Sum
        { min := 3, max := 0, avg := 4, win := 2, prime := 3, polynomialFactor := [1, 3, 9] }
        [7, 1, 2, 9] { startPos := 0, winStartPos := 1, poly := poly } =
        Sum.inl { startPos := 0, winStartPos := 1,
                  poly := appendSharding md5Sum poly [] 0 } := by
      simp [ShardingStep, slice]
    simp only [iterate, hstep]
    exact ih _

/-- C5 fails as stated: `Init` accepts `avg = 0`, `max = 0`, `max < 0` and
`win = -1`, and on a buffer of four bytes `Sharding` then stops with a division
by zero, never leaves its loop (every fuel is used up), or stops with a slice
out of range. -/
theorem Sharding_may_fail :
    (RobinFinger.Init zeroConfig 3 3 6 0 2 =
        Run.done ({ min := 3, max := 6, avg := 0, win := 2, prime := 3,
                    polynomialFactor := [1, 3, 9] }, none) ∧
      Sharding demoDigest { min := 3, max := 6, avg := 0, win := 2, prime := 3,
                            polynomialFactor := [1, 3, 9] } [7, 1, 2, 9] 1 =
        Run.panic Panic.divideByZero) ∧
    (RobinFinger.Init zeroConfig 3 3 0 4 2 =
        Run.done ({ min := 3, max := 0, avg := 4, win := 2, prime := 3,
                    polynomialFactor := [1, 3, 9] }, none) ∧
      ∀ fuel, Sharding demoDigest { min := 3, max := 0, avg := 4, win := 2, prime := 3,
                                    polynomialFactor := [1, 3, 9] } [7, 1, 2, 9] fuel =
        Run.fuel) ∧
    (RobinFinger.Init zeroConfig 3 3 (-1) 4 2 =
        Run.done ({ min := 3, max := -1, avg := 4, win := 2, prime := 3,
                    polynomialFactor := [1, 3, 9] }, none) ∧
      Sharding demoDigest { min := 3, max := -1, avg := 4, win := 2, prime := 3,
                            polynomialFactor := [1, 3, 9] } [7, 1, 2, 9] 1 =
        Run.panic Panic.sliceBounds) ∧
    (RobinFinger.Init zeroConfig 3 0 6 4 (-1) =
        Run.done ({ min := 0, max := 6, avg := 4, win := -1, prime := 3,
                    polynomialFactor := [] }, none) ∧
      Sharding demoDigest { min := 0, max := 6, avg := 4, win := -1, prime := 3,
                            polynomialFactor := [] } [7, 1, 2, 9] 1 =
        Run.panic Panic.sliceBounds) := by
  refine ⟨⟨by decide, by decide⟩, ⟨by decide, fun fuel => ?_⟩, ⟨by decide, by decide⟩,
    ⟨by decide, by decide⟩⟩
  unfold Sharding
  rw [if_neg (by decide)]
  exact Sharding_endless demoDigest fuel []

/-- C5 as amended: for every configuration `Init` accepts with `0 <= win`,
`1 <= max` and `avg != 0`, and every buffer, `Sharding` leaves its loop within
`len(src) + 1` iterations, without a panic, and returns a chunk set and a nil
error. -/
theorem Sharding_never_fails (md5Sum : List Byte → List Byte) (r0 r : RobinFinger)
    (prime min max avg win : Int) (src : List Byte)
    (hinit : RobinFinger.Init r0 prime min max avg win = Run.done (r, none))
    (hwin : 0 ≤ win) (hmax : 1 ≤ max) (havg : avg ≠ 0) :
    ∃ rfi, ∀ fuel, src.length < fuel →
      Sharding md5Sum r src fuel = Run.done (rfi, none) := by
  obtain ⟨hlt, -, rfl⟩ := Init_accepted hinit
  refine Sharding_returns md5Sum _ src hwin hlt hmax havg ?_
  simp only [InitFill_length]
  omega

/-- The amended C5 on `demoBuffer`. -/
theorem Sharding_never_fails_witness :
    RobinFinger.Init zeroConfig 3 3 6 4 2 = Run.done (demoConfig, none) ∧
      ∃ rfi, ∀ fuel, demoBuffer.length < fuel →
        Sharding demoDigest demoConfig demoBuffer fuel = Run.done (rfi, none) :=
  ⟨by decide, Sharding_never_fails demoDigest zeroConfig demoConfig 3 3 6 4 2 demoBuffer
    (by decide) (by decide) (by decide) (by decide)⟩

/-- C7, checksum meaning: every chunk of a result of `Sharding` has checksum
`0`, or a checksum that is the weighted sum of the last `win` bytes of its own
data, `sum_{i < win} data[len - win + i] * polynomialFactor[win - i]` in int64
arithmetic, whose remainder on division by `avg` is the configured prime.  This
holds for every configuration, so for those with `avg != 0`: with `avg = 0` the
first window tested stops the call, and no checksum other than `0` is stored. -/
theorem Sharding_checksum_meaning (md5Sum : List Byte → List Byte) (r : RobinFinger)
    (src : List Byte) (fuel : Nat) (rfi : RobinFingerInfo) (e : Option GoError)
    (h : Sharding md5Sum r src fuel = Run.done (rfi, e)) :
    ∀ p ∈ rfi.poly,
      p.robinChecksum = 0 ∨
        (0 ≤ r.win ∧ r.win ≤ p.data.length ∧
          p.robinChecksum = specWeightedSum r.polynomialFactor r.win.toNat
            (p.data.drop (p.data.length - r.win.toNat)) ∧
          Int.tmod p.robinChecksum r.avg = r.prime) :=
  fun p hp => Sharding_checksums md5Sum r src fuel rfi e h p hp

/-- The checksum meaning on the chunks of `demoBuffer`. -/
theorem Sharding_checksum_meaning_witness :
    demoConfig.avg ≠ 0 ∧
    Sharding demoDigest demoConfig demoBuffer 20 = Run.done ({ poly := demoChunks }, none) ∧
    ∀ p ∈ demoChunks,
      p.robinChecksum = 0 ∨
        (0 ≤ demoConfig.win ∧ demoConfig.win ≤ p.data.length ∧
          p.robinChecksum = specWeightedSum demoConfig.polynomialFactor demoConfig.win.toNat
            (p.data.drop (p.data.length - demoConfig.win.toNat)) ∧
          Int.tmod p.robinChecksum demoConfig.avg = demoConfig.prime) :=
  ⟨by decide, by decide,
    Sharding_checksum_meaning demoDigest demoConfig demoBuffer 20 { poly := demoChunks } none
      (by decide)⟩

/-- C8 fails as stated: `Init(3, 0, 0, 0, -2)` has `min > win`, and it neither
returns `INVALID_ARGUMENT` nor returns nil: `make` panics on the length `-1`.
So does `Init(3, 2^62 + 1, 6, 4, 2^62)`: `make` panics on the length
`2^62 + 1`, whose elements would take `2^65 + 8` bytes. -/
theorem Init_may_panic :
    ((-2 : Int) < 0 ∧
      RobinFinger.Init zeroConfig 3 0 0 0 (-2) = Run.panic Panic.makeSliceLen) ∧
    ((2 : Int) ^ 62 < 2 ^ 62 + 1 ∧
      RobinFinger.Init zeroConfig 3 (2 ^ 62 + 1) 6 4 (2 ^ 62) =
        Run.panic Panic.makeSliceLen) := by
  decide

/-- C8 as amended: `Init` returns `INVALID_ARGUMENT`, leaving the receiver as it
was, if and only if `min <= win`; it returns nil, and has then stored `min`,
`max`, `avg`, `win` and `prime` in the receiver, if and only if `min > win`,
`win >= -1` and the `win + 1` weights of 8 bytes fit in `maxAlloc` bytes; in
every other case, `min > win` with `win < -1` or with
`8 * (win + 1) > maxAlloc`, it does not return: `make` panics. -/
theorem Init_validation (r0 : RobinFinger) (prime min max avg win : Int) :
    ((∃ r, RobinFinger.Init r0 prime min max avg win = Run.done (r, some INVALID_ARGUMENT))
        ↔ min ≤ win) ∧
    (min ≤ win →
      RobinFinger.Init r0 prime min max avg win = Run.done (r0, some INVALID_ARGUMENT)) ∧
    ((∃ r, RobinFinger.Init r0 prime min max avg win = Run.done (r, none))
        ↔ (win < min ∧ -1 ≤ win ∧ 8 * (win + 1) ≤ maxAlloc)) ∧
    (win < min → -1 ≤ win → 8 * (win + 1) ≤ maxAlloc →
      ∃ r, RobinFinger.Init r0 prime min max avg win = Run.done (r, none) ∧
        r.min = min ∧ r.max = max ∧ r.avg = avg ∧ r.win = win ∧ r.prime = prime) ∧
    (win < min → (win < -1 ∨ (maxAlloc : Int) < 8 * (win + 1)) →
      RobinFinger.Init r0 prime min max avg win = Run.panic Panic.makeSliceLen) := by
  have hret : win < min → -1 ≤ win → 8 * (win + 1) ≤ (maxAlloc : Int) →
      RobinFinger.Init r0 prime min max avg win =
        Run.done ({ min := min, max := max, avg := avg, win := win, prime := prime,
                    polynomialFactor := InitFill prime (win + 1).toNat 1 }, none) := by
    intro h1 h2 h3
    have hc : ¬ (win + 1 < 0 ∨ 8 * (win + 1) > (maxAlloc : Int)) := by omega
    unfold RobinFinger.Init
    rw [if_neg (by omega), if_neg hc]
  refine ⟨⟨?_, ?_⟩, ?_, ⟨?_, ?_⟩, ?_, ?_⟩
  · rintro ⟨r, h⟩
    unfold RobinFinger.Init at h
    split at h
    · assumption
    · split at h <;> simp at h
  · intro h
    exact ⟨r0, by unfold RobinFinger.Init; rw [if_pos h]⟩
  · intro h
    unfold RobinFinger.Init; rw [if_pos h]
  · rintro ⟨r, h⟩
    unfold RobinFinger.Init at h
    split at h
    · simp [INVALID_ARGUMENT] at h
    · rename_i h1
      split at h
      · simp at h
      · rename_i h2
        omega
  · rintro ⟨h1, h2, h3⟩
    exact ⟨_, hret h1 h2 h3⟩
  · intro h1 h2 h3
    exact ⟨_, hret h1 h2 h3, rfl, rfl, rfl, rfl, rfl⟩
  · intro h1 h2
    have hc : win + 1 < 0 ∨ 8 * (win + 1) > (maxAlloc : Int) := by omega
    unfold RobinFinger.Init
    rw [if_neg (by omega), if_pos hc]

/-- The amended C8 on `Init(3, 512, 2048, 1024, 31)`, the call of `fileDiff.go`,
which returns nil, and on `Init(3, 31, 2048, 1024, 31)`, which returns
`INVALID_ARGUMENT`. -/
theorem Init_validation_witness :
    RobinFinger.Init zeroConfig 3 512 2048 1024 31 =
        Run.done ({ min := 512, max := 2048, avg := 1024, win := 31, prime := 3,
                    polynomialFactor := InitFill 3 32 1 }, none) ∧
      RobinFinger.Init zeroConfig 3 31 2048 1024 31 =
        Run.done (zeroConfig, some INVALID_ARGUMENT) ∧
      ∃ r, RobinFinger.Init zeroConfig 3 512 2048 1024 31 = Run.done (r, none) ∧
        r.min = 512 ∧ r.max = 2048 ∧ r.avg = 1024 ∧ r.win = 31 ∧ r.prime = 3 :=
  ⟨by decide, (Init_validation zeroConfig 3 31 2048 1024 31).2.1 (by decide),
    (Init_validation zeroConfig 3 512 2048 1024 31).2.2.2.1 (by decide) (by decide)
      (by decide)⟩

/-- C9 fails as stated: after `Init(3, 41, 100, 10, 40)` the entry 40 of the
weight table is `3^40 - 2^64`, not `3^40`, which is beyond the range of int64. -/
theorem Init_weight_overflow :
    RobinFinger.Init zeroConfig 3 41 100 10 40 =
        Run.done ({ min := 41, max := 100, avg := 10, win := 40, prime := 3,
                    polynomialFactor := InitFill 3 41 1 }, none) ∧
      (InitFill 3 41 1).get? 40 = some (3 ^ 40 - 2 ^ 64) ∧
      (3 : Int) ^ 40 - 2 ^ 64 < 3 ^ 40 := by
  refine ⟨by decide, by decide!, by decide⟩

/-- C9 as amended: after every successful `Init(prime, min, max, avg, win)` the
weight table has exactly `win + 1` entries, and for every `i` with
`0 <= i <= win` its entry `i` is `prime^i` wrapped to int64, which is `prime^i`
itself whenever that is in the range of int64; so entry 0, when `win >= 0`, is
`1`. -/
theorem Init_weight_table (r0 r : RobinFinger) (prime min max avg win : Int)
    (h : RobinFinger.Init r0 prime min max avg win = Run.done (r, none)) :
    (r.polynomialFactor.length : Int) = win + 1 ∧
    (∀ i : Nat, (i : Int) ≤ win →
      r.polynomialFactor.get? i = some (wrapInt64 (prime ^ i)) ∧
      (-2 ^ 63 ≤ prime ^ i → prime ^ i < 2 ^ 63 →
        r.polynomialFactor.get? i = some (prime ^ i))) ∧
    (0 ≤ win → r.polynomialFactor.get? 0 = some 1) := by
  obtain ⟨hlt, hw, rfl⟩ := Init_accepted h
  have hget : ∀ i : Nat, (i : Int) ≤ win →
      (InitFill prime (win + 1).toNat 1).get? i = some (wrapInt64 (prime ^ i)) :=
    fun i hi => InitFill_one_get prime _ i (by omega)
  refine ⟨?_, fun i hi => ⟨hget i hi, fun h0 h1 => ?_⟩, fun h0 => ?_⟩
  · simp only [InitFill_length]
    omega
  · rw [hget i hi, wrapInt64_of_range h0 h1]
  · have := hget 0 (by simpa using h0)
    simpa [wrapInt64] using this

/-- The weight table of the reference configuration `Init(3, 512, 2048, 1024, 31)`
has 32 entries. -/
theorem Init_weight_table_witness :
    (∃ r, RobinFinger.Init zeroConfig 3 512 2048 1024 31 = Run.done (r, none) ∧
      (r.polynomialFactor.length : Int) = 31 + 1 ∧
      r.polynomialFactor.get? 0 = some 1) := by
  refine ⟨_, rfl, ?_⟩
  have h := Init_weight_table zeroConfig _ 3 512 2048 1024 31 rfl
  exact ⟨h.1, h.2.2 (by decide)⟩

theorem hexEncodeToString_length (bs : List Byte) :
    (hexEncodeToString bs).length = 2 * bs.length := by
  unfold hexEncodeToString
  show (bs.flatMap fun b => [hexDigit (b.val / 16), hexDigit (b.val % 16)]).length = _
  induction bs with
  | nil => rfl
  | cons b bs ih =>
    simp only [List.flatMap_cons, List.length_append, List.length_cons, List.length_nil, ih]
    omega

theorem md5_length (msg : List Byte) : (md5 msg).length = 16 := by
  simp [md5, littleEndian]

/-- C10, digest key: every chunk record of a result of `Sharding` has as its key
the hex encoding of the digest of the record's own data,
`hex.EncodeToString(md5Sum(data))`, two characters for each byte of the digest;
so two chunks with the same bytes, of the same result or of two results (of
any two configurations and buffers), have the same key.  With MD5 for the
digest the key has 32 characters. -/
theorem Sharding_digest_key (md5Sum : List Byte → List Byte) (r r' : RobinFinger)
    (src src' : List Byte) (fuel fuel' : Nat) (rfi rfi' : RobinFingerInfo)
    (e e' : Option GoError)
    (h : Sharding md5Sum r src fuel = Run.done (rfi, e))
    (h' : Sharding md5Sum r' src' fuel' = Run.done (rfi', e')) :
    (∀ p ∈ rfi.poly, p.key = hexEncodeToString (md5Sum p.data) ∧
      p.key.length = 2 * (md5Sum p.data).length) ∧
    (∀ p ∈ rfi.poly, ∀ q ∈ rfi'.poly, p.data = q.data → p.key = q.key) ∧
    (∀ fuel0 rfi0 e0, Sharding md5 r src fuel0 = Run.done (rfi0, e0) →
      ∀ p ∈ rfi0.poly, p.key = hexEncodeToString (md5 p.data) ∧ p.key.length = 32) := by
  have hk := Sharding_keys md5Sum r src fuel rfi e h
  have hk' := Sharding_keys md5Sum r' src' fuel' rfi' e' h'
  refine ⟨fun p hp => ?_, fun p hp q hq hpq => ?_, fun fuel0 rfi0 e0 h0 p hp => ?_⟩
  · have hp' : p.key = hexEncodeToString (md5Sum p.data) := hk p hp
    exact ⟨hp', by rw [hp', hexEncodeToString_length]⟩
  · rw [hk p hp, hk' q hq, hpq]
  · have hp' : p.key = hexEncodeToString (md5 p.data) :=
      Sharding_keys md5 r src fuel0 rfi0 e0 h0 p hp
    exact ⟨hp', by rw [hp', hexEncodeToString_length, md5_length]⟩

/-- The MD5 keys of the chunks of `demoBuffer`, and of the one chunk of a short
buffer that repeats the third of them. -/
theorem Sharding_digest_key_witness :
    Sharding md5 demoConfig demoBuffer 20 = Run.done ({ poly := demoChunksMD5 }, none) ∧
    Sharding md5 { demoConfig with min := 5, max := 9 } [5, 1, 2] 0 =
      Run.done ({ poly := [{ data := [5, 1, 2], robinChecksum := 0,
                             key := "d4d9e2fb5e2c48d671fbc59cbfc689cd" }] }, none) ∧
    hexEncodeToString (md5 []) = "d41d8cd98f00b204e9800998ecf8427e" ∧
    (∀ p ∈ demoChunksMD5, p.key = hexEncodeToString (md5 p.data) ∧
      p.key.length = 2 * (md5 p.data).length) ∧
    (∀ p ∈ demoChunksMD5,
      ∀ q ∈ [({ data := [5, 1, 2], robinChecksum := 0,
                key := "d4d9e2fb5e2c48d671fbc59cbfc689cd" } : polynomialInfo)],
        p.data = q.data → p.key = q.key) ∧
    (∀ fuel0 rfi0 e0, Sharding md5 demoConfig demoBuffer fuel0 = Run.done (rfi0, e0) →
      ∀ p ∈ rfi0.poly, p.key = hexEncodeToString (md5 p.data) ∧ p.key.length = 32) :=
  ⟨by decide!, by decide!, by decide!,
    Sharding_digest_key md5 demoConfig { demoConfig with min := 5, max := 9 } demoBuffer
      [5, 1, 2] 20 0 { poly := demoChunksMD5 }
      { poly := [{ data := [5, 1, 2], robinChecksum := 0,
                   key := "d4d9e2fb5e2c48d671fbc59cbfc689cd" }] }
      none none (by decide!) (by decide!)⟩

theorem slice_take_eq {b : List Byte} {lo hi : Int} {k : Nat} (h1 : hi ≤ k)
    (h2 : k ≤ b.length) : slice (b.take k) lo hi = slice b lo hi := by
  unfold slice
  have hlen : (b.take k).length = k := by simp [List.length_take, h2]
  by_cases hc : 0 ≤ lo ∧ lo ≤ hi
  · rw [if_pos ⟨hc.1, hc.2, by rw [hlen]; exact h1⟩, if_pos ⟨hc.1, hc.2, by omega⟩]
    rw [List.take_take, Nat.min_eq_left (by omega)]
  · rw [if_neg (fun h => hc ⟨h.1, h.2.1⟩), if_neg (fun h => hc ⟨h.1, h.2.1⟩)]

/-- An iteration of the loop of `Sharding` that finds bytes beyond the end of
its window reads nothing beyond that end, but for one more byte being there. -/
theorem ShardingStep_local (md5Sum : List Byte → List Byte) (r : RobinFinger)
    (src : List Byte) (s : ShardingState) (m : Nat)
    (h0 : 0 ≤ s.startPos) (h1 : 0 ≤ s.winStartPos + r.win)
    (hm : s.startPos + (s.winStartPos + r.win) < m) (hlen : m ≤ src.length) :
    ShardingStep md5Sum r (src.take m) s = ShardingStep md5Sum r src s := by
  have hlen' : (src.take m).length = m := by simp [List.length_take, hlen]
  unfold ShardingStep
  rw [if_neg (by rw [hlen']; omega), if_neg (by omega),
    slice_tail h0 (by rw [hlen']; omega), slice_tail h0 (by omega)]
  simp only []
  have hbuf : (src.take m).drop s.startPos.toNat =
      (src.drop s.startPos.toNat).take (m - s.startPos.toNat) := by
    rw [List.drop_take]
  rw [hbuf]
  have hk : (m - s.startPos.toNat) ≤ (src.drop s.startPos.toNat).length := by
    simp only [List.length_drop]; omega
  have hlenb : ((src.drop s.startPos.toNat).take (m - s.startPos.toNat)).length =
      m - s.startPos.toNat := by
    simp only [List.length_take, List.length_drop]; omega
  have c1 : ¬ (s.winStartPos + r.win ≥
      (((src.drop s.startPos.toNat).take (m - s.startPos.toNat)).length : Int)) := by
    rw [hlenb]; omega
  have c2 : ¬ (s.winStartPos + r.win ≥ ((src.drop s.startPos.toNat).length : Int)) := by
    simp only [List.length_drop]; omega
  rw [if_neg c1, if_neg c2]
  by_cases hmax : s.winStartPos + r.win ≥ r.max
  · rw [if_pos hmax, if_pos hmax, slice_take_eq (by omega) hk]
  · rw [if_neg hmax, if_neg hmax, slice_take_eq (by omega) hk, slice_take_eq (by omega) hk]

theorem take_agree {B B' : List Byte} {n m : Nat} (h : B.take n = B'.take n) (hm : m ≤ n) :
    B.take m = B'.take m := by
  have := congrArg (List.take m) h
  rwa [List.take_take, List.take_take, Nat.min_eq_left hm] at this

/-- Two buffers that agree on their first `n` bytes give the same iteration of
the loop of `Sharding` as long as the window ends before `n`. -/
theorem ShardingStep_agree (md5Sum : List Byte → List Byte) (r : RobinFinger)
    (B B' : List Byte) (n : Nat) (s : ShardingState)
    (hagree : B.take n = B'.take n) (hB : n ≤ B.length) (hB' : n ≤ B'.length)
    (h0 : 0 ≤ s.startPos) (h1 : 0 ≤ s.winStartPos + r.win)
    (hpos : s.startPos + (s.winStartPos + r.win) < n) :
    ShardingStep md5Sum r B s = ShardingStep md5Sum r B' s := by
  rw [← ShardingStep_local md5Sum r B s n h0 h1 hpos hB,
    ← ShardingStep_local md5Sum r B' s n h0 h1 hpos hB', hagree]

theorem totalLength_append (a b : List polynomialInfo) :
    totalLength (a ++ b) = totalLength a + totalLength b := by
  simp [totalLength]

theorem endOffset_eq (poly : List polynomialInfo) (i : Nat) :
    endOffset poly i = totalLength (poly.take (i + 1)) := rfl

theorem endOffset_append_left (poly rest : List polynomialInfo) (i : Nat)
    (h : i < poly.length) : endOffset (poly ++ rest) i = endOffset poly i := by
  rw [endOffset_eq, endOffset_eq, List.take_append_of_le_length (by omega)]

theorem endOffset_mono (poly : List polynomialInfo) {i j : Nat} (h : i ≤ j) :
    endOffset poly i ≤ endOffset poly j := by
  obtain ⟨k, rfl⟩ := Nat.exists_eq_add_of_le h
  rw [endOffset_eq, endOffset_eq]
  have e : i + k + 1 = (i + 1) + k := by omega
  rw [e, List.take_add poly (i + 1) k, totalLength_append]
  omega

theorem endOffset_first_new (poly rest : List polynomialInfo) (c : polynomialInfo) :
    endOffset (poly ++ c :: rest) poly.length = totalLength poly + c.data.length := by
  rw [endOffset_eq]
  have : List.take (poly.length + 1) (poly ++ c :: rest) = poly ++ [c] := by
    rw [List.take_append_eq_append_take]
    simp
  rw [this, totalLength_append]
  simp [totalLength]

theorem totalLength_appendSharding (md5Sum : List Byte → List Byte)
    (poly : List polynomialInfo) (buf : List Byte) (c : Int) :
    totalLength (appendSharding md5Sum poly buf c) = totalLength poly + buf.length := by
  simp [appendSharding, totalLength]

theorem ShardingState.Inv_step {md5Sum : List Byte → List Byte} {r : RobinFinger}
    {src : List Byte} {s s' : ShardingState} (hmax : r.min ≤ r.max)
    (hs : s.Inv r) (h : ShardingStep md5Sum r src s = Sum.inl s') : s'.Inv r := by
  obtain ⟨h0, ht, h1, h2⟩ := hs
  obtain ⟨-, hlt, hw, hcase⟩ := ShardingStep_inl h
  simp only [List.length_drop] at hw
  rcases hcase with ⟨hm, hm0, rfl⟩ | ⟨hm, hw0, hwin, -, sum, -, ⟨-, rfl⟩ | ⟨-, rfl⟩⟩
  · refine ⟨by simp only; omega, ?_, by simp only; omega, by simp only; omega⟩
    simp only [totalLength_appendSharding, List.length_take, List.length_drop]
    omega
  · refine ⟨by simp only; omega, ?_, by simp only; omega, by simp only; omega⟩
    simp only [totalLength_appendSharding, List.length_take, List.length_drop]
    omega
  · exact ⟨h0, ht, by simp only; omega, by simp only; omega⟩

theorem appendSharding_late (md5Sum : List Byte → List Byte)
    (poly0 rest : List polynomialInfo) (buf : List Byte) (cs : Int) (n : Nat) (pos pos' : Int)
    (hcase : (rest = [] ∧ (n : Int) ≤ pos) ∨
      ∃ c rest', rest = c :: rest' ∧ n ≤ totalLength poly0 + c.data.length)
    (hx : rest = [] → (n : Int) ≤ pos → n ≤ totalLength poly0 + buf.length) :
    ∃ rest2, appendSharding md5Sum (poly0 ++ rest) buf cs = poly0 ++ rest2 ∧
      ((rest2 = [] ∧ (n : Int) ≤ pos') ∨
        ∃ c rest', rest2 = c :: rest' ∧ n ≤ totalLength poly0 + c.data.length) := by
  refine ⟨rest ++ [⟨buf, cs, genKey md5Sum buf⟩], by simp [appendSharding], Or.inr ?_⟩
  rcases hcase with ⟨rfl, hp⟩ | ⟨c, rest', rfl, hc⟩
  · exact ⟨_, [], rfl, hx rfl hp⟩
  · exact ⟨c, rest' ++ [⟨buf, cs, genKey md5Sum buf⟩], by simp, hc⟩

theorem Sharding_late_chunks (md5Sum : List Byte → List Byte) (r : RobinFinger)
    (src : List Byte) (hmax : r.min ≤ r.max) (s : ShardingState) (hs : s.Inv r) (n : Nat)
    (hn : n ≤ src.length) (hpos : (n : Int) ≤ s.startPos + (s.winStartPos + r.win))
    (fuel : Nat) (rfi : RobinFingerInfo) (e : Option GoError)
    (h : iterate (ShardingStep md5Sum r src) fuel s = Run.done (rfi, e)) :
    ∃ rest, rfi.poly = s.poly ++ rest ∧
      ∀ i, s.poly.length ≤ i → i < rfi.poly.length → n ≤ endOffset rfi.poly i := by
  have key := iterate_invariant (ShardingStep md5Sum r src)
    (fun t => t.Inv r ∧ ∃ rest, t.poly = s.poly ++ rest ∧
      ((rest = [] ∧ (n : Int) ≤ t.startPos + (t.winStartPos + r.win)) ∨
        ∃ c rest', rest = c :: rest' ∧ n ≤ totalLength s.poly + c.data.length))
    (fun out => ∀ rfi e, out = Run.done (rfi, e) → ∃ rest, rfi.poly = s.poly ++ rest ∧
      (rest = [] ∨ ∃ c rest', rest = c :: rest' ∧ n ≤ totalLength s.poly + c.data.length))
    ?_ ?_ (fun _ _ he => by simp at he) fuel s ⟨hs, [], by simp, Or.inl ⟨rfl, hpos⟩⟩ rfi e h
  · obtain ⟨rest, hrest, hcase⟩ := key
    refine ⟨rest, hrest, fun i hi hlt => ?_⟩
    rcases hcase with rfl | ⟨c, rest', rfl, hc⟩
    · simp only [hrest, List.append_nil] at hlt
      omega
    · calc n ≤ totalLength s.poly + c.data.length := hc
        _ = endOffset rfi.poly s.poly.length := by rw [hrest, endOffset_first_new]
        _ ≤ endOffset rfi.poly i := endOffset_mono _ hi
  · intro t t' ⟨ht, rest, hrest, hcase⟩ hstep
    refine ⟨ShardingState.Inv_step hmax ht hstep, ?_⟩
    obtain ⟨h0, htot, h1, h2⟩ := ht
    obtain ⟨-, hlt, hw, hst⟩ := ShardingStep_inl hstep
    simp only [List.length_drop] at hw
    have htot' : rest = [] → t.startPos = totalLength s.poly := by
      intro hr
      rw [htot, hrest, hr, List.append_nil]
    rcases hst with ⟨hm, hm0, rfl⟩ | ⟨hm, hw0, hwin, -, sum, -, ⟨-, rfl⟩ | ⟨-, rfl⟩⟩
    · simp only [hrest]
      refine appendSharding_late md5Sum s.poly rest _ _ n _ _ hcase fun hr hp => ?_
      have := htot' hr
      simp only [List.length_take, List.length_drop]
      omega
    · simp only [hrest]
      refine appendSharding_late md5Sum s.poly rest _ _ n _ _ hcase fun hr hp => ?_
      have := htot' hr
      simp only [List.length_take, List.length_drop]
      omega
    · refine ⟨rest, hrest, ?_⟩
      rcases hcase with ⟨rfl, hp⟩ | hc
      · exact Or.inl ⟨rfl, by simp only; omega⟩
      · exact Or.inr hc
  · intro t out ⟨ht, rest, hrest, hcase⟩ hso rfi e he
    subst he
    obtain ⟨h0, htot, h1, h2⟩ := ht
    obtain ⟨-, hd⟩ := ShardingStep_done hso
    have htot' : rest = [] → t.startPos = totalLength s.poly := by
      intro hr
      rw [htot, hrest, hr, List.append_nil]
    rcases hd with ⟨-, hpoly⟩ | ⟨-, hlt, -, hpoly⟩
    · refine ⟨rest, by rw [hpoly, hrest], ?_⟩
      rcases hcase with ⟨rfl, -⟩ | hc
      · exact Or.inl rfl
      · exact Or.inr hc
    · rw [hpoly, hrest]
      obtain ⟨rest2, e1, e2⟩ := appendSharding_late md5Sum s.poly rest
        (List.drop t.startPos.toNat src) 0 n _ 0 hcase fun hr hp => by
          have := htot' hr
          simp only [List.length_drop]
          omega
      refine ⟨rest2, e1, ?_⟩
      rcases e2 with ⟨rfl, -⟩ | hc
      · exact Or.inl rfl
      · exact Or.inr hc

theorem iterate_deterministic {σ ρ : Type} (step : σ → σ ⊕ Run ρ) (n m : Nat) (s : σ)
    (a b : ρ) (h : iterate step n s = Run.done a) (h' : iterate step m s = Run.done b) :
    a = b := by
  rcases Nat.le_total n m with hnm | hnm
  · have := iterate_le step n m s (by rw [h]; simp) hnm
    rw [h, h'] at this
    simpa using this.symm
  · have := iterate_le step m n s (by rw [h']; simp) hnm
    rw [h, h'] at this
    simpa using this

theorem Sharding_deterministic (md5Sum : List Byte → List Byte) (r : RobinFinger)
    (src : List Byte) (fuel fuel' : Nat) (a b : RobinFingerInfo × Option GoError)
    (h : Sharding md5Sum r src fuel = Run.done a)
    (h' : Sharding md5Sum r src fuel' = Run.done b) : a = b := by
  unfold Sharding at h h'
  by_cases hc : (src.length : Int) < r.min ∨ r.min < r.win
  · rw [if_pos hc] at h h'
    rw [h] at h'
    simpa using h'
  · rw [if_neg hc] at h h'
    exact iterate_deterministic _ _ _ _ _ _ h h'

theorem Sharding_lockstep (md5Sum : List Byte → List Byte) (r : RobinFinger)
    (B B' : List Byte) (n : Nat) (hmin : 0 ≤ r.min) (hmax : r.min ≤ r.max)
    (hagree : B.take n = B'.take n) (hB : n ≤ B.length) (hB' : n ≤ B'.length) :
    ∀ (fuel : Nat) (s : ShardingState), s.Inv r →
      ∀ (fuel' : Nat) (rfi rfi' : RobinFingerInfo) (e e' : Option GoError),
        iterate (ShardingStep md5Sum r B) fuel s = Run.done (rfi, e) →
        iterate (ShardingStep md5Sum r B') fuel' s = Run.done (rfi', e') →
        ∀ i p, rfi.poly.get? i = some p → endOffset rfi.poly i < n →
          rfi'.poly.get? i = some p := by
  intro fuel
  induction fuel with
  | zero => intro s _ fuel' rfi rfi' e e' h; simp [iterate] at h
  | succ k ih =>
    intro s hs fuel' rfi rfi' e e' h h' i p hget hend
    by_cases hpos : s.startPos + (s.winStartPos + r.win) < n
    · have hag := ShardingStep_agree md5Sum r B B' n s hagree hB hB' hs.1
        (by have := hs.2.2.1; omega) hpos
      cases fuel' with
      | zero => simp [iterate] at h'
      | succ k' =>
        simp only [iterate] at h h'
        rw [← hag] at h'
        cases hst : ShardingStep md5Sum r B s with
        | inl s' =>
          rw [hst] at h h'
          exact ih s' (ShardingState.Inv_step hmax hs hst) k' rfi rfi' e e' h h' i p hget hend
        | inr out =>
          rw [hst] at h h'
          simp only at h h'
          rw [h] at h'
          simp only [Run.done.injEq, Prod.mk.injEq] at h'
          rw [← h'.1]
          exact hget
    · obtain ⟨rest, hr, hlate⟩ := Sharding_late_chunks md5Sum r B hmax s hs n hB
        (by omega) (k + 1) rfi e h
      obtain ⟨rest', hr', -⟩ := Sharding_late_chunks md5Sum r B' hmax s hs n hB'
        (by omega) fuel' rfi' e' h'
      have hlt : i < rfi.poly.length := by
        rw [List.get?_eq_some] at hget
        exact hget.1
      have hi : i < s.poly.length := by
        by_contra hc
        have := hlate i (by omega) hlt
        omega
      rw [hr, List.get?_append hi] at hget
      rw [hr', List.get?_append hi]
      exact hget

theorem Sharding_negative_min (md5Sum : List Byte → List Byte) (r : RobinFinger)
    (src : List Byte) (hmin : r.min < 0) (hwin : r.win < r.min) (fuel : Nat)
    (rfi : RobinFingerInfo) (e : Option GoError)
    (h : Sharding md5Sum r src fuel = Run.done (rfi, e)) : rfi.poly = [] := by
  unfold Sharding at h
  rw [if_neg (by omega)] at h
  cases fuel with
  | zero => simp [iterate] at h
  | succ k =>
    simp only [iterate] at h
    cases hst : ShardingStep md5Sum r src ⟨0, r.min - r.win, []⟩ with
    | inl s' =>
      obtain ⟨-, -, -, hcase⟩ := ShardingStep_inl hst
      simp only at hcase
      rcases hcase with ⟨hm, hm0, -⟩ | ⟨-, -, hw, -⟩
      · omega
      · omega
    | inr out =>
      rw [hst] at h
      simp only at h
      subst h
      obtain ⟨-, hd⟩ := ShardingStep_done hst
      simp only at hd
      rcases hd with ⟨-, hp⟩ | ⟨-, -, hlen, -⟩
      · exact hp
      · omega

theorem eq_of_take_eq_of_short {B B' : List Byte} {n : Nat} (h : B.take n = B'.take n)
    (hB : B.length < n) : B = B' := by
  have h1 : B.take n = B := List.take_of_length_le (by omega)
  rw [h1] at h
  have hlen := congrArg List.length h
  rw [List.length_take] at hlen
  have h2 : B'.take n = B' := List.take_of_length_le (by omega)
  rw [h2] at h
  exact h

/-- C6, edit locality (prefix stability): with `win < min <= max`, if two
buffers agree on their first `n` bytes, then every chunk of a result of
`Sharding` on the first that ends at an offset strictly less than `n` (the
offset of a chunk's end being the total length of the chunks up to and
including it) is, at the same index, a chunk of every result of `Sharding` on
the second, with the same data, checksum and key.  (`avg > 0` is not needed.) -/
theorem Sharding_prefix_stable (md5Sum : List Byte → List Byte) (r : RobinFinger)
    (B B' : List Byte) (n : Nat) (fuel fuel' : Nat) (rfi rfi' : RobinFingerInfo)
    (e e' : Option GoError)
    (hwin : r.win < r.min) (hmax : r.min ≤ r.max) (hagree : B.take n = B'.take n)
    (h : Sharding md5Sum r B fuel = Run.done (rfi, e))
    (h' : Sharding md5Sum r B' fuel' = Run.done (rfi', e')) :
    ∀ i p, rfi.poly.get? i = some p → endOffset rfi.poly i < n →
      rfi'.poly.get? i = some p := by
  intro i p hget hend
  have hsame : B = B' → rfi'.poly.get? i = some p := by
    intro hBB
    subst hBB
    have := Sharding_deterministic md5Sum r B fuel fuel' _ _ h h'
    simp only [Prod.mk.injEq] at this
    rw [← this.1]
    exact hget
  by_cases hB : B.length < n
  · exact hsame (eq_of_take_eq_of_short hagree hB)
  by_cases hB' : B'.length < n
  · exact hsame (eq_of_take_eq_of_short hagree.symm hB').symm
  by_cases hmin : r.min < 0
  · rw [Sharding_negative_min md5Sum r B hmin hwin fuel rfi e h] at hget
    simp at hget
  have hInv0 : ShardingState.Inv r ⟨0, r.min - r.win, []⟩ :=
    ⟨le_rfl, by simp [totalLength], by simp, by simpa using hmax⟩
  unfold Sharding at h h'
  by_cases hc : (B.length : Int) < r.min ∨ r.min < r.win
  · rw [if_pos hc] at h
    simp only [Run.done.injEq, Prod.mk.injEq] at h
    rw [← h.1] at hget hend
    simp only [appendSharding, List.nil_append] at hget hend
    cases i with
    | zero =>
      simp [endOffset] at hend
      omega
    | succ j => simp at hget
  rw [if_neg hc] at h
  by_cases hc' : (B'.length : Int) < r.min ∨ r.min < r.win
  · obtain ⟨rest, -, hlate⟩ := Sharding_late_chunks md5Sum r B hmax _ hInv0 n (by omega)
      (by simp only; omega) fuel rfi e h
    have hlt : i < rfi.poly.length := by
      rw [List.get?_eq_some] at hget
      exact hget.1
    have := hlate i (by simp) hlt
    omega
  rw [if_neg hc'] at h'
  exact Sharding_lockstep md5Sum r B B' n (by omega) hmax hagree (by omega) (by omega)
    fuel _ hInv0 fuel' rfi rfi' e e' h h' i p hget hend

/-- Prefix stability on `demoBuffer` and a buffer that agrees with it on its
first 10 bytes: the two chunks that end at the offsets 3 and 9 are kept. -/
theorem Sharding_prefix_stable_witness :
    (demoConfig.win < demoConfig.min ∧ demoConfig.min ≤ demoConfig.max) ∧
    demoBuffer.take 10 = ([7, 1, 2, 9, 9, 9, 9, 9, 9, 5, 0, 0] : List Byte).take 10 ∧
    Sharding demoDigest demoConfig demoBuffer 20 = Run.done ({ poly := demoChunks }, none) ∧
    Sharding demoDigest demoConfig [7, 1, 2, 9, 9, 9, 9, 9, 9, 5, 0, 0] 20 =
      Run.done ({ poly := [{ data := [7, 1, 2], robinChecksum := 15, key := "070102" },
        { data := [9, 9, 9, 9, 9, 9], robinChecksum := 0, key := "090909090909" },
        { data := [5, 0, 0], robinChecksum := 0, key := "050000" }] }, none) ∧
    endOffset demoChunks 1 = 9 ∧
    ∀ i p, demoChunks.get? i = some p → endOffset demoChunks i < 10 →
      ([{ data := [7, 1, 2], robinChecksum := 15, key := "070102" },
        { data := [9, 9, 9, 9, 9, 9], robinChecksum := 0, key := "090909090909" },
        { data := [5, 0, 0], robinChecksum := 0, key := "050000" }] :
          List polynomialInfo).get? i = some p :=
  ⟨by decide, by decide, by decide, by decide, by decide,
    Sharding_prefix_stable demoDigest demoConfig demoBuffer
      [7, 1, 2, 9, 9, 9, 9, 9, 9, 5, 0, 0] 10 20 20 { poly := demoChunks } _ none none
      (by decide) (by decide) (by decide) (by decide) (by decide)⟩

theorem splitStep_top {σ : Type} (md5Sum : List Byte → List Byte) (r : RobinFinger)
    (f : Handler σ) (b : List Byte) (atEOF : Bool) (s : SplitState σ)
    (h : s.sz ≥ b.length) :
    splitStep md5Sum r f b atEOF s =
      Sum.inr (Run.done { advance := s.sz, err := none, offset := s.offset, h := s.h }) := by
  unfold splitStep
  rw [if_pos h]

theorem splitStep_eq_body {σ : Type} (md5Sum : List Byte → List Byte) (r : RobinFinger)
    (f : Handler σ) (b : List Byte) (atEOF : Bool) (s : SplitState σ)
    (h0 : 0 ≤ s.sz) (h1 : s.sz < b.length) :
    splitStep md5Sum r f b atEOF s = splitBody md5Sum r f (b.drop s.sz.toNat) atEOF s := by
  unfold splitStep splitBody
  rw [if_neg (by omega), slice_tail h0 (by omega)]

theorem splitStep_neg {σ : Type} (md5Sum : List Byte → List Byte) (r : RobinFinger)
    (f : Handler σ) (b : List Byte) (atEOF : Bool) (s : SplitState σ)
    (h0 : s.sz < 0) :
    splitStep md5Sum r f b atEOF s = Sum.inr (Run.panic Panic.sliceBounds) := by
  unfold splitStep
  rw [if_neg (by omega)]
  have : slice b s.sz b.length = none := by
    unfold slice
    rw [if_neg (by omega)]
  rw [this]

theorem splitBody_inl {σ : Type} {md5Sum : List Byte → List Byte} {r : RobinFinger}
    {f : Handler σ} {tmpBuf : List Byte} {atEOF : Bool} {s s' : SplitState σ}
    (h : splitBody md5Sum r f tmpBuf atEOF s = Sum.inl s') :
    s.offset + r.win ≤ tmpBuf.length ∧
    ((r.max < s.offset + r.win ∧ 0 ≤ r.max ∧
        (f s.h (tmpBuf.take r.max.toNat) 0 (genKey md5Sum (tmpBuf.take r.max.toNat))).2 = none ∧
        s' = ⟨s.sz + r.max, r.min - r.win,
              (f s.h (tmpBuf.take r.max.toNat) 0 (genKey md5Sum (tmpBuf.take r.max.toNat))).1⟩) ∨
     (s.offset + r.win ≤ r.max ∧ 0 ≤ s.offset ∧ 0 ≤ r.win ∧ r.avg ≠ 0 ∧
        ∃ sum, rollChecksum r ((tmpBuf.take (s.offset + r.win).toNat).drop s.offset.toNat)
            = some sum ∧
          ((Int.tmod sum r.avg = r.prime ∧
              (f s.h (tmpBuf.take (s.offset + r.win).toNat) sum
                (genKey md5Sum (tmpBuf.take (s.offset + r.win).toNat))).2 = none ∧
              s' = ⟨s.sz + (s.offset + r.win), r.min - r.win,
                (f s.h (tmpBuf.take (s.offset + r.win).toNat) sum
                  (genKey md5Sum (tmpBuf.take (s.offset + r.win).toNat))).1⟩) ∨
           (Int.tmod sum r.avg ≠ r.prime ∧ s' = ⟨s.sz, s.offset + 1, s.h⟩)))) := by
  unfold splitBody at h
  split at h
  · split at h <;> simp at h
  rename_i h1
  refine ⟨by omega, ?_⟩
  split at h
  · rename_i h2
    split at h
    · simp at h
    rename_i chunk hchunk
    obtain ⟨-, hc1, -, rfl⟩ := slice_eq_some hchunk
    simp only [Int.toNat_zero, List.drop_zero] at h
    split at h
    · simp at h
    rename_i herr
    left
    simp only [Sum.inl.injEq] at h
    exact ⟨by omega, hc1, herr, h.symm⟩
  · rename_i h2
    split at h
    · simp at h
    rename_i winData hwin
    obtain ⟨hw0, hw1, -, rfl⟩ := slice_eq_some hwin
    split at h
    · simp at h
    rename_i sum hsum
    by_cases havg : r.avg = 0
    · rw [if_pos havg] at h
      simp at h
    rw [if_neg havg] at h
    right
    refine ⟨by omega, hw0, by omega, havg, sum, hsum, ?_⟩
    split at h
    · rename_i hp
      split at h
      · simp at h
      rename_i chunk hchunk
      obtain ⟨-, -, -, rfl⟩ := slice_eq_some hchunk
      simp only [Int.toNat_zero, List.drop_zero] at h
      split at h
      · simp at h
      rename_i herr
      left
      simp only [Sum.inl.injEq] at h
      exact ⟨hp, herr, h.symm⟩
    · rename_i hp
      right
      simp only [Sum.inl.injEq] at h
      exact ⟨hp, h.symm⟩

theorem splitStep_inl {σ : Type} {md5Sum : List Byte → List Byte} {r : RobinFinger}
    {f : Handler σ} {b : List Byte} {atEOF : Bool} {s s' : SplitState σ}
    (h : splitStep md5Sum r f b atEOF s = Sum.inl s') :
    0 ≤ s.sz ∧ s.sz < b.length ∧
      splitBody md5Sum r f (b.drop s.sz.toNat) atEOF s = Sum.inl s' := by
  by_cases h1 : s.sz ≥ b.length
  · rw [splitStep_top md5Sum r f b atEOF s h1] at h
    simp at h
  by_cases h0 : s.sz < 0
  · rw [splitStep_neg md5Sum r f b atEOF s h0] at h
    simp at h
  rw [splitStep_eq_body md5Sum r f b atEOF s (by omega) (by omega)] at h
  exact ⟨by omega, by omega, h⟩

theorem splitBody_done {σ : Type} {md5Sum : List Byte → List Byte} {r : RobinFinger}
    {f : Handler σ} {tmpBuf : List Byte} {atEOF : Bool} {s : SplitState σ}
    {ret : SplitReturn σ}
    (h : splitBody md5Sum r f tmpBuf atEOF s = Sum.inr (Run.done ret)) :
    ((tmpBuf.length : Int) < s.offset + r.win ∧
        ((atEOF = false ∧ ret = ⟨s.sz, none, s.offset, s.h⟩) ∨
         (atEOF = true ∧
            ret = ⟨s.sz + tmpBuf.length, (f s.h tmpBuf 0 (genKey md5Sum tmpBuf)).2, s.offset,
                   (f s.h tmpBuf 0 (genKey md5Sum tmpBuf)).1⟩))) ∨
      ∃ e, ret.err = some e := by
  unfold splitBody at h
  split at h
  · rename_i h1
    left
    refine ⟨by omega, ?_⟩
    split at h
    · rename_i he
      simp only [Sum.inr.injEq, Run.done.injEq] at h
      exact Or.inr ⟨he, h.symm⟩
    · rename_i he
      simp only [Sum.inr.injEq, Run.done.injEq] at h
      exact Or.inl ⟨by simpa using he, h.symm⟩
  right
  split at h
  · split at h
    · simp at h
    split at h
    · rename_i e he
      simp only [Sum.inr.injEq, Run.done.injEq] at h
      exact ⟨e, by rw [← h]⟩
    · simp at h
  · split at h
    · simp at h
    split at h
    · simp at h
    split at h
    · simp at h
    split at h
    · split at h
      · simp at h
      split at h
      · rename_i e he
        simp only [Sum.inr.injEq, Run.done.injEq] at h
        exact ⟨e, by rw [← h]⟩
      · simp at h
    · simp at h

theorem splitBody_no_panic {σ : Type} {md5Sum : List Byte → List Byte} {r : RobinFinger}
    {f : Handler σ} {tmpBuf : List Byte} {atEOF : Bool} {s : SplitState σ} {p : Panic}
    (hwin : 0 ≤ r.win) (htab : r.win < r.polynomialFactor.length) (havg : r.avg ≠ 0)
    (hmax : 0 ≤ r.max) (ho : 0 ≤ s.offset) :
    splitBody md5Sum r f tmpBuf atEOF s ≠ Sum.inr (Run.panic p) := by
  intro h
  unfold splitBody at h
  split at h
  · split at h <;> simp at h
  rename_i h1
  split at h
  · rename_i h2
    split at h
    · rename_i hn
      exact slice_eq_none hn ⟨le_rfl, hmax, by omega⟩
    · split at h <;> simp at h
  · rename_i h2
    split at h
    · rename_i hn
      exact slice_eq_none hn ⟨ho, by omega, by omega⟩
    rename_i winData hwd
    obtain ⟨-, -, -, rfl⟩ := slice_eq_some hwd
    split at h
    · rename_i hn
      have hlen : (((List.take (s.offset + r.win).toNat tmpBuf).drop s.offset.toNat).length : Int)
          ≤ r.win := by
        simp only [List.length_drop, List.length_take]
        omega
      obtain ⟨sum, hsum⟩ := rollChecksum_isSome hwin hlen htab
      rw [hsum] at hn
      simp at hn
    split at h
    · split at h
      · rename_i hn
        exact slice_eq_none hn ⟨le_rfl, by omega, by omega⟩
      · split at h <;> simp at h
    · simp at h

theorem splitStep_done {σ : Type} {md5Sum : List Byte → List Byte} {r : RobinFinger}
    {f : Handler σ} {b : List Byte} {atEOF : Bool} {s : SplitState σ} {ret : SplitReturn σ}
    (h : splitStep md5Sum r f b atEOF s = Sum.inr (Run.done ret)) :
    ((b.length : Int) ≤ s.sz ∧ ret = ⟨s.sz, none, s.offset, s.h⟩) ∨
    (0 ≤ s.sz ∧ s.sz < b.length ∧
      splitBody md5Sum r f (b.drop s.sz.toNat) atEOF s = Sum.inr (Run.done ret)) := by
  by_cases h1 : s.sz ≥ b.length
  · rw [splitStep_top md5Sum r f b atEOF s h1] at h
    simp only [Sum.inr.injEq, Run.done.injEq] at h
    exact Or.inl ⟨h1, h.symm⟩
  by_cases h0 : s.sz < 0
  · rw [splitStep_neg md5Sum r f b atEOF s h0] at h
    simp at h
  rw [splitStep_eq_body md5Sum r f b atEOF s (by omega) (by omega)] at h
  exact Or.inr ⟨by omega, by omega, h⟩

theorem SplitState.Inv_next {σ : Type} {md5Sum : List Byte → List Byte} {r : RobinFinger}
    {f : Handler σ} {b : List Byte} {atEOF : Bool} {s s' : SplitState σ}
    (hwin : 0 ≤ r.win) (hmin : r.win < r.min) (hmax : r.min ≤ r.max)
    (hs : s.Inv r b) (h : splitStep md5Sum r f b atEOF s = Sum.inl s') :
    s'.Inv r b ∧ s'.room r b < s.room r b := by
  obtain ⟨h0, h1, h2, h3⟩ := hs
  obtain ⟨-, hlt, hb⟩ := splitStep_inl h
  obtain ⟨hlen, hcase⟩ := splitBody_inl hb
  simp only [List.length_drop] at hlen
  unfold SplitState.Inv SplitState.room
  rcases hcase with ⟨hm, hm0, -, rfl⟩ | ⟨hm, ho, -, -, sum, -, ⟨-, -, rfl⟩ | ⟨-, rfl⟩⟩
  · simp only
    refine ⟨⟨by omega, by omega, by omega, by omega⟩, by omega⟩
  · simp only
    refine ⟨⟨by omega, by omega, by omega, by omega⟩, by omega⟩
  · simp only
    refine ⟨⟨by omega, by omega, by omega, by omega⟩, by omega⟩

theorem split_returns {σ : Type} (md5Sum : List Byte → List Byte) (r : RobinFinger)
    (f : Handler σ) (b : List Byte) (atEOF : Bool) (s : SplitState σ)
    (hwin : 0 ≤ r.win) (hmin : r.win < r.min) (hmax : r.min ≤ r.max) (havg : r.avg ≠ 0)
    (htab : r.win < r.polynomialFactor.length) (hs : s.Inv r b)
    (fuel : Nat) (hfuel : 2 * b.length < fuel) :
    ∃ ret, iterate (splitStep md5Sum r f b atEOF) fuel s = Run.done ret := by
  have hnf : iterate (splitStep md5Sum r f b atEOF) fuel s ≠ Run.fuel := by
    refine iterate_terminates _ (SplitState.Inv r b) (SplitState.room r b)
      (fun s s' hs hst => SplitState.Inv_next hwin hmin hmax hs hst) ?_ fuel s hs ?_
    · intro t out _ hso hout
      subst hout
      by_cases h1 : t.sz ≥ b.length
      · rw [splitStep_top md5Sum r f b atEOF t h1] at hso
        simp at hso
      by_cases h0 : t.sz < 0
      · rw [splitStep_neg md5Sum r f b atEOF t h0] at hso
        simp at hso
      rw [splitStep_eq_body md5Sum r f b atEOF t (by omega) (by omega)] at hso
      unfold splitBody at hso
      repeat' split at hso
      all_goals simp at hso
    · obtain ⟨h0, h1, h2, h3⟩ := hs
      unfold SplitState.room
      omega
  have hnp : ∀ p, iterate (splitStep md5Sum r f b atEOF) fuel s ≠ Run.panic p := by
    intro p
    refine iterate_invariant (splitStep md5Sum r f b atEOF) (SplitState.Inv r b)
      (fun out => out ≠ Run.panic p)
      (fun s s' hs hst => (SplitState.Inv_next hwin hmin hmax hs hst).1) ?_ (by simp) fuel s hs
    intro t out ⟨h0, h1, h2, h3⟩ hso hout
    subst hout
    by_cases h1 : t.sz ≥ b.length
    · rw [splitStep_top md5Sum r f b atEOF t h1] at hso
      simp at hso
    rw [splitStep_eq_body md5Sum r f b atEOF t (by omega) (by omega)] at hso
    exact splitBody_no_panic hwin htab havg (by omega) (by omega) hso
  cases hres : iterate (splitStep md5Sum r f b atEOF) fuel s with
  | fuel => exact absurd hres hnf
  | panic p => exact absurd hres (hnp p)
  | done ret => exact ⟨ret, rfl⟩

theorem split_return_props {σ : Type} (md5Sum : List Byte → List Byte) (r : RobinFinger)
    (f : Handler σ) (b : List Byte) (atEOF : Bool) (s : SplitState σ)
    (hwin : 0 ≤ r.win) (hmin : r.win < r.min) (hmax : r.min ≤ r.max) (hs : s.Inv r b)
    (fuel : Nat) (ret : SplitReturn σ)
    (h : iterate (splitStep md5Sum r f b atEOF) fuel s = Run.done ret)
    (herr : ret.err = none) :
    0 ≤ ret.advance ∧ ret.advance ≤ b.length ∧
      r.min ≤ ret.offset + r.win ∧ ret.offset + r.win ≤ r.max + 1 ∧
      (atEOF = false → (b.length : Int) - ret.advance ≤ r.max) ∧
      (atEOF = true → ret.advance = b.length) := by
  refine iterate_invariant (splitStep md5Sum r f b atEOF) (SplitState.Inv r b)
    (fun out => ∀ ret, out = Run.done ret → ret.err = none →
      0 ≤ ret.advance ∧ ret.advance ≤ b.length ∧
      r.min ≤ ret.offset + r.win ∧ ret.offset + r.win ≤ r.max + 1 ∧
      (atEOF = false → (b.length : Int) - ret.advance ≤ r.max) ∧
      (atEOF = true → ret.advance = b.length))
    (fun s s' hs hst => (SplitState.Inv_next hwin hmin hmax hs hst).1) ?_
    (fun _ he => by simp at he) fuel s hs ret h herr
  intro t out ⟨h0, h1, h2, h3⟩ hso ret he herr
  subst he
  rcases splitStep_done hso with ⟨hge, rfl⟩ | ⟨-, hlt, hb⟩
  · simp only
    exact ⟨h0, h1, h2, h3, fun _ => by omega, fun _ => by omega⟩
  · rcases splitBody_done hb with ⟨hlen, ⟨he, rfl⟩ | ⟨he, rfl⟩⟩ | ⟨e, he⟩
    · simp only [List.length_drop] at hlen
      simp only
      exact ⟨h0, h1, h2, h3, fun _ => by omega, fun h => by simp [he] at h⟩
    · simp only [List.length_drop] at hlen ⊢
      exact ⟨by omega, by omega, h2, h3, fun h => by simp [he] at h, fun _ => by omega⟩
    · rw [he] at herr
      simp at herr

theorem StepsTo.trans {σ ρ : Type} {step : σ → σ ⊕ Run ρ} {s t u : σ}
    (h1 : StepsTo step s t) (h2 : StepsTo step t u) : StepsTo step s u := by
  induction h1 with
  | refl _ => exact h2
  | head hst _ ih => exact StepsTo.head hst (ih h2)

theorem StepsTo.tail {σ ρ : Type} {step : σ → σ ⊕ Run ρ} {s t t' : σ}
    (h1 : StepsTo step s t) (h2 : step t = Sum.inl t') : StepsTo step s t' :=
  h1.trans (StepsTo.head h2 (StepsTo.refl t'))

theorem StepsTo.run {σ ρ : Type} {step : σ → σ ⊕ Run ρ} {s t : σ}
    (h : StepsTo step s t) {n : Nat} {out : Run ρ} (hout : iterate step n t = out) :
    ∃ m, n ≤ m ∧ iterate step m s = out := by
  induction h with
  | refl _ => exact ⟨n, le_rfl, hout⟩
  | head hst _ ih =>
    obtain ⟨m, hm, hi⟩ := ih hout
    exact ⟨m + 1, by omega, by simp only [iterate, hst]; exact hi⟩

theorem StepsTo.of_iterate {σ ρ : Type} {step : σ → σ ⊕ Run ρ} :
    ∀ (n : Nat) (s : σ) (out : Run ρ), iterate step n s = out → out ≠ Run.fuel →
      ∃ t, StepsTo step s t ∧ step t = Sum.inr out := by
  intro n
  induction n with
  | zero =>
    intro s out h hne
    simp only [iterate] at h
    exact absurd h.symm hne
  | succ n ih =>
    intro s out h hne
    cases hst : step s with
    | inl s' =>
      simp only [iterate, hst] at h
      obtain ⟨t, ht, hto⟩ := ih s' out h hne
      exact ⟨t, StepsTo.head hst ht, hto⟩
    | inr o =>
      simp only [iterate, hst] at h
      subst h
      exact ⟨s, StepsTo.refl s, hst⟩

theorem StepsTo.map {σ σ' ρ ρ' : Type} {stepA : σ → σ ⊕ Run ρ} {stepB : σ' → σ' ⊕ Run ρ'}
    (φ : σ → σ') (P : σ → Prop)
    (hsim : ∀ s s', P s → stepA s = Sum.inl s' → P s' ∧ stepB (φ s) = Sum.inl (φ s'))
    {s t : σ} (h : StepsTo stepA s t) (hP : P s) : StepsTo stepB (φ s) (φ t) ∧ P t := by
  induction h with
  | refl _ => exact ⟨StepsTo.refl _, hP⟩
  | head hst _ ih =>
    obtain ⟨hP', hB⟩ := hsim _ _ hP hst
    obtain ⟨h1, h2⟩ := ih hP'
    exact ⟨StepsTo.head hB h1, h2⟩

theorem splitBody_shift {σ : Type} (md5Sum : List Byte → List Byte) (r : RobinFinger)
    (f : Handler σ) (tmpBuf : List Byte) (atEOF : Bool) (s : SplitState σ) (a : Int) :
    splitBody md5Sum r f tmpBuf atEOF (s.shift a) =
      shiftOut a (splitBody md5Sum r f tmpBuf atEOF s) := by
  unfold splitBody
  simp only [SplitState.shift]
  repeat' split
  all_goals simp_all [shiftOut, SplitState.shift]
  all_goals omega

theorem slice_append_left {b more : List Byte} {lo hi : Int} (h : hi ≤ b.length) :
    slice (b ++ more) lo hi = slice b lo hi := by
  have := @slice_take_eq (b ++ more) lo hi b.length h (by simp)
  rw [← this, List.take_left']
  rfl

theorem splitBody_local {σ : Type} {md5Sum : List Byte → List Byte} {r : RobinFinger}
    {f : Handler σ} {tmpBuf : List Byte} {e0 : Bool} {s s' : SplitState σ}
    (more : List Byte) (e : Bool)
    (h : splitBody md5Sum r f tmpBuf e0 s = Sum.inl s') :
    splitBody md5Sum r f (tmpBuf ++ more) e s = Sum.inl s' := by
  obtain ⟨hlen, -⟩ := splitBody_inl h
  unfold splitBody at h ⊢
  have c1 : ¬ (s.offset + r.win > ((tmpBuf ++ more).length : Int)) := by
    simp only [List.length_append]; push_cast; omega
  have c2 : ¬ (s.offset + r.win > (tmpBuf.length : Int)) := by omega
  rw [if_neg c1]
  rw [if_neg c2] at h
  by_cases hm : s.offset + r.win > r.max
  · rw [if_pos hm] at h ⊢
    rw [slice_append_left (by omega)]
    exact h
  · rw [if_neg hm] at h ⊢
    rw [slice_append_left (le_of_eq rfl |>.trans hlen),
      slice_append_left (le_of_eq rfl |>.trans hlen)]
    exact h

theorem drop_shift (pre b : List Byte) (sz : Int) (h0 : 0 ≤ sz) :
    (pre ++ b).drop (sz + pre.length).toNat = b.drop sz.toNat := by
  have : (sz + (pre.length : Int)).toNat = pre.length + sz.toNat := by omega
  rw [this, List.drop_append]

theorem splitStep_shift {σ : Type} (md5Sum : List Byte → List Byte) (r : RobinFinger)
    (f : Handler σ) (pre b : List Byte) (e : Bool) (s : SplitState σ) (h0 : 0 ≤ s.sz) :
    splitStep md5Sum r f (pre ++ b) e (s.shift pre.length) =
      shiftOut pre.length (splitStep md5Sum r f b e s) := by
  by_cases h1 : s.sz ≥ b.length
  · rw [splitStep_top md5Sum r f b e s h1, splitStep_top]
    · rfl
    · simp only [SplitState.shift, List.length_append]; push_cast; omega
  · rw [splitStep_eq_body md5Sum r f b e s h0 (by omega), splitStep_eq_body]
    · have : (s.shift (pre.length : Int)).sz = s.sz + pre.length := rfl
      rw [this, drop_shift pre b s.sz h0, splitBody_shift]
    · simp only [SplitState.shift]; omega
    · simp only [SplitState.shift, List.length_append]; push_cast; omega

theorem splitStep_embed {σ : Type} {md5Sum : List Byte → List Byte} {r : RobinFinger}
    {f : Handler σ} {b : List Byte} {e0 : Bool} {s s' : SplitState σ}
    (pre more : List Byte) (e : Bool)
    (h : splitStep md5Sum r f b e0 s = Sum.inl s') :
    splitStep md5Sum r f (pre ++ (b ++ more)) e (s.shift pre.length) =
      Sum.inl (s'.shift pre.length) := by
  obtain ⟨h0, h1, hb⟩ := splitStep_inl h
  rw [splitStep_shift md5Sum r f pre (b ++ more) e s h0,
    splitStep_eq_body md5Sum r f (b ++ more) e s h0
      (by simp only [List.length_append]; push_cast; omega)]
  have hd : (b ++ more).drop s.sz.toNat = b.drop s.sz.toNat ++ more := by
    rw [List.drop_append_of_le_length (by omega)]
  rw [hd, splitBody_local more e hb]
  rfl

theorem iterate_split_shift {σ : Type} (md5Sum : List Byte → List Byte) (r : RobinFinger)
    (f : Handler σ) (pre b : List Byte) (e : Bool) :
    ∀ (n : Nat) (s : SplitState σ), 0 ≤ s.sz →
      iterate (splitStep md5Sum r f (pre ++ b) e) n (s.shift pre.length) =
        shiftRun pre.length (iterate (splitStep md5Sum r f b e) n s) := by
  intro n
  induction n with
  | zero => intro s _; rfl
  | succ n ih =>
    intro s h0
    simp only [iterate]
    rw [splitStep_shift md5Sum r f pre b e s h0]
    cases hst : splitStep md5Sum r f b e s with
    | inl s' =>
      simp only [shiftOut]
      apply ih
      obtain ⟨-, -, hb⟩ := splitStep_inl hst
      obtain ⟨-, hcase⟩ := splitBody_inl hb
      rcases hcase with ⟨-, hm0, -, rfl⟩ | ⟨-, ho, hw, -, sum, -, ⟨-, -, rfl⟩ | ⟨-, rfl⟩⟩
      · simp only; omega
      · simp only; omega
      · exact h0
    | inr out =>
      cases out with
      | done ret => rfl
      | panic p => rfl
      | fuel => rfl

theorem Reader.Read_nil (rd : Reader) (cap : Nat) (h : rd.data = []) :
    rd.Read cap = ([], some GoError.EOF, rd) := by
  unfold Reader.Read
  rw [h]

theorem Reader.Read_cons (rd : Reader) (cap : Nat) (h : rd.data ≠ []) :
    rd.Read cap = (rd.data.take (Nat.min (rd.sched.headD cap) cap), none,
      { data := rd.data.drop (Nat.min (rd.sched.headD cap) cap), sched := rd.sched.tail }) := by
  unfold Reader.Read
  cases hd : rd.data with
  | nil => exact absurd hd h
  | cons c cs => rfl

theorem readLoop_nil {σ : Type} (tries : Nat) (S : Scanner σ) (herr : S.err = none)
    (hd : S.rd.data = []) :
    readLoop tries S = { S with data := S.data ++ [], err := some GoError.EOF } := by
  unfold readLoop
  simp only [Reader.Read_nil S.rd _ hd, List.length_nil, Nat.not_lt_zero, if_false, herr,
    setErr]

theorem readLoop_cons {σ : Type} (tries : Nat) (S : Scanner σ) (n : Nat)
    (hn : n = Nat.min (S.rd.sched.headD (S.bufLen - (S.start + S.data.length)))
      (S.bufLen - (S.start + S.data.length)))
    (hn1 : 1 ≤ n) (hd : S.rd.data ≠ []) :
    readLoop tries S =
      { S with rd := { data := S.rd.data.drop n, sched := S.rd.sched.tail },
               data := S.data ++ S.rd.data.take n } := by
  have hlen : 1 ≤ S.rd.data.length := by
    cases hdd : S.rd.data with
    | nil => exact absurd hdd hd
    | cons c cs => simp
  have hn2 : n ≤ S.bufLen - (S.start + S.data.length) := by
    rw [hn]; exact Nat.min_le_right _ _
  unfold readLoop
  simp only [Reader.Read_cons S.rd _ hd, ← hn]
  rw [if_neg (by simp only [List.length_take]; omega), if_pos (by
    simp only [List.length_take]; omega)]

theorem readLoop_spec {σ : Type} (tries : Nat) (S : Scanner σ)
    (hcap : S.start + S.data.length < S.bufLen) (herr : S.err = none)
    (hsched : ∀ k ∈ S.rd.sched, 0 < k) :
    (readLoop tries S).offset = S.offset ∧ (readLoop tries S).h = S.h ∧
    (readLoop tries S).start + (readLoop tries S).data.length ≤ (readLoop tries S).bufLen ∧
    (readLoop tries S).data ++ (readLoop tries S).rd.data = S.data ++ S.rd.data ∧
    (∀ k ∈ (readLoop tries S).rd.sched, 0 < k) ∧
    ((S.rd.data = [] ∧ (readLoop tries S).err = some GoError.EOF ∧
        (readLoop tries S).rd.data = []) ∨
     ((readLoop tries S).err = none ∧
        (readLoop tries S).rd.data.length < S.rd.data.length)) := by
  by_cases hd : S.rd.data = []
  · rw [readLoop_nil tries S herr hd]
    refine ⟨rfl, rfl, ?_, ?_, hsched, Or.inl ⟨hd, rfl, hd⟩⟩
    · show S.start + (S.data ++ []).length ≤ S.bufLen
      rw [List.append_nil]; omega
    · show (S.data ++ []) ++ S.rd.data = S.data ++ S.rd.data
      rw [List.append_nil]
  · obtain ⟨n, hn⟩ : ∃ n, n = Nat.min (S.rd.sched.headD (S.bufLen - (S.start + S.data.length)))
        (S.bufLen - (S.start + S.data.length)) := ⟨_, rfl⟩
    have hn1 : 1 ≤ n := by
      have h1 : 1 ≤ S.bufLen - (S.start + S.data.length) := by omega
      have h2 : 1 ≤ S.rd.sched.headD (S.bufLen - (S.start + S.data.length)) := by
        cases hs : S.rd.sched with
        | nil => simpa using h1
        | cons k ks =>
          have := hsched k (by rw [hs]; simp)
          simpa using this
      rw [hn]
      exact Nat.le_min.mpr ⟨h2, h1⟩
    have hn2 : n ≤ S.bufLen - (S.start + S.data.length) := by
      rw [hn]; exact Nat.min_le_right _ _
    have hlen : 1 ≤ S.rd.data.length := by
      cases hdd : S.rd.data with
      | nil => exact absurd hdd hd
      | cons c cs => simp
    rw [readLoop_cons tries S n hn hn1 hd]
    refine ⟨rfl, rfl, ?_, ?_, ?_, Or.inr ⟨herr, ?_⟩⟩
    · show S.start + (S.data ++ S.rd.data.take n).length ≤ S.bufLen
      simp only [List.length_append, List.length_take]; omega
    · show (S.data ++ S.rd.data.take n) ++ S.rd.data.drop n = S.data ++ S.rd.data
      rw [List.append_assoc, List.take_append_drop]
    · intro k hk
      exact hsched k (List.mem_of_mem_tail hk)
    · show (S.rd.data.drop n).length < S.rd.data.length
      simp only [List.length_drop]; omega

theorem readLoop_fills {σ : Type} (tries : Nat) (S S2 : Scanner σ)
    (h1 : S2.rd = S.rd) (h2 : S2.data = S.data) (h3 : S2.err = S.err)
    (h4 : S2.offset = S.offset) (h5 : S2.h = S.h)
    (hcap : S2.start + S2.data.length < S2.bufLen) (herr : S.err = none)
    (hsched : ∀ k ∈ S.rd.sched, 0 < k) : FillsFrom S (readLoop tries S2) := by
  have := readLoop_spec tries S2 hcap (h3.trans herr) (by rw [h1]; exact hsched)
  rw [h1, h2, h4, h5] at this
  exact this

theorem scanFill_spec {σ : Type} (S : Scanner σ) (herr : S.err = none)
    (hbuf : S.start + S.data.length ≤ S.bufLen) (hdata : S.data.length < MaxScanTokenSize)
    (hsched : ∀ k ∈ S.rd.sched, 0 < k) :
    ∃ S', scanFill S = Sum.inl S' ∧ FillsFrom S S' := by
  unfold scanFill
  rw [if_neg (by simp [herr])]
  simp only
  by_cases hshift : S.start > 0 ∧ (S.start + S.data.length = S.bufLen ∨ S.start > S.bufLen / 2)
  · rw [if_pos hshift]
    simp only
    by_cases hfull : 0 + S.data.length = S.bufLen
    · rw [if_pos hfull]
      have hsmall : ¬ (S.bufLen ≥ MaxScanTokenSize ∨ S.bufLen > maxInt / 2) := by
        unfold MaxScanTokenSize maxInt at *
        omega
      rw [if_neg hsmall]
      refine ⟨_, rfl, readLoop_fills _ S _ rfl rfl rfl rfl rfl ?_ herr hsched⟩
      simp only
      unfold MaxScanTokenSize startBufSize at *
      split <;> simp only [Nat.min_def] <;> split <;> omega
    · rw [if_neg hfull]
      refine ⟨_, rfl, readLoop_fills _ S _ rfl rfl rfl rfl rfl ?_ herr hsched⟩
      simp only
      omega
  · rw [if_neg hshift]
    by_cases hfull : S.start + S.data.length = S.bufLen
    · rw [if_pos hfull]
      have hstart : S.start = 0 := by
        by_contra hne
        exact hshift ⟨by omega, Or.inl hfull⟩
      have hsmall : ¬ (S.bufLen ≥ MaxScanTokenSize ∨ S.bufLen > maxInt / 2) := by
        unfold MaxScanTokenSize maxInt at *
        omega
      rw [if_neg hsmall]
      refine ⟨_, rfl, readLoop_fills _ S _ rfl rfl rfl rfl rfl ?_ herr hsched⟩
      simp only
      unfold MaxScanTokenSize startBufSize at *
      split <;> simp only [Nat.min_def] <;> split <;> omega
    · rw [if_neg hfull]
      exact ⟨_, rfl, readLoop_fills _ S _ rfl rfl rfl rfl rfl (by omega) herr hsched⟩

theorem scanFill_err {σ : Type} (S : Scanner σ) (herr : S.err ≠ none) :
    scanFill S = Sum.inr (Run.done { S with start := 0, data := [] }) := by
  unfold scanFill
  rw [if_pos herr]

theorem collect_neverFails : NeverFails collect := fun _ _ _ _ => rfl

theorem splitBody_err_none {σ : Type} {md5Sum : List Byte → List Byte} {r : RobinFinger}
    {f : Handler σ} {tmpBuf : List Byte} {atEOF : Bool} {s : SplitState σ}
    {ret : SplitReturn σ} (hf : NeverFails f)
    (h : splitBody md5Sum r f tmpBuf atEOF s = Sum.inr (Run.done ret)) : ret.err = none := by
  rcases splitBody_done h with ⟨-, ⟨-, rfl⟩ | ⟨-, rfl⟩⟩ | ⟨e, he⟩
  · rfl
  · exact hf _ _ _ _
  · exfalso
    unfold splitBody at h
    split at h
    · split at h
      · simp only [Sum.inr.injEq, Run.done.injEq] at h
        rw [← h] at he
        simp only [hf _ _ _ _] at he
        exact absurd he (by simp)
      · simp only [Sum.inr.injEq, Run.done.injEq] at h
        rw [← h] at he
        simp at he
    split at h
    · split at h
      · simp at h
      split at h
      · rename_i e' he'
        rw [hf _ _ _ _] at he'
        simp at he'
      · simp at h
    · split at h
      · simp at h
      split at h
      · simp at h
      split at h
      · simp at h
      split at h
      · split at h
        · simp at h
        split at h
        · rename_i e' he'
          rw [hf _ _ _ _] at he'
          simp at he'
        · simp at h
      · simp at h

theorem split_err_none {σ : Type} {md5Sum : List Byte → List Byte} {r : RobinFinger}
    {f : Handler σ} {b : List Byte} {atEOF : Bool} {s : SplitState σ} {n : Nat}
    {ret : SplitReturn σ} (hf : NeverFails f)
    (h : iterate (splitStep md5Sum r f b atEOF) n s = Run.done ret) : ret.err = none := by
  obtain ⟨t, -, ht⟩ := StepsTo.of_iterate n s _ h (by simp)
  rcases splitStep_done ht with ⟨-, rfl⟩ | ⟨-, -, hb⟩
  · rfl
  · exact splitBody_err_none hf hb

theorem split_run_false {σ : Type} {md5Sum : List Byte → List Byte} {r : RobinFinger}
    {f : Handler σ} {b : List Byte} {s : SplitState σ} {n : Nat}
    {ret : SplitReturn σ} (hf : NeverFails f)
    (h : iterate (splitStep md5Sum r f b false) n s = Run.done ret) :
    StepsTo (splitStep md5Sum r f b false) s ⟨ret.advance, ret.offset, ret.h⟩ := by
  obtain ⟨t, hst, ht⟩ := StepsTo.of_iterate n s _ h (by simp)
  have : t = ⟨ret.advance, ret.offset, ret.h⟩ := by
    rcases splitStep_done ht with ⟨-, rfl⟩ | ⟨-, -, hb⟩
    · rfl
    · rcases splitBody_done hb with ⟨-, ⟨-, rfl⟩ | ⟨he, -⟩⟩ | ⟨e, he⟩
      · rfl
      · simp at he
      · rw [splitBody_err_none hf hb] at he
        simp at he
  rw [← this]
  exact hst

theorem FillsFrom.room_lt {σ : Type} {S1 S' : Scanner σ} (hF : FillsFrom S1 S')
    (herr : S1.err = none) : S'.room < S1.room := by
  obtain ⟨-, -, -, -, -, hcase⟩ := hF
  unfold Scanner.room
  rw [if_pos herr]
  rcases hcase with ⟨h1, h2, h3⟩ | ⟨h1, h2⟩
  · rw [if_neg (by rw [h2]; simp), h3, h1]
    simp
  · rw [if_pos h1]
    omega

theorem ScanInv.of_fill {σ : Type} {md5Sum : List Byte → List Byte} {r : RobinFinger}
    {f : Handler σ} {B : List Byte} {h0 : σ} {S1 S' : Scanner σ} (pre : List Byte)
    (hB : pre ++ (S1.data ++ S1.rd.data) = B)
    (hsteps : StepsTo (splitStep md5Sum r f B true) ⟨0, r.min - r.win, h0⟩
      ⟨pre.length, S1.offset, S1.h⟩)
    (ho1 : r.min ≤ S1.offset + r.win) (ho2 : S1.offset + r.win ≤ r.max + 1)
    (hF : FillsFrom S1 S') : ScanInv md5Sum r f B h0 S' := by
  obtain ⟨h1, h2, h3, h4, h5, hcase⟩ := hF
  refine ⟨pre, by rw [h4]; exact hB, by rw [h1, h2]; exact hsteps, by rw [h1]; exact ho1,
    by rw [h1]; exact ho2, h3, ?_, h5⟩
  rcases hcase with ⟨-, h6, h7⟩ | ⟨h6, -⟩
  · exact Or.inr ⟨h6, h7⟩
  · exact Or.inl h6

theorem scanStep_more {σ : Type} (md5Sum : List Byte → List Byte) (r : RobinFinger)
    (f : Handler σ) (B : List Byte) (h0 : σ) (fuel : Nat) (S : Scanner σ)
    (hf : NeverFails f) (hwin : 0 ≤ r.win) (hmin : r.win < r.min) (hmax : r.min ≤ r.max)
    (htok : r.max < MaxScanTokenSize) (havg : r.avg ≠ 0)
    (htab : r.win < r.polynomialFactor.length) (hfuel : 2 * B.length < fuel)
    (hS : ScanInv md5Sum r f B h0 S) (herr : S.err = none) :
    ∃ S', scanStep md5Sum r f fuel S = Sum.inl S' ∧ ScanInv md5Sum r f B h0 S' ∧
      S'.room < S.room := by
  obtain ⟨pre, hB, hsteps, ho1, ho2, hbuf, -, hsched⟩ := hS
  by_cases hdata : S.data.length > 0
  · have hlenB : S.data.length ≤ B.length := by
      rw [← hB]; simp only [List.length_append]; omega
    have hInv : SplitState.Inv r S.data (⟨0, S.offset, S.h⟩ : SplitState σ) :=
      ⟨le_rfl, by simp, ho1, ho2⟩
    obtain ⟨ret, hret⟩ := split_returns md5Sum r f S.data false ⟨0, S.offset, S.h⟩
      hwin hmin hmax havg htab hInv fuel (by omega)
    have hnone := split_err_none hf hret
    obtain ⟨ha0, ha1, hr1, hr2, hr3, -⟩ := split_return_props md5Sum r f S.data false _
      hwin hmin hmax hInv fuel ret hret hnone
    have hrun := split_run_false hf hret
    have hr3' := hr3 rfl
    -- the scanner after the call of the split function
    obtain ⟨S1, hS1⟩ : ∃ S1 : Scanner σ, S1 =
        { S with offset := ret.offset, h := ret.h,
                 start := S.start + ret.advance.toNat,
                 data := S.data.drop ret.advance.toNat } :=
      ⟨_, rfl⟩
    have hstep : scanStep md5Sum r f fuel S = scanFill S1 := by
      unfold scanStep
      rw [if_pos (Or.inl hdata)]
      have hd : decide (S.err ≠ none) = false := by simp [herr]
      rw [hd]
      unfold split
      rw [hret]
      simp only [hnone]
      rw [if_neg (by omega), if_neg (by omega), hS1]
    have hS1err : S1.err = none := by rw [hS1]; exact herr
    obtain ⟨S', hfill, hF⟩ := scanFill_spec S1 hS1err
      (by rw [hS1]; simp only [List.length_drop]; omega)
      (by rw [hS1]; simp only [List.length_drop]; unfold MaxScanTokenSize at *; omega)
      (by rw [hS1]; exact hsched)
    refine ⟨S', by rw [hstep, hfill], ?_, ?_⟩
    · refine ScanInv.of_fill (pre ++ S.data.take ret.advance.toNat) ?_ ?_
        (by rw [hS1]; exact hr1) (by rw [hS1]; exact hr2) hF
      · rw [hS1]
        simp only
        rw [List.append_assoc, ← List.append_assoc (S.data.take _), List.take_append_drop]
        exact hB
      · have hmap := (@StepsTo.map _ _ _ _ (splitStep md5Sum r f S.data false)
          (splitStep md5Sum r f B true)
          (fun s : SplitState σ => s.shift pre.length) (fun _ => True)
          (fun s s' _ hst => ⟨trivial, by
            have := splitStep_embed pre S.rd.data true hst
            rw [hB] at this
            exact this⟩) _ _ hrun trivial).1
        have e1 : (⟨0, S.offset, S.h⟩ : SplitState σ).shift pre.length =
            ⟨pre.length, S.offset, S.h⟩ := by
          simp [SplitState.shift]
        have e2 : (⟨ret.advance, ret.offset, ret.h⟩ : SplitState σ).shift pre.length =
            ⟨((pre ++ S.data.take ret.advance.toNat).length : Nat), S1.offset, S1.h⟩ := by
          rw [hS1]
          simp only [SplitState.shift, List.length_append, List.length_take]
          congr 1
          push_cast
          omega
        rw [e1, e2] at hmap
        exact hsteps.trans hmap
    · have := hF.room_lt hS1err
      have e : S1.room = S.room := by rw [hS1]; rfl
      omega
  · have hstep : scanStep md5Sum r f fuel S = scanFill S := by
      unfold scanStep
      rw [if_neg (by rintro (h | h); exacts [hdata h, h herr])]
    obtain ⟨S', hfill, hF⟩ := scanFill_spec S herr hbuf
      (by unfold MaxScanTokenSize; omega) hsched
    exact ⟨S', by rw [hstep, hfill], ScanInv.of_fill pre hB hsteps ho1 ho2 hF,
      hF.room_lt herr⟩

theorem scanStep_eof {σ : Type} (md5Sum : List Byte → List Byte) (r : RobinFinger)
    (f : Handler σ) (B : List Byte) (h0 : σ) (fuel : Nat) (S : Scanner σ)
    (hf : NeverFails f) (hwin : 0 ≤ r.win) (hmin : r.win < r.min) (hmax : r.min ≤ r.max)
    (havg : r.avg ≠ 0)
    (htab : r.win < r.polynomialFactor.length) (hfuel : 2 * B.length < fuel)
    (hS : ScanInv md5Sum r f B h0 S) (herr : S.err ≠ none)
    (N : Nat) (retF : SplitReturn σ)
    (href : iterate (splitStep md5Sum r f B true) N ⟨0, r.min - r.win, h0⟩ = Run.done retF) :
    ∃ Sf, scanStep md5Sum r f fuel S = Sum.inr (Run.done Sf) ∧
      Sf.err = some GoError.EOF ∧ Sf.h = retF.h := by
  obtain ⟨pre, hB, hsteps, ho1, ho2, hbuf, hcase, hsched⟩ := hS
  rcases hcase with hnone | ⟨heof, hrd⟩
  · exact absurd hnone herr
  have hB' : pre ++ S.data = B := by
    rw [hrd, List.append_nil] at hB
    exact hB
  have hlenB : S.data.length ≤ B.length := by
    rw [← hB']; simp only [List.length_append]; omega
  have hInv : SplitState.Inv r S.data (⟨0, S.offset, S.h⟩ : SplitState σ) :=
    ⟨le_rfl, by simp, ho1, ho2⟩
  obtain ⟨ret, hret⟩ := split_returns md5Sum r f S.data true ⟨0, S.offset, S.h⟩
    hwin hmin hmax havg htab hInv fuel (by omega)
  have hnone := split_err_none hf hret
  obtain ⟨ha0, ha1, -, -, -, -⟩ := split_return_props md5Sum r f S.data true _
    hwin hmin hmax hInv fuel ret hret hnone
  refine ⟨{ S with offset := ret.offset, h := ret.h,
                   start := 0, data := [] }, ?_, heof, ?_⟩
  · unfold scanStep
    rw [if_pos (Or.inr herr)]
    have hd : decide (S.err ≠ none) = true := by simp [herr]
    rw [hd]
    unfold split
    rw [hret]
    simp only [hnone]
    rw [if_neg (by omega), if_neg (by omega), scanFill_err _ (by simpa using herr)]
  · have hshift := iterate_split_shift md5Sum r f pre S.data true fuel
      ⟨0, S.offset, S.h⟩ le_rfl
    rw [hret, hB'] at hshift
    have e1 : (⟨0, S.offset, S.h⟩ : SplitState σ).shift pre.length =
        ⟨pre.length, S.offset, S.h⟩ := by
      simp [SplitState.shift]
    rw [e1] at hshift
    obtain ⟨m, -, hm⟩ := hsteps.run hshift
    have := iterate_deterministic _ _ _ _ _ _ hm href
    rw [← this]

theorem ShardingWithHandle_eq_split {σ : Type} (md5Sum : List Byte → List Byte)
    (r : RobinFinger) (f : Handler σ) (B : List Byte) (sched : List Nat) (h0 : σ)
    (hf : NeverFails f) (hwin : 0 ≤ r.win) (hmin : r.win < r.min) (hmax : r.min ≤ r.max)
    (htok : r.max < MaxScanTokenSize) (havg : r.avg ≠ 0)
    (htab : r.win < r.polynomialFactor.length) (hsched : ∀ k ∈ sched, 0 < k)
    (N : Nat) (retF : SplitReturn σ)
    (href : iterate (splitStep md5Sum r f B true) N ⟨0, r.min - r.win, h0⟩ = Run.done retF)
    (fuel : Nat) (hfuel : 2 * B.length + 1 < fuel) :
    ShardingWithHandle md5Sum r { data := B, sched := sched } f h0 fuel =
      Run.done (none, retF.h) := by
  obtain ⟨S0, hS0⟩ : ∃ S0 : Scanner σ, S0 =
      { rd := { data := B, sched := sched }, bufLen := 0, start := 0, data := [],
        err := none, offset := r.min - r.win, h := h0 } := ⟨_, rfl⟩
  have hInv0 : ScanInv md5Sum r f B h0 S0 := by
    rw [hS0]
    exact ⟨[], rfl, StepsTo.refl _, by simp, by simp only; omega, by simp, Or.inl rfl, hsched⟩
  have hstep : ∀ S S', ScanInv md5Sum r f B h0 S →
      scanStep md5Sum r f fuel S = Sum.inl S' →
      ScanInv md5Sum r f B h0 S' ∧ S'.room < S.room := by
    intro S S' hS hst
    by_cases herr : S.err = none
    · obtain ⟨S'', h1, h2, h3⟩ := scanStep_more md5Sum r f B h0 fuel S hf hwin hmin hmax htok
        havg htab (by omega) hS herr
      rw [h1] at hst
      simp only [Sum.inl.injEq] at hst
      subst hst
      exact ⟨h2, h3⟩
    · obtain ⟨Sf, h1, -⟩ := scanStep_eof md5Sum r f B h0 fuel S hf hwin hmin hmax havg htab
        (by omega) hS herr N retF href
      rw [h1] at hst
      simp at hst
  have hout : ∀ S out, ScanInv md5Sum r f B h0 S →
      scanStep md5Sum r f fuel S = Sum.inr out →
      ∃ Sf, out = Run.done Sf ∧ Sf.err = some GoError.EOF ∧ Sf.h = retF.h := by
    intro S out hS hso
    by_cases herr : S.err = none
    · obtain ⟨S'', h1, -⟩ := scanStep_more md5Sum r f B h0 fuel S hf hwin hmin hmax htok
        havg htab (by omega) hS herr
      rw [h1] at hso
      simp at hso
    · obtain ⟨Sf, h1, h2, h3⟩ := scanStep_eof md5Sum r f B h0 fuel S hf hwin hmin hmax havg
        htab (by omega) hS herr N retF href
      rw [h1] at hso
      simp only [Sum.inr.injEq] at hso
      exact ⟨Sf, hso.symm, h2, h3⟩
  have hnf : iterate (scanStep md5Sum r f fuel) fuel S0 ≠ Run.fuel := by
    refine iterate_terminates _ (ScanInv md5Sum r f B h0) Scanner.room hstep ?_ fuel S0
      hInv0 ?_
    · intro S out hS hso hfu
      obtain ⟨Sf, h1, -⟩ := hout S out hS hso
      rw [h1] at hfu
      simp at hfu
    · rw [hS0]
      unfold Scanner.room
      simp only [if_true]
      omega
  have hpost := iterate_invariant (scanStep md5Sum r f fuel) (ScanInv md5Sum r f B h0)
    (fun out => out = Run.fuel ∨
      ∃ Sf, out = Run.done Sf ∧ Sf.err = some GoError.EOF ∧ Sf.h = retF.h)
    (fun S S' hS hst => (hstep S S' hS hst).1)
    (fun S out hS hso => Or.inr (hout S out hS hso)) (Or.inl rfl) fuel S0 hInv0
  rcases hpost with hfu | ⟨Sf, h1, h2, h3⟩
  · exact absurd hfu hnf
  · unfold ShardingWithHandle
    rw [← hS0, h1]
    simp only [h2, h3, scannerErr]

theorem iterate_succ_inl {σ ρ : Type} {step : σ → σ ⊕ Run ρ} {s s' : σ} (n : Nat)
    (h : step s = Sum.inl s') : iterate step (n + 1) s = iterate step n s' := by
  simp only [iterate, h]

theorem iterate_succ_inr {σ ρ : Type} {step : σ → σ ⊕ Run ρ} {s : σ} {out : Run ρ} (n : Nat)
    (h : step s = Sum.inr out) : iterate step (n + 1) s = out := by
  simp only [iterate, h]

theorem splitStep_final (md5Sum : List Byte → List Byte) (r : RobinFinger) (b : List Byte)
    (sz o : Int) (out : List polynomialInfo) (h0 : 0 ≤ sz) (h1 : sz < b.length)
    (h2 : (b.length : Int) - sz < o + r.win) :
    splitStep md5Sum r collect b true ⟨sz, o, out⟩ =
      Sum.inr (Run.done ⟨b.length, none, o,
        out ++ [⟨b.drop sz.toNat, 0, genKey md5Sum (b.drop sz.toNat)⟩]⟩) := by
  rw [splitStep_eq_body md5Sum r collect b true _ h0 h1]
  unfold splitBody
  rw [if_pos (by simp only [List.length_drop]; omega)]
  simp only [if_true, collect, List.length_drop]
  congr 3
  omega

theorem splitStep_cut (md5Sum : List Byte → List Byte) (r : RobinFinger) (b : List Byte)
    (e : Bool) (sz o : Int) (out : List polynomialInfo) (h0 : 0 ≤ sz) (h1 : sz < b.length)
    (h2 : o + r.win ≤ (b.length : Int) - sz) (h3 : r.max < o + r.win) (h4 : 0 ≤ r.max) :
    splitStep md5Sum r collect b e ⟨sz, o, out⟩ =
      Sum.inl ⟨sz + r.max, r.min - r.win,
        out ++ [⟨(b.drop sz.toNat).take r.max.toNat, 0,
          genKey md5Sum ((b.drop sz.toNat).take r.max.toNat)⟩]⟩ := by
  rw [splitStep_eq_body md5Sum r collect b e _ h0 h1]
  unfold splitBody
  rw [if_neg (by simp only [List.length_drop]; omega), if_pos h3,
    slice_head h4 (by simp only [List.length_drop]; omega)]
  rfl

theorem splitStep_test (md5Sum : List Byte → List Byte) (r : RobinFinger) (b : List Byte)
    (e : Bool) (sz o : Int) (out : List polynomialInfo) (sum : Int)
    (h0 : 0 ≤ sz) (h1 : sz < b.length)
    (h2 : o + r.win ≤ (b.length : Int) - sz) (h3 : o + r.win ≤ r.max) (ho : 0 ≤ o)
    (hwin : 0 ≤ r.win) (havg : r.avg ≠ 0)
    (hsum : rollChecksum r (windowAt b sz o r.win) = some sum) :
    splitStep md5Sum r collect b e ⟨sz, o, out⟩ =
      if Int.tmod sum r.avg = r.prime then
        Sum.inl ⟨sz + (o + r.win), r.min - r.win,
          out ++ [⟨(b.drop sz.toNat).take (o + r.win).toNat, sum,
            genKey md5Sum ((b.drop sz.toNat).take (o + r.win).toNat)⟩]⟩
      else Sum.inl ⟨sz, o + 1, out⟩ := by
  rw [splitStep_eq_body md5Sum r collect b e _ h0 h1]
  unfold splitBody
  dsimp only
  unfold windowAt at hsum
  rw [if_neg (by simp only [List.length_drop]; omega), if_neg (by omega),
    slice_of_le ho (by omega) (by simp only [List.length_drop]; omega)]
  simp only [hsum, if_neg havg]
  rw [slice_head (by omega) (by simp only [List.length_drop]; omega)]
  rfl

theorem window_sum_exists (r : RobinFinger) (b : List Byte) (sz o : Int)
    (hwin : 0 ≤ r.win) (htab : r.win < r.polynomialFactor.length) :
    ∃ sum, rollChecksum r (windowAt b sz o r.win) = some sum := by
  apply rollChecksum_isSome hwin _ htab
  unfold windowAt
  simp only [List.length_drop, List.length_take]
  omega

theorem forall2_snoc {r : RobinFinger} {out poly : List polynomialInfo}
    {a b : polynomialInfo} (h : List.Forall₂ (ChunkAgree r) out poly)
    (hab : ChunkAgree r a b) : List.Forall₂ (ChunkAgree r) (out ++ [a]) (poly ++ [b]) :=
  List.rel_append h (List.Forall₂.cons hab List.Forall₂.nil)

theorem split_simulates (md5Sum : List Byte → List Byte) (r : RobinFinger) (B : List Byte)
    (hwin : 0 ≤ r.win) (hmin : r.win < r.min) (hmax : r.min ≤ r.max) (havg : r.avg ≠ 0)
    (htab : r.win < r.polynomialFactor.length) :
    ∀ (fuel : Nat) (s : ShardingState) (out : List polynomialInfo), s.Inv r →
      List.Forall₂ (ChunkAgree r) out s.poly →
      ∀ (rfi : RobinFingerInfo) (e : Option GoError),
        iterate (ShardingStep md5Sum r B) fuel s = Run.done (rfi, e) →
        ∃ n ret, iterate (splitStep md5Sum r collect B true) n
            ⟨s.startPos, s.winStartPos, out⟩ = Run.done ret ∧
          FinalAgree r ret.h rfi.poly := by
  intro fuel
  induction fuel with
  | zero => intro s out _ _ rfi e h; simp [iterate] at h
  | succ k ih =>
    intro s out hInv hrel rfi e h
    obtain ⟨h0, htot, hi1, hi2⟩ := hInv
    cases hst : ShardingStep md5Sum r B s with
    | inl s' =>
      rw [iterate_succ_inl k hst] at h
      have hInv' := ShardingState.Inv_step hmax ⟨h0, htot, hi1, hi2⟩ hst
      obtain ⟨-, hlt, hw, hcase⟩ := ShardingStep_inl hst
      simp only [List.length_drop] at hw
      obtain ⟨sum, hsum⟩ := window_sum_exists r B s.startPos s.winStartPos hwin htab
      have hw0 : 0 ≤ s.winStartPos := by omega
      have htest := splitStep_test md5Sum r B true s.startPos s.winStartPos out sum h0 hlt
        (by omega) hi2 hw0 hwin havg hsum
      rcases hcase with ⟨hm, hm0, rfl⟩ | ⟨hm, -, -, -, sum', hsum', ⟨hp, rfl⟩ | ⟨hp, rfl⟩⟩
      · -- `Sharding` cuts at `max` without looking at the window
        have hlenc : (((B.drop s.startPos.toNat).take r.max.toNat).length : Int) = r.max := by
          simp only [List.length_take, List.length_drop]; omega
        by_cases hp : Int.tmod sum r.avg = r.prime
        · rw [if_pos hp] at htest
          have heq : (s.winStartPos + r.win).toNat = r.max.toNat := by
            have : s.winStartPos + r.win = r.max := by omega
            rw [this]
          rw [heq] at htest
          have hadd : s.startPos + (s.winStartPos + r.win) = s.startPos + r.max := by omega
          rw [hadd] at htest
          obtain ⟨n, ret, hn, hfin⟩ := ih _ (out ++ [⟨_, sum, _⟩]) hInv'
            (forall2_snoc hrel ⟨rfl, rfl, Or.inr hlenc⟩) rfi e h
          exact ⟨n + 1, ret, by rw [iterate_succ_inl n htest]; exact hn, hfin⟩
        · rw [if_neg hp] at htest
          have hcut := splitStep_cut md5Sum r B true s.startPos (s.winStartPos + 1) out h0 hlt
            (by omega) (by omega) hm0
          obtain ⟨n, ret, hn, hfin⟩ := ih _ (out ++ [⟨_, 0, _⟩]) hInv'
            (forall2_snoc hrel ⟨rfl, rfl, Or.inl rfl⟩) rfi e h
          exact ⟨n + 2, ret, by
            rw [iterate_succ_inl (n + 1) htest, iterate_succ_inl n hcut]; exact hn, hfin⟩
      · -- both find the boundary
        unfold windowAt at hsum hsum'
        rw [hsum] at hsum'
        simp only [Option.some.injEq] at hsum'
        subst hsum'
        rw [if_pos hp] at htest
        obtain ⟨n, ret, hn, hfin⟩ := ih _ (out ++ [⟨_, sum, _⟩]) hInv'
          (forall2_snoc hrel ⟨rfl, rfl, Or.inl rfl⟩) rfi e h
        exact ⟨n + 1, ret, by rw [iterate_succ_inl n htest]; exact hn, hfin⟩
      · -- both move the window
        unfold windowAt at hsum hsum'
        rw [hsum] at hsum'
        simp only [Option.some.injEq] at hsum'
        subst hsum'
        rw [if_neg hp] at htest
        obtain ⟨n, ret, hn, hfin⟩ := ih _ out hInv' hrel rfi e h
        exact ⟨n + 1, ret, by rw [iterate_succ_inl n htest]; exact hn, hfin⟩
    | inr o =>
      rw [iterate_succ_inr k hst] at h
      subst h
      obtain ⟨-, hd⟩ := ShardingStep_done hst
      rcases hd with ⟨hge, hpoly⟩ | ⟨-, hlt, hlen, hpoly⟩
      · refine ⟨1, _, by rw [iterate_succ_inr 0 (splitStep_top md5Sum r collect B true _ hge)],
          Or.inl ?_⟩
        rw [hpoly]
        exact hrel
      · simp only [List.length_drop] at hlen
        by_cases hgt : (B.length : Int) - s.startPos < s.winStartPos + r.win
        · have hfinal := splitStep_final md5Sum r B s.startPos s.winStartPos out h0 hlt hgt
          refine ⟨1, _, by rw [iterate_succ_inr 0 hfinal], Or.inr ⟨out, s.poly, _, _, rfl, ?_,
            hrel, rfl, rfl⟩⟩
          rw [hpoly]
          rfl
        · -- the window ends exactly at the end of the buffer: the stream tests it
          obtain ⟨sum, hsum⟩ := window_sum_exists r B s.startPos s.winStartPos hwin htab
          have hw0 : 0 ≤ s.winStartPos := by omega
          have htest := splitStep_test md5Sum r B true s.startPos s.winStartPos out sum h0 hlt
            (by omega) hi2 hw0 hwin havg hsum
          have hall : (B.drop s.startPos.toNat).take (s.winStartPos + r.win).toNat =
              B.drop s.startPos.toNat := by
            apply List.take_of_length_le
            simp only [List.length_drop]; omega
          by_cases hp : Int.tmod sum r.avg = r.prime
          · rw [if_pos hp, hall] at htest
            have htop := splitStep_top md5Sum r collect B true
              (⟨s.startPos + (s.winStartPos + r.win), r.min - r.win,
                out ++ [⟨B.drop s.startPos.toNat, sum, genKey md5Sum (B.drop s.startPos.toNat)⟩]⟩ :
                SplitState (List polynomialInfo)) (by simp only; omega)
            refine ⟨2, _, by rw [iterate_succ_inl 1 htest, iterate_succ_inr 0 htop],
              Or.inr ⟨out, s.poly,
                ⟨B.drop s.startPos.toNat, sum, genKey md5Sum (B.drop s.startPos.toNat)⟩,
                ⟨B.drop s.startPos.toNat, 0, genKey md5Sum (B.drop s.startPos.toNat)⟩,
                rfl, ?_, hrel, rfl, rfl⟩⟩
            rw [hpoly]
            rfl
          · rw [if_neg hp] at htest
            have hfinal := splitStep_final md5Sum r B s.startPos (s.winStartPos + 1) out h0 hlt
              (by omega)
            refine ⟨2, _, by rw [iterate_succ_inl 1 htest, iterate_succ_inr 0 hfinal],
              Or.inr ⟨out, s.poly, _, _, rfl, ?_, hrel, rfl, rfl⟩⟩
            rw [hpoly]
            rfl

theorem forall2_index {α β : Type} {R : α → β → Prop} {l1 : List α} {l2 : List β}
    (h : List.Forall₂ R l1 l2) : ∀ (i : Nat) (a : α) (b : β),
      l1.get? i = some a → l2.get? i = some b → R a b := by
  induction h with
  | nil => intro i a b ha; simp at ha
  | cons hab _ ih =>
    intro i a b ha hb
    cases i with
    | zero =>
      simp only [List.get?_cons_zero, Option.some.injEq] at ha hb
      subst ha; subst hb
      exact hab
    | succ j =>
      simp only [List.get?_cons_succ] at ha hb
      exact ih j a b ha hb

theorem FinalAgree.index {r : RobinFinger} {out poly : List polynomialInfo}
    (h : FinalAgree r out poly) :
    out.length = poly.length ∧
      ∀ i a b, out.get? i = some a → poly.get? i = some b →
        a.data = b.data ∧ a.key = b.key ∧
        (i + 1 < poly.length → (b.data.length : Int) < r.max →
          a.robinChecksum = b.robinChecksum) := by
  rcases h with h | ⟨out0, poly0, a', b', rfl, rfl, h, hd, hk⟩
  · refine ⟨h.length_eq, fun i a b ha hb => ?_⟩
    obtain ⟨h1, h2, h3⟩ := forall2_index h i a b ha hb
    refine ⟨h1, h2, fun _ hlt => ?_⟩
    rcases h3 with h3 | h3
    · exact h3
    · omega
  · have hlen := h.length_eq
    refine ⟨by simp [hlen], fun i a b ha hb => ?_⟩
    by_cases hi : i < out0.length
    · rw [List.get?_append hi] at ha
      rw [List.get?_append (by omega)] at hb
      obtain ⟨h1, h2, h3⟩ := forall2_index h i a b ha hb
      refine ⟨h1, h2, fun _ hlt => ?_⟩
      rcases h3 with h3 | h3
      · exact h3
      · omega
    · have hia : i < (out0 ++ [a']).length := by
        rw [List.get?_eq_some] at ha
        exact ha.1
      simp only [List.length_append, List.length_singleton] at hia
      have hieq : i = out0.length := by omega
      subst hieq
      rw [List.get?_append_right (le_refl _)] at ha
      rw [hlen, List.get?_append_right (le_refl _)] at hb
      simp only [Nat.sub_self, List.get?_cons_zero, Option.some.injEq] at ha hb
      subst ha; subst hb
      refine ⟨hd, hk, fun hlt _ => ?_⟩
      simp only [List.length_append, List.length_singleton] at hlt
      omega

theorem split_agrees_with_Sharding (md5Sum : List Byte → List Byte) (r : RobinFinger)
    (B : List Byte) (hwin : 0 ≤ r.win) (hmin : r.win < r.min) (hmax : r.min ≤ r.max)
    (havg : r.avg ≠ 0) (htab : r.win < r.polynomialFactor.length) (hB : B ≠ [])
    (fuel : Nat) (rfi : RobinFingerInfo) (e : Option GoError)
    (h : Sharding md5Sum r B fuel = Run.done (rfi, e)) :
    ∃ n ret, iterate (splitStep md5Sum r collect B true) n ⟨0, r.min - r.win, []⟩ =
        Run.done ret ∧ FinalAgree r ret.h rfi.poly := by
  unfold Sharding at h
  by_cases hc : (B.length : Int) < r.min ∨ r.min < r.win
  · rw [if_pos hc] at h
    simp only [Run.done.injEq, Prod.mk.injEq] at h
    have hlen : 0 < B.length := List.length_pos.mpr hB
    have hfinal := splitStep_final md5Sum r B 0 (r.min - r.win) [] le_rfl
      (by omega) (by omega)
    refine ⟨1, _, by rw [iterate_succ_inr 0 hfinal], Or.inr ⟨[], [],
      ⟨B, 0, genKey md5Sum B⟩, ⟨B, 0, genKey md5Sum B⟩, by simp, ?_, List.Forall₂.nil,
      rfl, rfl⟩⟩
    rw [← h.1]
    rfl
  · rw [if_neg hc] at h
    exact split_simulates md5Sum r B hwin hmin hmax havg htab fuel
      ⟨0, r.min - r.win, []⟩ [] ⟨le_rfl, by simp [totalLength], by simp, by simpa using hmax⟩
      List.Forall₂.nil rfi e h

/-- C1 fails as stated.  On the empty buffer `Sharding` stores one empty chunk and
`ShardingWithHandle` never calls the handler.  On the three bytes `7, 1, 2`,
whose last window passes the boundary test, both modes cut the same single
chunk, with checksum `0` in `Sharding` and `15` in `ShardingWithHandle`.  On
`9, 9, 9, 9, 1, 2, 5`, where the window ending `max = 6` bytes into the first
chunk passes the test, the first chunk has checksum `0` in `Sharding` and `15`
in `ShardingWithHandle`. -/
theorem modes_disagree :
    RobinFinger.Init zeroConfig 3 3 6 4 2 = Run.done (demoConfig, none) ∧
    (Sharding demoDigest demoConfig [] 20 =
        Run.done ({ poly := [{ data := [], robinChecksum := 0, key := "" }] }, none) ∧
      ShardingWithHandle demoDigest demoConfig (readerOver []) collect [] 20 =
        Run.done (none, [])) ∧
    (Sharding demoDigest demoConfig [7, 1, 2] 20 =
        Run.done ({ poly := [{ data := [7, 1, 2], robinChecksum := 0, key := "070102" }] },
          none) ∧
      ShardingWithHandle demoDigest demoConfig (readerOver [7, 1, 2]) collect [] 20 =
        Run.done (none, [{ data := [7, 1, 2], robinChecksum := 15, key := "070102" }])) ∧
    (Sharding demoDigest demoConfig [9, 9, 9, 9, 1, 2, 5] 20 =
        Run.done ({ poly := [{ data := [9, 9, 9, 9, 1, 2], robinChecksum := 0,
                               key := "090909090102" },
                             { data := [5], robinChecksum := 0, key := "05" }] }, none) ∧
      ShardingWithHandle demoDigest demoConfig (readerOver [9, 9, 9, 9, 1, 2, 5]) collect []
          20 =
        Run.done (none, [{ data := [9, 9, 9, 9, 1, 2], robinChecksum := 15,
                           key := "090909090102" },
                         { data := [5], robinChecksum := 0, key := "05" }])) := by
  refine ⟨by decide, ⟨by decide, by decide!⟩, ⟨by decide, by decide!⟩, ⟨by decide, by decide!⟩⟩

/-- C1 as amended: for every configuration `Init` accepts with `0 <= win`,
`min <= max < 65536` (the largest token of a `bufio.Scanner`) and `avg != 0`, and
every buffer `B` that is not empty, `Sharding(B)` returns a chunk set and
`ShardingWithHandle` over a reader of `B`, with the handler that copies and
collects, returns nil, and the chunks delivered are as many as the chunks stored,
with the same data and the same key at every index, and with the same checksum
at every index that is not the last and whose chunk is shorter than `max`. -/
theorem ShardingWithHandle_agrees_with_Sharding (md5Sum : List Byte → List Byte)
    (r0 r : RobinFinger) (prime min max avg win : Int) (B : List Byte)
    (hinit : RobinFinger.Init r0 prime min max avg win = Run.done (r, none))
    (hwin : 0 ≤ win) (hmax : min ≤ max) (htok : max < MaxScanTokenSize) (havg : avg ≠ 0)
    (hB : B ≠ []) :
    ∃ (rfi : RobinFingerInfo) (out : List polynomialInfo),
      (∀ fuel, B.length < fuel → Sharding md5Sum r B fuel = Run.done (rfi, none)) ∧
      (∀ fuel, 2 * B.length + 1 < fuel →
        ShardingWithHandle md5Sum r (readerOver B) collect [] fuel = Run.done (none, out)) ∧
      out.length = rfi.poly.length ∧
      ∀ i a b, out.get? i = some a → rfi.poly.get? i = some b →
        a.data = b.data ∧ a.key = b.key ∧
        (i + 1 < rfi.poly.length → (b.data.length : Int) < max →
          a.robinChecksum = b.robinChecksum) := by
  obtain ⟨hlt, -, hr⟩ := Init_accepted hinit
  have e1 : r.win = win := by rw [hr]
  have e2 : r.min = min := by rw [hr]
  have e3 : r.max = max := by rw [hr]
  have e4 : r.avg = avg := by rw [hr]
  have htab : r.win < (r.polynomialFactor.length : Int) := by
    rw [hr]
    simp only [InitFill_length]
    omega
  have h1 : 0 ≤ r.win := by omega
  have h2 : r.win < r.min := by omega
  have h3 : r.min ≤ r.max := by omega
  have h4 : r.avg ≠ 0 := by rw [e4]; exact havg
  have h5 : r.max < MaxScanTokenSize := by omega
  obtain ⟨rfi, hrfi⟩ := Sharding_returns md5Sum r B h1 h2 (by omega) h4 htab
  obtain ⟨n, ret, hn, hfin⟩ := split_agrees_with_Sharding md5Sum r B h1 h2 h3 h4 htab hB
    (B.length + 1) rfi none (hrfi (B.length + 1) (by omega))
  have hidx := hfin.index
  rw [e3] at hidx
  refine ⟨rfi, ret.h, hrfi, fun fuel hfuel => ?_, hidx⟩
  exact ShardingWithHandle_eq_split md5Sum r collect B [] [] collect_neverFails h1 h2 h3
    h5 h4 htab (by simp) n ret hn fuel hfuel

/-- The amended C1 on `demoBuffer`. -/
theorem ShardingWithHandle_agrees_with_Sharding_witness :
    RobinFinger.Init zeroConfig 3 3 6 4 2 = Run.done (demoConfig, none) ∧
    ∃ (rfi : RobinFingerInfo) (out : List polynomialInfo),
      (∀ fuel, demoBuffer.length < fuel →
        Sharding demoDigest demoConfig demoBuffer fuel = Run.done (rfi, none)) ∧
      (∀ fuel, 2 * demoBuffer.length + 1 < fuel →
        ShardingWithHandle demoDigest demoConfig (readerOver demoBuffer) collect [] fuel =
          Run.done (none, out)) ∧
      out.length = rfi.poly.length ∧
      ∀ i a b, out.get? i = some a → rfi.poly.get? i = some b →
        a.data = b.data ∧ a.key = b.key ∧
        (i + 1 < rfi.poly.length → (b.data.length : Int) < 6 →
          a.robinChecksum = b.robinChecksum) :=
  ⟨by decide, ShardingWithHandle_agrees_with_Sharding demoDigest zeroConfig demoConfig
    3 3 6 4 2 demoBuffer (by decide) (by decide) (by decide) (by decide) (by decide)
    (by decide)⟩

/-! ## The chunk set, and the empty stream -/

theorem Count_eq (r : RobinFingerInfo) : r.Count = r.poly.length := by
  unfold RobinFingerInfo.Count
  split
  · next h => simp [h]
  · rfl

theorem polyAt_eq_some {poly : List polynomialInfo} {i : Int} (h0 : 0 ≤ i)
    (h1 : i < poly.length) :
    ∃ p, polyAt poly i = some p ∧ poly.get? i.toNat = some p := by
  have hlt : i.toNat < poly.length := by omega
  refine ⟨poly.get ⟨i.toNat, hlt⟩, ?_, List.get?_eq_get hlt⟩
  unfold polyAt
  rw [if_pos h0, List.get?_eq_get hlt]

theorem polyAt_neg {poly : List polynomialInfo} {i : Int} (h : i < 0) : polyAt poly i = none := by
  unfold polyAt
  rw [if_neg (by omega)]

/-- C12.  Empty stream: over a reader that is at end-of-stream before it has
delivered a byte, `ShardingWithHandle` returns `nil` and leaves the handler in
the state it was started in, whatever the configuration, the handler and the
read schedule are; with a handler that counts its invocations the count stays
`0`, so the handler is never invoked. -/
theorem ShardingWithHandle_empty_stream {σ : Type} (md5Sum : List Byte → List Byte)
    (r : RobinFinger) (f : Handler σ) (h : σ) (sched : List Nat) (fuel : Nat) :
    ShardingWithHandle md5Sum r { data := [], sched := sched } f h (fuel + 2) =
        Run.done (none, h) ∧
      ShardingWithHandle md5Sum r { data := [], sched := sched } countCalls 0 (fuel + 2) =
        Run.done (none, 0) := by
  have key : ∀ (τ : Type) (g : Handler τ) (a : τ),
      ShardingWithHandle md5Sum r { data := [], sched := sched } g a (fuel + 2) =
        Run.done (none, a) := by
    intro τ g a
    unfold ShardingWithHandle
    simp [iterate, scanStep, scanFill, readLoop, Reader.Read, setErr, split, splitStep,
      maxConsecutiveEmptyReads, startBufSize, MaxScanTokenSize, maxInt, scannerErr]
  exact ⟨key σ f h, key Nat countCalls 0⟩

theorem At_of_ge {r : RobinFingerInfo} {i : Int} (h : r.Count ≤ i) :
    r.At i = Run.done ([], 0, "", some GoError.outOfOride) := by
  rw [Count_eq] at h
  unfold RobinFingerInfo.At
  rw [if_pos h]

theorem At_of_lt {r : RobinFingerInfo} {i : Int} (h0 : 0 ≤ i) (h1 : i < r.Count) :
    ∃ p, r.poly.get? i.toNat = some p ∧
      r.At i = Run.done (p.data, p.robinChecksum, p.key, none) := by
  rw [Count_eq] at h1
  obtain ⟨p, hp, hget⟩ := polyAt_eq_some h0 h1
  refine ⟨p, hget, ?_⟩
  unfold RobinFingerInfo.At
  rw [if_neg (by omega), hp]

theorem Equal_of_ge {r : RobinFingerInfo} {idx : Int} (cs : Int) (key : String)
    (h : r.Count ≤ idx) : r.Equal idx cs key = Run.done false := by
  rw [Count_eq] at h
  unfold RobinFingerInfo.Equal
  rw [if_pos h]

theorem Equal_of_lt {r : RobinFingerInfo} {idx : Int} (cs : Int) (key : String)
    (h0 : 0 ≤ idx) (h1 : idx < r.Count) :
    ∃ p, r.poly.get? idx.toNat = some p ∧
      r.Equal idx cs key = Run.done (decide (p.robinChecksum = cs ∧ p.key = key)) := by
  rw [Count_eq] at h1
  obtain ⟨p, hp, hget⟩ := polyAt_eq_some h0 h1
  refine ⟨p, hget, ?_⟩
  unfold RobinFingerInfo.Equal
  rw [if_neg (by omega), hp, Bool.decide_and]
  rfl

theorem Equal_of_neg {r : RobinFingerInfo} {idx : Int} (cs : Int) (key : String)
    (h : idx < 0) : r.Equal idx cs key = Run.panic Panic.indexRange := by
  unfold RobinFingerInfo.Equal
  rw [if_neg (by omega), polyAt_neg h]

/-- C13 fails as stated.  The index `-1` is below `Count() = 4`, and `At(-1)`
does not return: the index expression `r.poly[i]` panics. -/
theorem At_negative_index :
    (-1 : Int) < RobinFingerInfo.Count { poly := demoChunks } ∧
      RobinFingerInfo.At { poly := demoChunks } (-1) = Run.panic Panic.indexRange := by
  decide

/-- C13, amended.  For every chunk set and every integer `i`: when
`i >= Count()`, `At(i)` returns the error "out of oride" with nil data,
checksum `0` and the empty key; when `0 <= i < Count()`, it returns the data,
the checksum and the key of the chunk stored at position `i`, with a `nil`
error. -/
theorem At_contract (r : RobinFingerInfo) (i : Int) :
    (r.Count ≤ i → r.At i = Run.done ([], 0, "", some GoError.outOfOride)) ∧
      (0 ≤ i → i < r.Count →
        ∃ p, r.poly.get? i.toNat = some p ∧
          r.At i = Run.done (p.data, p.robinChecksum, p.key, none)) :=
  ⟨At_of_ge, At_of_lt⟩

/-- C14.  What `Equal` does for every chunk set, index, checksum and key: it
returns `false` when `idx >= Count()`; for `0 <= idx < Count()` it returns
whether the stored checksum and the stored key both equal the arguments; for a
negative `idx` it does not return, the index expression `r.poly[idx]` panics.
On the chunks of the demonstration buffer, `Equal(-1, 15, "070102")` panics,
`Equal(0, 15, "070102")` is `true` and `Equal(0, 14, "070102")`, a wrong
checksum with the right key, is `false`. -/
theorem Equal_behaviour (r : RobinFingerInfo) (idx : Int) (checkSum : Int) (key : String) :
    (r.Count ≤ idx → r.Equal idx checkSum key = Run.done false) ∧
      (0 ≤ idx → idx < r.Count →
        ∃ p, r.poly.get? idx.toNat = some p ∧
          r.Equal idx checkSum key =
            Run.done (decide (p.robinChecksum = checkSum ∧ p.key = key))) ∧
      (idx < 0 → r.Equal idx checkSum key = Run.panic Panic.indexRange) ∧
      RobinFingerInfo.Equal { poly := demoChunks } (-1) 15 "070102" =
        Run.panic Panic.indexRange ∧
      RobinFingerInfo.Equal { poly := demoChunks } 0 15 "070102" = Run.done true ∧
      RobinFingerInfo.Equal { poly := demoChunks } 0 14 "070102" = Run.done false :=
  ⟨Equal_of_ge checkSum key, Equal_of_lt checkSum key, Equal_of_neg checkSum key,
    by decide, by decide, by decide⟩

/-! ## The final chunk and the bounds of every chunk -/

/-- C16 fails as stated.  `Init(3, 0, 6, 4, -1)` is accepted (`min > win`), and
under the configuration it leaves `Sharding` of the empty buffer returns a
chunk set without any chunk: the early return is not taken (`0 < 0` is false)
and the loop stops at once at `startPos >= len(src)`. -/
theorem Sharding_no_chunk :
    RobinFinger.Init zeroConfig 3 0 6 4 (-1) =
        Run.done ({ min := 0, max := 6, avg := 4, win := -1, prime := 3,
                    polynomialFactor := [] }, none) ∧
      Sharding demoDigest { min := 0, max := 6, avg := 4, win := -1, prime := 3,
                            polynomialFactor := [] } [] 1 =
        Run.done ({ poly := [] }, none) := by
  decide

/-- C16, amended.  For every configuration and every buffer `B` such that `B` is
not empty or `min > 0`: whenever `Sharding(B)` returns, its result has at least
one chunk, and the last chunk has checksum `0` (and the key of its data),
whatever the last `win` bytes of `B` are. -/
theorem Sharding_final_chunk (md5Sum : List Byte → List Byte) (r : RobinFinger)
    (B : List Byte) (fuel : Nat) (rfi : RobinFingerInfo) (e : Option GoError)
    (hne : B ≠ [] ∨ 0 < r.min)
    (h : Sharding md5Sum r B fuel = Run.done (rfi, e)) :
    ∃ rest buf, rfi.poly = rest ++ [{ data := buf, robinChecksum := 0,
                                      key := genKey md5Sum buf }] := by
  refine Sharding_induction md5Sum r B (fun s => s.startPos < B.length)
    (fun rfi => ∃ rest buf, rfi.poly = rest ++ [{ data := buf, robinChecksum := 0,
                                                  key := genKey md5Sum buf }])
    ?_ ?_ ?_ ?_ fuel rfi e h
  · intro _
    exact ⟨[], B, rfl⟩
  · intro hc
    show (0 : Int) < B.length
    rcases hne with hB | hmin
    · have : 0 < B.length := List.length_pos.mpr hB
      omega
    · omega
  · intro s s' hs hstep
    obtain ⟨h0, -, hw, hcase⟩ := ShardingStep_inl hstep
    simp only [List.length_drop] at hw
    rcases hcase with ⟨hm, hm0, rfl⟩ | ⟨hm, hw0, hwin, -, sum, -, ⟨-, rfl⟩ | ⟨-, rfl⟩⟩
    · show s.startPos + r.max < B.length
      omega
    · show s.startPos + (s.winStartPos + r.win) < B.length
      omega
    · exact hs
  · intro s rfi e hs hdone
    obtain ⟨-, hcase⟩ := ShardingStep_done hdone
    rcases hcase with ⟨hge, -⟩ | ⟨-, -, -, hpoly⟩
    · omega
    · exact ⟨s.poly, _, hpoly⟩

/-- The last window `1, 2` of the buffer `7, 1, 2` passes the boundary test of
`demoConfig` (`1 * 9 + 2 * 3 = 15` and `15 % 4 = 3`), and the only chunk has
checksum `0`. -/
theorem Sharding_final_chunk_witness :
    (([7, 1, 2] : List Byte) ≠ [] ∨ 0 < demoConfig.min) ∧
      Sharding demoDigest demoConfig [7, 1, 2] 5 =
        Run.done ({ poly := [{ data := [7, 1, 2], robinChecksum := 0, key := "070102" }] },
          none) ∧
      (rollChecksum demoConfig [1, 2] = some 15 ∧ Int.tmod 15 demoConfig.avg = demoConfig.prime) ∧
      ∃ rest buf, ({ poly := [{ data := [7, 1, 2], robinChecksum := 0, key := "070102" }] } :
          RobinFingerInfo).poly =
        rest ++ [{ data := buf, robinChecksum := 0, key := genKey demoDigest buf }] :=
  ⟨Or.inl (by decide), by decide, by decide,
    Sharding_final_chunk demoDigest demoConfig [7, 1, 2] 5 _ none (Or.inl (by decide))
      (by decide)⟩

theorem Sharding_all_bounds (md5Sum : List Byte → List Byte) (r : RobinFinger)
    (B : List Byte) (fuel : Nat) (rfi : RobinFingerInfo) (e : Option GoError)
    (hwin : r.win < r.min) (hmm : r.min ≤ r.max) (hB : B ≠ [])
    (h : Sharding md5Sum r B fuel = Run.done (rfi, e)) :
    ∀ p ∈ rfi.poly, 1 ≤ p.data.length ∧ (p.data.length : Int) ≤ r.max := by
  have hpos : 0 < B.length := List.length_pos.mpr hB
  refine Sharding_induction md5Sum r B
    (fun s => 0 ≤ s.startPos ∧ s.startPos < B.length ∧ r.min ≤ s.winStartPos + r.win ∧
      s.winStartPos + r.win ≤ r.max ∧
      (1 ≤ r.max → ∀ p ∈ s.poly, 1 ≤ p.data.length ∧ (p.data.length : Int) ≤ r.max))
    (fun rfi => ∀ p ∈ rfi.poly, 1 ≤ p.data.length ∧ (p.data.length : Int) ≤ r.max)
    ?_ ?_ ?_ ?_ fuel rfi e h
  · rintro (hc | hc)
    · intro p hp
      simp only [appendSharding, List.nil_append, List.mem_singleton] at hp
      subst hp
      exact ⟨hpos, by show (B.length : Int) ≤ r.max; omega⟩
    · omega
  · intro hc
    refine ⟨le_rfl, by show (0 : Int) < B.length; omega, ?_, ?_, ?_⟩
    · show r.min ≤ r.min - r.win + r.win; omega
    · show r.min - r.win + r.win ≤ r.max; omega
    · intro _ p hp
      simp at hp
  · intro s s' ⟨h0, hlt, hlo, hhi, hall⟩ hstep
    obtain ⟨-, -, hw, hcase⟩ := ShardingStep_inl hstep
    simp only [List.length_drop] at hw
    rcases hcase with ⟨hm, hm0, rfl⟩ | ⟨hm, hw0, hwin0, -, sum, -, ⟨-, rfl⟩ | ⟨-, rfl⟩⟩
    · refine ⟨by show 0 ≤ s.startPos + r.max; omega,
        by show s.startPos + r.max < B.length; omega,
        by show r.min ≤ r.min - r.win + r.win; omega,
        by show r.min - r.win + r.win ≤ r.max; omega, ?_⟩
      intro hmax p hp
      simp only [appendSharding, List.mem_append, List.mem_singleton] at hp
      rcases hp with hp | rfl
      · exact hall hmax p hp
      · simp only [List.length_take, List.length_drop]
        omega
    · refine ⟨by show 0 ≤ s.startPos + (s.winStartPos + r.win); omega,
        by show s.startPos + (s.winStartPos + r.win) < B.length; omega,
        by show r.min ≤ r.min - r.win + r.win; omega,
        by show r.min - r.win + r.win ≤ r.max; omega, ?_⟩
      intro hmax p hp
      simp only [appendSharding, List.mem_append, List.mem_singleton] at hp
      rcases hp with hp | rfl
      · exact hall hmax p hp
      · simp only [List.length_take, List.length_drop]
        omega
    · exact ⟨h0, hlt, by show r.min ≤ s.winStartPos + 1 + r.win; omega,
        by show s.winStartPos + 1 + r.win ≤ r.max; omega, hall⟩
  · intro s rfi e ⟨h0, hlt, hlo, hhi, hall⟩ hdone
    obtain ⟨-, hcase⟩ := ShardingStep_done hdone
    rcases hcase with ⟨hge, -⟩ | ⟨-, -, hfin, hpoly⟩
    · omega
    · simp only [List.length_drop] at hfin
      have hmax : 1 ≤ r.max := by omega
      intro p hp
      rw [hpoly] at hp
      simp only [appendSharding, List.mem_append, List.mem_singleton] at hp
      rcases hp with hp | rfl
      · exact hall hmax p hp
      · simp only [List.length_drop]
        omega

/-- C19.  Every chunk is bounded: for every configuration with
`win < min <= max` and `avg > 0` and every non-empty buffer `B`, every chunk of
every result of `Sharding(B)`, the final one included, has at least one byte
and at most `max` bytes; and `Sharding(B)` does return, within `len(B) + 1`
iterations, when moreover `0 <= win` and the weight table has its `win + 1`
entries. -/
theorem Sharding_chunk_bounds (md5Sum : List Byte → List Byte) (r : RobinFinger)
    (B : List Byte) (hwin : r.win < r.min) (hmm : r.min ≤ r.max) (havg : 0 < r.avg)
    (hB : B ≠ []) :
    (∀ fuel rfi e, Sharding md5Sum r B fuel = Run.done (rfi, e) →
      ∀ p ∈ rfi.poly, 1 ≤ p.data.length ∧ (p.data.length : Int) ≤ r.max) ∧
    (0 ≤ r.win → r.win < r.polynomialFactor.length →
      ∃ rfi, ∀ fuel, B.length < fuel → Sharding md5Sum r B fuel = Run.done (rfi, none)) :=
  ⟨fun fuel rfi e h => Sharding_all_bounds md5Sum r B fuel rfi e hwin hmm hB h,
    fun h0 htab => Sharding_returns md5Sum r B h0 hwin (by omega) (by omega) htab⟩

/-- The four chunks of the demonstration buffer have 3, 6, 3 and 2 bytes,
between 1 and `max = 6`. -/
theorem Sharding_chunk_bounds_witness :
    (demoConfig.win < demoConfig.min ∧ demoConfig.min ≤ demoConfig.max ∧ 0 < demoConfig.avg ∧
      demoBuffer ≠ []) ∧
      Sharding demoDigest demoConfig demoBuffer 20 = Run.done ({ poly := demoChunks }, none) ∧
      ∀ p ∈ demoChunks, 1 ≤ p.data.length ∧ (p.data.length : Int) ≤ demoConfig.max :=
  ⟨by decide, by decide,
    (Sharding_chunk_bounds demoDigest demoConfig demoBuffer (by decide) (by decide) (by decide)
      (by decide)).1 20 { poly := demoChunks } none (by decide)⟩

/-! ## The reference configuration -/

theorem referenceConfig_table (i : Nat) (h : i ≤ 31) :
    referenceConfig.polynomialFactor.get? i = some (3 ^ i) := by
  show (InitFill 3 32 1).get? i = some (3 ^ i)
  rw [InitFill_one_get 3 32 i (by omega)]
  have h1 : (3 : Int) ^ i ≤ 3 ^ 31 := pow_le_pow_right₀ (by norm_num) h
  have h2 : (0 : Int) ≤ 3 ^ i := by positivity
  rw [wrapInt64_of_range (by omega) (by norm_num at h1 ⊢; omega)]

theorem referenceConfig_getD (i : Nat) (h : i ≤ 31) :
    referenceConfig.polynomialFactor.getD i 0 = 3 ^ i := by
  rw [List.getD_eq_getElem?_getD, ← List.get?_eq_getElem?, referenceConfig_table i h]
  rfl

theorem exactWeightedSum_range (window : List Byte) :
    0 ≤ exactWeightedSum window ∧ exactWeightedSum window ≤ 255 * (3 ^ 32 - 3) / 2 := by
  unfold exactWeightedSum
  constructor
  · apply List.sum_nonneg
    intro x hx
    simp only [List.mem_map, List.mem_range] at hx
    obtain ⟨i, -, rfl⟩ := hx
    positivity
  · have hconst : ((List.range 31).map fun i => (255 : Int) * 3 ^ (31 - i)).sum =
        255 * (3 ^ 32 - 3) / 2 := by decide
    rw [← hconst]
    apply List.sum_le_sum
    intro i _
    have hb : ((window.getD i 0).val : Int) ≤ 255 := by
      have := (window.getD i 0).isLt
      omega
    exact mul_le_mul_of_nonneg_right hb (by positivity)

theorem specWeightedSum_reference (window : List Byte) :
    specWeightedSum referenceConfig.polynomialFactor 31 window = exactWeightedSum window := by
  unfold specWeightedSum
  have hsum : ((List.range 31).map fun i =>
      ((window.getD i 0).val : Int) * referenceConfig.polynomialFactor.getD (31 - i) 0).sum =
      exactWeightedSum window := by
    have hf : ∀ i : Nat, referenceConfig.polynomialFactor.getD (31 - i) 0 = 3 ^ (31 - i) :=
      fun i => referenceConfig_getD _ (Nat.sub_le 31 i)
    simp only [hf, exactWeightedSum]
  rw [hsum]
  obtain ⟨h0, h1⟩ := exactWeightedSum_range window
  apply wrapInt64_of_range
  · omega
  · have : (255 : Int) * (3 ^ 32 - 3) / 2 < 2 ^ 63 := by decide
    omega

/-- C20.  No overflow in the reference configuration.  `Init(3, 512, 2048,
1024, 31)` is accepted and leaves `referenceConfig`, whose weight table has 32
entries, entry `i` being `3^i` exactly.  For every window of 31 bytes the int64
weighted sum the code computes is the exact integer
`sum_i window[i] * 3^(31-i)`, which is at least `0`, at most
`255 * (3^32 - 3) / 2` and below `2^63`.  Hence every checksum `Sharding`
stores under this configuration lies in that range: none is negative, none is
wrapped. -/
theorem reference_no_overflow :
    RobinFinger.Init zeroConfig 3 512 2048 1024 31 = Run.done (referenceConfig, none) ∧
      referenceConfig.polynomialFactor.length = 32 ∧
      (∀ i : Nat, i ≤ 31 → index referenceConfig.polynomialFactor i = some (3 ^ i)) ∧
      (∀ window : List Byte, window.length = 31 →
        rollChecksum referenceConfig window = some (exactWeightedSum window) ∧
          0 ≤ exactWeightedSum window ∧
          exactWeightedSum window ≤ 255 * (3 ^ 32 - 3) / 2 ∧
          exactWeightedSum window < 2 ^ 63) ∧
      (∀ (md5Sum : List Byte → List Byte) (B : List Byte) (fuel : Nat)
          (rfi : RobinFingerInfo) (e : Option GoError),
        Sharding md5Sum referenceConfig B fuel = Run.done (rfi, e) →
          ∀ p ∈ rfi.poly, 0 ≤ p.robinChecksum ∧ p.robinChecksum ≤ 255 * (3 ^ 32 - 3) / 2) := by
  have hbound : (255 : Int) * (3 ^ 32 - 3) / 2 < 2 ^ 63 := by decide
  refine ⟨rfl, InitFill_length 3 32 1, ?_, ?_, ?_⟩
  · intro i hi
    unfold index
    rw [if_pos (by omega)]
    simpa using referenceConfig_table i hi
  · intro window hlen
    obtain ⟨h0, h1⟩ := exactWeightedSum_range window
    refine ⟨?_, h0, h1, by omega⟩
    obtain ⟨s, hs⟩ := @rollChecksum_isSome referenceConfig window (by decide)
      (by rw [hlen]; decide) (by rw [show referenceConfig.polynomialFactor.length = 32 from
        InitFill_length 3 32 1]; decide)
    have := rollChecksum_eq hs (by rw [hlen]; rfl)
    rw [hs, this]
    exact congrArg some (specWeightedSum_reference window)
  · intro md5Sum B fuel rfi e h p hp
    rcases Sharding_checksums md5Sum referenceConfig B fuel rfi e h p hp with h0 | ⟨-, -, hcs, -⟩
    · rw [h0]
      exact ⟨le_rfl, by decide⟩
    · have e31 : referenceConfig.win.toNat = 31 := rfl
      rw [e31, specWeightedSum_reference] at hcs
      rw [hcs]
      exact exactWeightedSum_range _

/-! ## The earliest boundary -/

theorem snoc_offsets {Q : Nat → polynomialInfo → Prop} {poly : List polynomialInfo}
    {c : polynomialInfo}
    (hall : ∀ i p, poly.get? i = some p → Q (totalLength (poly.take i)) p)
    (hc : Q (totalLength poly) c) :
    ∀ i p, (poly ++ [c]).get? i = some p → Q (totalLength ((poly ++ [c]).take i)) p := by
  intro i p hget
  rcases Nat.lt_trichotomy i poly.length with hlt | heq | hgt
  · rw [List.get?_eq_getElem?, List.getElem?_append_left hlt, ← List.get?_eq_getElem?] at hget
    rw [List.take_append_of_le_length (by omega)]
    exact hall i p hget
  · subst heq
    rw [List.get?_eq_getElem?, List.getElem?_append_right (le_refl _)] at hget
    simp only [Nat.sub_self, List.getElem?_cons_zero, Option.some.injEq] at hget
    subst hget
    rw [List.take_left']
    · exact hc
    · rfl
  · rw [List.get?_eq_none.mpr (by simp; omega)] at hget
    simp at hget

theorem Sharding_earliest (md5Sum : List Byte → List Byte) (r : RobinFinger)
    (B : List Byte) (hmm : r.min ≤ r.max)
    (fuel : Nat) (rfi : RobinFingerInfo) (e : Option GoError)
    (h : Sharding md5Sum r B fuel = Run.done (rfi, e)) :
    ∀ i p, i + 1 < rfi.poly.length → rfi.poly.get? i = some p →
      EarliestBoundary r B (totalLength (rfi.poly.take i)) p := by
  refine Sharding_induction md5Sum r B
    (fun s => 0 ≤ s.startPos ∧ s.startPos = totalLength s.poly ∧
      r.min ≤ s.winStartPos + r.win ∧ s.winStartPos + r.win ≤ r.max ∧
      (∀ i p, s.poly.get? i = some p → EarliestBoundary r B (totalLength (s.poly.take i)) p) ∧
      (∀ L : Int, r.min ≤ L → L < s.winStartPos + r.win →
        ∃ sum, rollChecksum r (windowAt B s.startPos (L - r.win) r.win) = some sum ∧
          Int.tmod sum r.avg ≠ r.prime))
    (fun rfi => ∀ i p, i + 1 < rfi.poly.length → rfi.poly.get? i = some p →
      EarliestBoundary r B (totalLength (rfi.poly.take i)) p) ?_ ?_ ?_ ?_ fuel rfi e h
  · intro _ i p hi
    simp [appendSharding] at hi
  · intro _
    refine ⟨le_rfl, by simp [totalLength], by simp, by simpa using hmm, ?_, ?_⟩
    · intro i p hget
      simp at hget
    · intro L h1 h2
      simp only [sub_add_cancel] at h2
      omega
  · intro s s' ⟨h0, htot, hlo, hhi, hall, hsearch⟩ hstep
    obtain ⟨-, hlt, hw, hcase⟩ := ShardingStep_inl hstep
    simp only [List.length_drop] at hw
    have hsp : ((s.startPos.toNat : Nat) : Int) = s.startPos := Int.toNat_of_nonneg h0
    have hsp' : s.startPos.toNat = totalLength s.poly := by omega
    rcases hcase with ⟨hm, hm0, rfl⟩ | ⟨hm, hw0, hwin0, -, sum, hsum, ⟨hpass, rfl⟩ | ⟨hfail, rfl⟩⟩
    · have hlen : (((List.take r.max.toNat (List.drop s.startPos.toNat B)).length : Nat) : Int)
          = r.max := by
        simp only [List.length_take, List.length_drop]
        omega
      refine ⟨by show 0 ≤ s.startPos + r.max; omega, ?_,
        by show r.min ≤ r.min - r.win + r.win; omega,
        by show r.min - r.win + r.win ≤ r.max; omega, ?_, ?_⟩
      · show s.startPos + r.max = _
        rw [totalLength_appendSharding, List.length_take, List.length_drop]
        omega
      · apply snoc_offsets hall
        refine ⟨?_, ?_, fun _ => rfl⟩
        · intro L h1 h2
          rw [← hsp']
          have := hsearch L h1 (by rw [hlen] at h2; omega)
          rwa [← hsp] at this
        · intro hcon
          rw [hlen] at hcon
          omega
      · intro L h1 h2
        have : r.min - r.win + r.win = r.min := by ring
        rw [show (⟨s.startPos + r.max, r.min - r.win,
          appendSharding md5Sum s.poly _ 0⟩ : ShardingState).winStartPos = r.min - r.win from rfl,
          this] at h2
        omega
    · have hlen : (((List.take (s.winStartPos + r.win).toNat
          (List.drop s.startPos.toNat B)).length : Nat) : Int) = s.winStartPos + r.win := by
        simp only [List.length_take, List.length_drop]
        omega
      refine ⟨by show 0 ≤ s.startPos + (s.winStartPos + r.win); omega, ?_,
        by show r.min ≤ r.min - r.win + r.win; omega,
        by show r.min - r.win + r.win ≤ r.max; omega, ?_, ?_⟩
      · show s.startPos + (s.winStartPos + r.win) = _
        rw [totalLength_appendSharding, List.length_take, List.length_drop]
        omega
      · apply snoc_offsets hall
        refine ⟨?_, ?_, ?_⟩
        · intro L h1 h2
          rw [← hsp']
          have := hsearch L h1 (by rw [hlen] at h2; omega)
          rwa [← hsp] at this
        · intro _
          refine ⟨sum, ?_, hpass, rfl⟩
          rw [hlen, ← hsp', add_sub_cancel_right]
          rwa [← hsp] at hsum
        · intro hcon
          rw [hlen] at hcon
          omega
      · intro L h1 h2
        have : r.min - r.win + r.win = r.min := by ring
        rw [show (⟨s.startPos + (s.winStartPos + r.win), r.min - r.win,
          appendSharding md5Sum s.poly _ sum⟩ : ShardingState).winStartPos = r.min - r.win
          from rfl, this] at h2
        omega
    · refine ⟨h0, htot, by show r.min ≤ s.winStartPos + 1 + r.win; omega,
        by show s.winStartPos + 1 + r.win ≤ r.max; omega, hall, ?_⟩
      intro L h1 h2
      have h2' : L < s.winStartPos + 1 + r.win := h2
      rcases (by omega : L < s.winStartPos + r.win ∨ L = s.winStartPos + r.win) with hl | hl
      · exact hsearch L h1 hl
      · refine ⟨sum, ?_, hfail⟩
        show rollChecksum r (windowAt B s.startPos (L - r.win) r.win) = some sum
        rw [hl, add_sub_cancel_right]
        exact hsum
  · intro s rfi e ⟨h0, htot, hlo, hhi, hall, hsearch⟩ hdone i p hi hget
    obtain ⟨-, hcase⟩ := ShardingStep_done hdone
    rcases hcase with ⟨-, hpoly⟩ | ⟨-, -, -, hpoly⟩
    · rw [hpoly] at hget ⊢
      exact hall i p hget
    · rw [hpoly] at hget hi ⊢
      simp only [appendSharding, List.length_append, List.length_singleton] at hi
      simp only [appendSharding] at hget ⊢
      rw [List.get?_eq_getElem?, List.getElem?_append_left (by omega),
        ← List.get?_eq_getElem?] at hget
      rw [List.take_append_of_le_length (by omega)]
      exact hall i p hget

/-- C15.  Earliest-boundary rule: for every configuration with
`win < min <= max` and `avg > 0` and every buffer `B`, every non-final chunk of
every result of `Sharding(B)`, of length `L` and starting at offset `s` (the
total length of the chunks before it), is cut at the earliest boundary: for no
`L'` with `min <= L' < L` does the weighted sum of the window
`B[s+L'-win .. s+L')` pass the boundary test; if `L < max` the window ending at
`L` passes it and the checksum of the chunk is that sum; if `L = max` the
checksum is `0`.  And `Sharding(B)` does return, within `len(B) + 1`
iterations, when moreover `0 <= win` and the weight table has its `win + 1`
entries. -/
theorem Sharding_earliest_boundary (md5Sum : List Byte → List Byte) (r : RobinFinger)
    (B : List Byte) (hwin : r.win < r.min) (hmm : r.min ≤ r.max) (havg : 0 < r.avg) :
    (∀ fuel rfi e, Sharding md5Sum r B fuel = Run.done (rfi, e) →
      ∀ i p, i + 1 < rfi.poly.length → rfi.poly.get? i = some p →
        EarliestBoundary r B (totalLength (rfi.poly.take i)) p) ∧
    (0 ≤ r.win → r.win < r.polynomialFactor.length →
      ∃ rfi, ∀ fuel, B.length < fuel → Sharding md5Sum r B fuel = Run.done (rfi, none)) :=
  ⟨fun fuel rfi e h => Sharding_earliest md5Sum r B hmm fuel rfi e h,
    fun h0 htab => Sharding_returns md5Sum r B h0 hwin (by omega) (by omega) htab⟩

/-- The second chunk of the demonstration buffer starts at offset 3 and is cut
at `max = 6`: the windows ending 3, 4 and 5 bytes into it (`9, 9`, of sum 108)
fail the boundary test and its checksum is `0`. -/
theorem Sharding_earliest_boundary_witness :
    (demoConfig.win < demoConfig.min ∧ demoConfig.min ≤ demoConfig.max ∧ 0 < demoConfig.avg) ∧
      Sharding demoDigest demoConfig demoBuffer 20 = Run.done ({ poly := demoChunks }, none) ∧
      EarliestBoundary demoConfig demoBuffer 3
        { data := [9, 9, 9, 9, 9, 9], robinChecksum := 0, key := "090909090909" } :=
  ⟨by decide, by decide,
    (Sharding_earliest_boundary demoDigest demoConfig demoBuffer (by decide) (by decide)
      (by decide)).1 20 { poly := demoChunks } none (by decide) 1 _ (by decide) rfl⟩

/-! ## Resynchronisation after a cut -/

theorem ShardingStep_shift (md5Sum : List Byte → List Byte) (r : RobinFinger)
    (B : List Byte) (k : Nat) (pre : List polynomialInfo) (s : ShardingState)
    (h0 : 0 ≤ s.startPos) :
    ShardingStep md5Sum r B ⟨s.startPos + k, s.winStartPos, pre ++ s.poly⟩ =
      shiftSharding k pre (ShardingStep md5Sum r (B.drop k) s) := by
  unfold ShardingStep
  by_cases h1 : s.startPos ≥ ((B.drop k).length : Int)
  · have h1' : s.startPos + k ≥ (B.length : Int) := by
      simp only [List.length_drop] at h1
      omega
    rw [if_pos h1, if_pos h1']
    rfl
  · have h1' : ¬ (s.startPos + k ≥ (B.length : Int)) := by
      simp only [List.length_drop] at h1
      omega
    rw [if_neg h1, if_neg h1']
    simp only []
    rw [slice_tail (by omega) (by omega), slice_tail h0 (by omega)]
    have hbuf : B.drop (s.startPos + k).toNat = (B.drop k).drop s.startPos.toNat := by
      rw [List.drop_drop]
      congr 1
      omega
    simp only [hbuf]
    generalize (B.drop k).drop s.startPos.toNat = buf
    by_cases c1 : s.winStartPos + r.win ≥ (buf.length : Int)
    · simp only [if_pos c1]
      simp [shiftSharding, appendSharding]
    simp only [if_neg c1]
    by_cases c2 : s.winStartPos + r.win ≥ r.max
    · simp only [if_pos c2]
      cases slice buf 0 r.max with
      | none => rfl
      | some chunk => simp [shiftSharding, appendSharding, add_right_comm]
    simp only [if_neg c2]
    cases slice buf s.winStartPos (s.winStartPos + r.win) with
    | none => rfl
    | some winData =>
      simp only []
      cases rollChecksum r winData with
      | none => rfl
      | some sum =>
        simp only []
        by_cases c3 : r.avg = 0
        · simp only [if_pos c3]
          rfl
        simp only [if_neg c3]
        by_cases c4 : Int.tmod sum r.avg = r.prime
        · simp only [if_pos c4]
          cases slice buf 0 (s.winStartPos + r.win) with
          | none => rfl
          | some chunk => simp [shiftSharding, appendSharding, add_right_comm]
        · simp only [if_neg c4]
          rfl

theorem ShardingStep_startPos {md5Sum : List Byte → List Byte} {r : RobinFinger}
    {src : List Byte} {s s' : ShardingState}
    (h : ShardingStep md5Sum r src s = Sum.inl s') : 0 ≤ s'.startPos := by
  obtain ⟨h0, -, -, hcase⟩ := ShardingStep_inl h
  rcases hcase with ⟨-, hm0, rfl⟩ | ⟨-, hw0, hwin, -, sum, -, ⟨-, rfl⟩ | ⟨-, rfl⟩⟩
  · show 0 ≤ s.startPos + r.max; omega
  · show 0 ≤ s.startPos + (s.winStartPos + r.win); omega
  · exact h0

theorem iterate_Sharding_shift (md5Sum : List Byte → List Byte) (r : RobinFinger)
    (B : List Byte) (k : Nat) (pre : List polynomialInfo) :
    ∀ (fuel : Nat) (s : ShardingState), 0 ≤ s.startPos →
      iterate (ShardingStep md5Sum r B) fuel ⟨s.startPos + k, s.winStartPos, pre ++ s.poly⟩ =
        shiftResult pre (iterate (ShardingStep md5Sum r (B.drop k)) fuel s) := by
  intro fuel
  induction fuel with
  | zero => intro s _; rfl
  | succ n ih =>
    intro s h0
    simp only [iterate]
    rw [ShardingStep_shift md5Sum r B k pre s h0]
    cases hst : ShardingStep md5Sum r (B.drop k) s with
    | inl s' =>
      simp only [shiftSharding]
      exact ih s' (ShardingStep_startPos hst)
    | inr out =>
      cases out with
      | done a => rfl
      | panic p => rfl
      | fuel => rfl

theorem iterate_Sharding_extends (md5Sum : List Byte → List Byte) (r : RobinFinger)
    (src : List Byte) (fuel : Nat) (s : ShardingState) (rfi : RobinFingerInfo)
    (e : Option GoError)
    (h : iterate (ShardingStep md5Sum r src) fuel s = Run.done (rfi, e)) :
    ∃ rest, rfi.poly = s.poly ++ rest := by
  have key := iterate_invariant (ShardingStep md5Sum r src)
    (fun t => ∃ rest, t.poly = s.poly ++ rest)
    (fun out => ∀ rfi e, out = Run.done (rfi, e) → ∃ rest, rfi.poly = s.poly ++ rest)
    ?_ ?_ (fun _ _ he => by simp at he) fuel s ⟨[], by simp⟩ rfi e h
  · exact key
  · intro t t' ⟨rest, hrest⟩ hstep
    obtain ⟨-, -, -, hcase⟩ := ShardingStep_inl hstep
    rcases hcase with ⟨-, -, rfl⟩ | ⟨-, -, -, -, sum, -, ⟨-, rfl⟩ | ⟨-, rfl⟩⟩
    · exact ⟨rest ++ [_], by simp [appendSharding, hrest]; rfl⟩
    · exact ⟨rest ++ [_], by simp [appendSharding, hrest]; rfl⟩
    · exact ⟨rest, hrest⟩
  · intro t out ⟨rest, hrest⟩ hout rfi e he
    subst he
    obtain ⟨-, hcase⟩ := ShardingStep_done hout
    rcases hcase with ⟨-, hpoly⟩ | ⟨-, -, -, hpoly⟩
    · exact ⟨rest, by rw [hpoly, hrest]⟩
    · exact ⟨rest ++ [_], by rw [hpoly]; simp [appendSharding, hrest]; rfl⟩

theorem ShardingStep_inl_poly {md5Sum : List Byte → List Byte} {r : RobinFinger}
    {src : List Byte} {s s' : ShardingState}
    (h : ShardingStep md5Sum r src s = Sum.inl s') (htot : s.startPos = totalLength s.poly) :
    s'.startPos = totalLength s'.poly ∧
      (s'.poly = s.poly ∨ ∃ c, s'.poly = s.poly ++ [c] ∧ s'.winStartPos = r.min - r.win) := by
  obtain ⟨h0, -, hw, hcase⟩ := ShardingStep_inl h
  simp only [List.length_drop] at hw
  rcases hcase with ⟨hm, hm0, rfl⟩ | ⟨hm, hw0, hwin, -, sum, -, ⟨-, rfl⟩ | ⟨-, rfl⟩⟩
  · refine ⟨?_, Or.inr ⟨_, rfl, rfl⟩⟩
    show s.startPos + r.max = _
    rw [totalLength_appendSharding, List.length_take, List.length_drop]
    omega
  · refine ⟨?_, Or.inr ⟨_, rfl, rfl⟩⟩
    show s.startPos + (s.winStartPos + r.win) = _
    rw [totalLength_appendSharding, List.length_take, List.length_drop]
    omega
  · exact ⟨htot, Or.inl rfl⟩

theorem iterate_Sharding_reaches (md5Sum : List Byte → List Byte) (r : RobinFinger)
    (src : List Byte) (j : Nat) (rfi : RobinFingerInfo) (e : Option GoError) :
    ∀ (fuel : Nat) (s : ShardingState), s.startPos = totalLength s.poly →
      s.poly.length < j → j < rfi.poly.length →
      iterate (ShardingStep md5Sum r src) fuel s = Run.done (rfi, e) →
      ∃ fuel', fuel' ≤ fuel ∧
        iterate (ShardingStep md5Sum r src) fuel'
          ⟨(totalLength (rfi.poly.take j) : Nat), r.min - r.win, rfi.poly.take j⟩ =
          Run.done (rfi, e) := by
  intro fuel
  induction fuel with
  | zero => intro s _ _ _ h; simp [iterate] at h
  | succ n ih =>
    intro s htot hlt hj h
    simp only [iterate] at h
    cases hst : ShardingStep md5Sum r src s with
    | inl s' =>
      rw [hst] at h
      simp only at h
      obtain ⟨htot', hpoly⟩ := ShardingStep_inl_poly hst htot
      rcases hpoly with hsame | ⟨c, hc, hw⟩
      · obtain ⟨f, hf, hrun⟩ := ih s' htot' (by rw [hsame]; exact hlt) hj h
        exact ⟨f, by omega, hrun⟩
      · by_cases hjeq : s.poly.length + 1 = j
        · obtain ⟨rest, hrest⟩ := iterate_Sharding_extends md5Sum r src n s' rfi e h
          have hlen : s'.poly.length = j := by rw [hc]; simp; omega
          have htake : rfi.poly.take j = s'.poly := by
            rw [hrest, ← hlen, List.take_left']
            rfl
          refine ⟨n, by omega, ?_⟩
          rw [htake, ← htot', ← hw]
          exact h
        · obtain ⟨f, hf, hrun⟩ := ih s' htot' (by rw [hc]; simp; omega) hj h
          exact ⟨f, by omega, hrun⟩
    | inr out =>
      rw [hst] at h
      simp only at h
      subst h
      obtain ⟨-, hcase⟩ := ShardingStep_done hst
      rcases hcase with ⟨-, hpoly⟩ | ⟨-, -, -, hpoly⟩
      · rw [hpoly] at hj
        omega
      · rw [hpoly] at hj
        simp [appendSharding] at hj
        omega

theorem Sharding_suffix (md5Sum : List Byte → List Byte) (r : RobinFinger)
    (B : List Byte) (fuel : Nat) (rfi : RobinFingerInfo) (e : Option GoError) (j : Nat)
    (hj0 : 0 < j) (hj : j < rfi.poly.length)
    (h : Sharding md5Sum r B fuel = Run.done (rfi, e)) :
    Sharding md5Sum r (B.drop (totalLength (rfi.poly.take j))) fuel =
      Run.done ({ poly := rfi.poly.drop j }, none) := by
  have he : e = none := Sharding_err_nil md5Sum r B fuel rfi e h
  subst he
  unfold Sharding at h
  by_cases hc : (B.length : Int) < r.min ∨ r.min < r.win
  · rw [if_pos hc] at h
    simp only [Run.done.injEq, Prod.mk.injEq, and_true] at h
    rw [← h] at hj
    simp [appendSharding] at hj
    omega
  rw [if_neg hc] at h
  obtain ⟨f, hf, hrun⟩ := iterate_Sharding_reaches md5Sum r B j rfi none fuel
    ⟨0, r.min - r.win, []⟩ (by simp [totalLength]) (by simpa using hj0) hj h
  generalize hk : totalLength (rfi.poly.take j) = k at hrun ⊢
  have hshift := iterate_Sharding_shift md5Sum r B k (rfi.poly.take j) f
    ⟨0, r.min - r.win, []⟩ le_rfl
  simp only [zero_add, List.append_nil] at hshift
  rw [hrun] at hshift
  cases hX : iterate (ShardingStep md5Sum r (B.drop k)) f ⟨0, r.min - r.win, []⟩ with
  | panic p => rw [hX] at hshift; simp [shiftResult] at hshift
  | fuel => rw [hX] at hshift; simp [shiftResult] at hshift
  | done a =>
    obtain ⟨rfi', e'⟩ := a
    rw [hX] at hshift
    simp only [shiftResult, Run.done.injEq, Prod.mk.injEq] at hshift
    obtain ⟨hpoly, he'⟩ := hshift
    subst he'
    have hpoly' : rfi'.poly = rfi.poly.drop j := by
      have hp : rfi.poly = rfi.poly.take j ++ rfi'.poly := congrArg RobinFingerInfo.poly hpoly
      have h1 : rfi.poly.take j ++ rfi.poly.drop j = rfi.poly.take j ++ rfi'.poly := by
        rw [List.take_append_drop]
        exact hp
      exact (List.append_cancel_left h1).symm
    have hrfi : rfi' = { poly := rfi.poly.drop j } := by
      cases rfi'
      simp only at hpoly'
      rw [hpoly']
    rw [hrfi] at hX
    unfold Sharding
    by_cases hc' : (((B.drop k).length : Nat) : Int) < r.min ∨ r.min < r.win
    · rw [if_pos hc']
      have hlt : (((B.drop k).length : Nat) : Int) < r.min := by
        rcases hc' with h1 | h1
        · exact h1
        · exact absurd (Or.inr h1) hc
      cases f with
      | zero => simp [iterate] at hX
      | succ f' =>
        simp only [iterate] at hX
        unfold ShardingStep at hX
        by_cases hz : (0 : Int) ≥ ((B.drop k).length : Nat)
        · rw [if_pos hz] at hX
          simp only [Run.done.injEq, Prod.mk.injEq, and_true] at hX
          have : (rfi.poly.drop j).length = 0 := by
            have := congrArg (fun x => x.poly.length) hX
            simpa using this.symm
          simp only [List.length_drop] at this
          omega
        · rw [if_neg hz, slice_tail le_rfl (by omega)] at hX
          simp only [Int.toNat_zero, List.drop_zero] at hX
          rw [if_pos (by omega)] at hX
          simp only at hX
          rw [hX]
    · rw [if_neg hc']
      rw [iterate_le _ f fuel _ (by rw [hX]; simp) hf, hX]

/-- C18.  Resynchronisation after a boundary: for every configuration with
`win < min`, `max >= 1` and `avg != 0` and every buffer `B`, if `Sharding(B)`
returns the chunk set `rfi`, `0 < j < Count()` and the first `j` chunks have
total length `k`, then `Sharding(B[k:])` returns, with the same fuel, exactly
the chunks of `rfi` from index `j` on (same data, checksums and keys).  And
`Sharding(B)` does return, within `len(B) + 1` iterations, when moreover
`0 <= win` and the weight table has its `win + 1` entries. -/
theorem Sharding_resynchronises (md5Sum : List Byte → List Byte) (r : RobinFinger)
    (B : List Byte) (hwin : r.win < r.min) (hmax : 1 ≤ r.max) (havg : r.avg ≠ 0) :
    (∀ fuel rfi e j, Sharding md5Sum r B fuel = Run.done (rfi, e) →
      0 < j → j < rfi.poly.length →
        Sharding md5Sum r (B.drop (totalLength (rfi.poly.take j))) fuel =
          Run.done ({ poly := rfi.poly.drop j }, none)) ∧
    (0 ≤ r.win → r.win < r.polynomialFactor.length →
      ∃ rfi, ∀ fuel, B.length < fuel → Sharding md5Sum r B fuel = Run.done (rfi, none)) :=
  ⟨fun fuel rfi e j h hj0 hj => Sharding_suffix md5Sum r B fuel rfi e j hj0 hj h,
    fun h0 htab => Sharding_returns md5Sum r B h0 hwin hmax havg htab⟩

/-- After the first chunk of the demonstration buffer, of 3 bytes, the other
three chunks are those of the buffer without its first 3 bytes. -/
theorem Sharding_resynchronises_witness :
    (demoConfig.win < demoConfig.min ∧ 1 ≤ demoConfig.max ∧ demoConfig.avg ≠ 0) ∧
      Sharding demoDigest demoConfig demoBuffer 20 = Run.done ({ poly := demoChunks }, none) ∧
      totalLength (demoChunks.take 1) = 3 ∧
      Sharding demoDigest demoConfig (demoBuffer.drop (totalLength (demoChunks.take 1))) 20 =
        Run.done ({ poly := demoChunks.drop 1 }, none) :=
  ⟨by decide, by decide, by decide,
    (Sharding_resynchronises demoDigest demoConfig demoBuffer (by decide) (by decide)
      (by decide)).1 20 { poly := demoChunks } none 1 (by decide) (by decide) (by decide)⟩

/-! ## The cuts of the two modes -/

theorem runHandler_snoc {σ : Type} (f : Handler σ) (h0 : σ) (acc : List polynomialInfo)
    (c : polynomialInfo) :
    runHandler f h0 (acc ++ [c]) = (f (runHandler f h0 acc) c.data c.robinChecksum c.key).1 := by
  simp [runHandler, List.foldl_append]

theorem runHandler_collect (acc l : List polynomialInfo) : runHandler collect acc l = acc ++ l := by
  induction l generalizing acc with
  | nil => simp [runHandler]
  | cons c l ih =>
    have : runHandler collect acc (c :: l) = runHandler collect (acc ++ [c]) l := rfl
    rw [this, ih]
    simp

theorem splitStep_handler {σ : Type} (md5Sum : List Byte → List Byte) (r : RobinFinger)
    (f : Handler σ) (hf : NeverFails f) (h0 : σ) (b : List Byte) (atEOF : Bool)
    (s : SplitState (List polynomialInfo)) :
    splitStep md5Sum r f b atEOF ⟨s.sz, s.offset, runHandler f h0 s.h⟩ =
      handlerOut f h0 (splitStep md5Sum r collect b atEOF s) := by
  unfold splitStep
  by_cases c0 : s.sz ≥ (b.length : Int)
  · simp only [if_pos c0]
    rfl
  simp only [if_neg c0]
  cases slice b s.sz b.length with
  | none => rfl
  | some tmpBuf =>
    simp only []
    by_cases c1 : s.offset + r.win > (tmpBuf.length : Int)
    · simp only [if_pos c1]
      cases atEOF with
      | true =>
        simp only [if_true, hf _ _ _ _]
        simp only [handlerOut, collect, runHandler_snoc]
      | false => rfl
    simp only [if_neg c1]
    by_cases c2 : s.offset + r.win > r.max
    · simp only [if_pos c2]
      cases slice tmpBuf 0 r.max with
      | none => rfl
      | some chunk =>
        simp only [hf _ _ _ _]
        simp only [handlerOut, collect, runHandler_snoc]
    simp only [if_neg c2]
    cases slice tmpBuf s.offset (s.offset + r.win) with
    | none => rfl
    | some winData =>
      simp only []
      cases rollChecksum r winData with
      | none => rfl
      | some sum =>
        simp only []
        by_cases c3 : r.avg = 0
        · simp only [if_pos c3]
          rfl
        simp only [if_neg c3]
        by_cases c4 : Int.tmod sum r.avg = r.prime
        · simp only [if_pos c4]
          cases slice tmpBuf 0 (s.offset + r.win) with
          | none => rfl
          | some chunk =>
            simp only [hf _ _ _ _]
            simp only [handlerOut, collect, runHandler_snoc]
        · simp only [if_neg c4]
          rfl

theorem iterate_split_handler {σ : Type} (md5Sum : List Byte → List Byte) (r : RobinFinger)
    (f : Handler σ) (hf : NeverFails f) (h0 : σ) (b : List Byte) (atEOF : Bool) :
    ∀ (n : Nat) (s : SplitState (List polynomialInfo)),
      iterate (splitStep md5Sum r f b atEOF) n ⟨s.sz, s.offset, runHandler f h0 s.h⟩ =
        handlerRun f h0 (iterate (splitStep md5Sum r collect b atEOF) n s) := by
  intro n
  induction n with
  | zero => intro s; rfl
  | succ n ih =>
    intro s
    simp only [iterate]
    rw [splitStep_handler md5Sum r f hf h0 b atEOF s]
    cases hst : splitStep md5Sum r collect b atEOF s with
    | inl s' =>
      simp only [handlerOut]
      exact ih s'
    | inr out =>
      cases out with
      | done a => rfl
      | panic p => rfl
      | fuel => rfl

theorem scanStep_need_more {σ : Type} (md5Sum : List Byte → List Byte) (r : RobinFinger)
    (f : Handler σ) (B : List Byte) (o : Int) (h0 : σ) (S : Scanner σ) (fuel : Nat)
    (hS : FillInv B o h0 S) (hmin : (MaxScanTokenSize : Int) < o + r.win) :
    scanStep md5Sum r f (fuel + 1) S = scanFill S := by
  obtain ⟨herr, hstart, hoff, hh, -, -, hlen, hcap⟩ := hS
  unfold scanStep
  by_cases hd : S.data.length > 0 ∨ S.err ≠ none
  · rw [if_pos hd]
    have hpos : 0 < S.data.length := by
      rcases hd with hd | hd
      · exact hd
      · exact absurd herr hd
    have hstep : splitStep md5Sum r f S.data (decide (S.err ≠ none)) ⟨0, S.offset, S.h⟩ =
        Sum.inr (Run.done ⟨0, none, S.offset, S.h⟩) := by
      rw [splitStep_eq_body md5Sum r f S.data _ _ le_rfl (by simpa using hpos)]
      unfold splitBody
      have c1 : (⟨0, S.offset, S.h⟩ : SplitState σ).offset + r.win >
          ((S.data.drop (0 : Int).toNat).length : Int) := by
        simp only [Int.toNat_zero, List.drop_zero, hoff]
        omega
      rw [if_pos c1]
      simp [herr]
    have hsplit : split md5Sum r f (fuel + 1) S.offset S.h S.data (decide (S.err ≠ none)) =
        Run.done ⟨0, none, S.offset, S.h⟩ := by
      unfold split
      exact iterate_succ_inr fuel hstep
    rw [hsplit]
    simp only [lt_self_iff_false, if_false, Int.toNat_zero, List.drop_zero, Nat.add_zero]
    rw [if_neg (by omega)]
  · rw [if_neg hd]

theorem scanFill_too_long {σ : Type} (B : List Byte) (o : Int) (h0 : σ) (S : Scanner σ)
    (hS : FillInv B o h0 S) (hfull : MaxScanTokenSize ≤ S.bufLen) :
    scanFill S = Sum.inr (Run.done { S with err := some GoError.ErrTooLong }) := by
  obtain ⟨herr, hstart, hoff, hh, -, -, hlen, hcap⟩ := hS
  have hshift : ¬ (S.start > 0 ∧ (S.start + S.data.length = S.bufLen ∨ S.start > S.bufLen / 2)) := by
    omega
  unfold scanFill
  rw [if_neg (by simp [herr])]
  simp only
  rw [if_neg hshift, if_pos (by omega), if_pos (Or.inl hfull), herr]
  rfl

theorem scanFill_grow {σ : Type} (B : List Byte) (o : Int) (h0 : σ) (S : Scanner σ)
    (hS : FillInv B o h0 S) (hB : MaxScanTokenSize ≤ B.length)
    (hfull : S.bufLen < MaxScanTokenSize) :
    ∃ S', scanFill S = Sum.inl S' ∧ FillInv B o h0 S' ∧ S.bufLen < S'.bufLen := by
  obtain ⟨herr, hstart, hoff, hh, hdata, hsched, hlen, hcap⟩ := hS
  have hBlen : S.data.length + S.rd.data.length = B.length := by
    rw [← hdata, List.length_append]
  obtain ⟨b', hb'⟩ : ∃ b' : Nat, b' =
      Nat.min (if S.bufLen * 2 = 0 then startBufSize else S.bufLen * 2) MaxScanTokenSize :=
    ⟨_, rfl⟩
  have hb1 : S.bufLen < b' := by
    rw [hb']
    unfold startBufSize MaxScanTokenSize at *
    split
    · simp only [Nat.min_def]; split <;> omega
    · simp only [Nat.min_def]; split <;> omega
  have hb2 : b' ≤ MaxScanTokenSize := by
    rw [hb']
    exact Nat.min_le_right _ _
  have hshift : ¬ (S.start > 0 ∧ (S.start + S.data.length = S.bufLen ∨ S.start > S.bufLen / 2)) := by
    omega
  unfold scanFill
  rw [if_neg (by simp [herr])]
  simp only
  rw [if_neg hshift, if_pos (by omega), if_neg (by unfold maxInt MaxScanTokenSize at *; omega),
    ← hb']
  obtain ⟨S1, hS1⟩ : ∃ S1 : Scanner σ, S1 = { S with bufLen := b', start := 0 } := ⟨_, rfl⟩
  rw [← hS1]
  have hn : b' - S.bufLen = Nat.min (S1.rd.sched.headD (S1.bufLen - (S1.start + S1.data.length)))
      (S1.bufLen - (S1.start + S1.data.length)) := by
    rw [hS1]
    simp only [hsched, List.headD_nil, Nat.min_self, Nat.zero_add, hlen]
  have hne : S1.rd.data ≠ [] := by
    rw [hS1]
    intro hnil
    simp only at hnil
    rw [hnil] at hBlen
    simp only [List.length_nil] at hBlen
    omega
  rw [readLoop_cons maxConsecutiveEmptyReads S1 (b' - S.bufLen) hn (by omega) hne]
  refine ⟨_, rfl, ?_, ?_⟩
  · rw [hS1]
    refine ⟨herr, rfl, hoff, hh, ?_, ?_, ?_, hb2⟩
    · simp only [List.append_assoc, List.take_append_drop]
      exact hdata
    · simp only [hsched, List.tail_nil]
    · simp only [List.length_append, List.length_take]
      omega
  · rw [hS1]
    exact hb1

/-- A scan over more than a token's worth of bytes none of which can be cut
yet: when `min` exceeds `MaxScanTokenSize` and the reader holds at least
`MaxScanTokenSize` bytes, the buffer of the scanner fills up, `Scan` stops with
`bufio.ErrTooLong`, and the handler was never called. -/
theorem ShardingWithHandle_too_long {σ : Type} (md5Sum : List Byte → List Byte)
    (r : RobinFinger) (f : Handler σ) (h0 : σ) (B : List Byte)
    (hmin : (MaxScanTokenSize : Int) < r.min) (hB : MaxScanTokenSize ≤ B.length)
    (fuel : Nat) (hfuel : MaxScanTokenSize < fuel) :
    ShardingWithHandle md5Sum r (readerOver B) f h0 fuel =
      Run.done (some GoError.ErrTooLong, h0) := by
  obtain ⟨n, rfl⟩ : ∃ n, fuel = n + 1 := ⟨fuel - 1, by unfold MaxScanTokenSize at hfuel; omega⟩
  have hmin' : (MaxScanTokenSize : Int) < r.min - r.win + r.win := by omega
  have hInv0 : FillInv B (r.min - r.win) h0
      ({ rd := readerOver B, bufLen := 0, start := 0, data := [], err := none,
         offset := r.min - r.win, h := h0 } : Scanner σ) :=
    ⟨rfl, rfl, rfl, rfl, rfl, rfl, rfl, Nat.zero_le _⟩
  have hnf := iterate_terminates (scanStep md5Sum r f (n + 1)) (FillInv B (r.min - r.win) h0)
    (fun S => MaxScanTokenSize - S.bufLen) ?_ ?_ (n + 1) _ hInv0
    (by show MaxScanTokenSize - 0 < n + 1; omega)
  have hpost := iterate_invariant (scanStep md5Sum r f (n + 1)) (FillInv B (r.min - r.win) h0)
    (fun out => out = Run.fuel ∨
      ∃ S', out = Run.done S' ∧ S'.err = some GoError.ErrTooLong ∧ S'.h = h0)
    ?_ ?_ (Or.inl rfl) (n + 1) _ hInv0
  · unfold ShardingWithHandle
    rcases hpost with hfu | ⟨S', hS', herr, hh⟩
    · exact absurd hfu hnf
    · rw [hS']
      simp only [herr, hh, scannerErr]
  · intro S S' hS hst
    rw [scanStep_need_more md5Sum r f B _ h0 S n hS hmin'] at hst
    by_cases hfull : MaxScanTokenSize ≤ S.bufLen
    · rw [scanFill_too_long B _ h0 S hS hfull] at hst
      simp at hst
    · obtain ⟨S2, h2, hInv2, -⟩ := scanFill_grow B _ h0 S hS hB (by omega)
      rw [h2] at hst
      simp only [Sum.inl.injEq] at hst
      rw [← hst]
      exact hInv2
  · intro S out hS hst
    rw [scanStep_need_more md5Sum r f B _ h0 S n hS hmin'] at hst
    by_cases hfull : MaxScanTokenSize ≤ S.bufLen
    · rw [scanFill_too_long B _ h0 S hS hfull] at hst
      simp only [Sum.inr.injEq] at hst
      exact Or.inr ⟨_, hst.symm, rfl, hS.2.2.2.1⟩
    · obtain ⟨S2, h2, -, -⟩ := scanFill_grow B _ h0 S hS hB (by omega)
      rw [h2] at hst
      simp at hst
  · intro S S' hS hst
    rw [scanStep_need_more md5Sum r f B _ h0 S n hS hmin'] at hst
    by_cases hfull : MaxScanTokenSize ≤ S.bufLen
    · rw [scanFill_too_long B _ h0 S hS hfull] at hst
      simp at hst
    · obtain ⟨S2, h2, hInv2, hgrow⟩ := scanFill_grow B _ h0 S hS hB (by omega)
      rw [h2] at hst
      simp only [Sum.inl.injEq] at hst
      rw [← hst]
      have := hInv2.2.2.2.2.2.2.2
      refine ⟨hInv2, ?_⟩
      show MaxScanTokenSize - S2.bufLen < MaxScanTokenSize - S.bufLen
      omega
  · intro S out hS hst hout
    subst hout
    rw [scanStep_need_more md5Sum r f B _ h0 S n hS hmin'] at hst
    by_cases hfull : MaxScanTokenSize ≤ S.bufLen
    · rw [scanFill_too_long B _ h0 S hS hfull] at hst
      simp at hst
    · obtain ⟨S2, h2, -, -⟩ := scanFill_grow B _ h0 S hS hB (by omega)
      rw [h2] at hst
      simp at hst

theorem map_eq_of_index {α : Type} (g : polynomialInfo → α) :
    ∀ (out poly : List polynomialInfo), out.length = poly.length →
      (∀ i a b, out.get? i = some a → poly.get? i = some b → g a = g b) →
      out.map g = poly.map g := by
  intro out
  induction out with
  | nil =>
    intro poly hlen _
    cases poly with
    | nil => rfl
    | cons b poly => simp at hlen
  | cons a out ih =>
    intro poly hlen hidx
    cases poly with
    | nil => simp at hlen
    | cons b poly =>
      simp only [List.map_cons, List.cons.injEq]
      refine ⟨hidx 0 a b rfl rfl, ih poly (by simpa using hlen) fun i a' b' ha hb => ?_⟩
      exact hidx (i + 1) a' b' (by simpa using ha) (by simpa using hb)

theorem zeroBuffer_length : zeroBuffer.length = 65536 := List.length_replicate _ _

/-- C17 fails as stated, in two ways.  `Init(3, 3, 6, 4, -1)` is accepted and
satisfies `win < min <= max`, `avg > 0`; on the buffer `7, 1, 2` `Sharding`
returns one chunk while `ShardingWithHandle` panics on the slice expression of
the window, `tmpBuf[4:3]`.  `Init(3, 65537, 65537, 4, 2)` is accepted as well;
on a buffer of `65536` zero bytes `Sharding` returns one chunk, the buffer,
while `ShardingWithHandle` over a reader that delivers all that fits returns
`bufio.ErrTooLong` and delivers nothing: the split function asks for more bytes
than a `bufio.Scanner` buffers. -/
theorem modes_cut_differently :
    (RobinFinger.Init zeroConfig 3 3 6 4 (-1) = Run.done (negativeWindowConfig, none) ∧
      Sharding demoDigest negativeWindowConfig [7, 1, 2] 5 =
        Run.done ({ poly := [{ data := [7, 1, 2], robinChecksum := 0, key := "070102" }] },
          none) ∧
      ShardingWithHandle demoDigest negativeWindowConfig (readerOver [7, 1, 2]) collect [] 5 =
        Run.panic Panic.sliceBounds) ∧
    (RobinFinger.Init zeroConfig 3 65537 65537 4 2 = Run.done (longChunkConfig, none) ∧
      zeroBuffer.length = 65536 ∧
      (∀ fuel, Sharding demoDigest longChunkConfig zeroBuffer fuel =
        Run.done ({ poly := [{ data := zeroBuffer, robinChecksum := 0,
                               key := genKey demoDigest zeroBuffer }] }, none)) ∧
      ∀ fuel, 65536 < fuel →
        ShardingWithHandle demoDigest longChunkConfig (readerOver zeroBuffer) collect [] fuel =
          Run.done (some GoError.ErrTooLong, [])) := by
  refine ⟨⟨by decide, by decide, by decide!⟩, by decide, zeroBuffer_length,
    fun fuel => ?_, fun fuel hfuel => ?_⟩
  · unfold Sharding
    rw [if_pos (Or.inl (by rw [zeroBuffer_length]; decide))]
    simp only [appendSharding, List.nil_append]
  · exact ShardingWithHandle_too_long demoDigest longChunkConfig collect [] zeroBuffer
      (by decide) (by rw [zeroBuffer_length]; decide) fuel hfuel

/-- C17, amended.  For every configuration `Init` accepts with `0 <= win`,
`min <= max < 65536` (the largest token of a `bufio.Scanner`) and `avg != 0`,
and every buffer `B` that is not empty, `Sharding(B)` returns a chunk set, and
there is a sequence `out` of chunks with the same data and the same keys, in
the same order, as the chunks of that set, such that `ShardingWithHandle` over
a reader of `B`, however the reader splits `B` into non-empty reads, with any
handler that never fails, returns nil after calling the handler on exactly the
chunks of `out` in order. -/
theorem ShardingWithHandle_same_cuts (md5Sum : List Byte → List Byte)
    (r0 r : RobinFinger) (prime min max avg win : Int) (B : List Byte)
    (hinit : RobinFinger.Init r0 prime min max avg win = Run.done (r, none))
    (hwin : 0 ≤ win) (hmax : min ≤ max) (htok : max < MaxScanTokenSize) (havg : avg ≠ 0)
    (hB : B ≠ []) :
    ∃ (rfi : RobinFingerInfo) (out : List polynomialInfo),
      (∀ fuel, B.length < fuel → Sharding md5Sum r B fuel = Run.done (rfi, none)) ∧
      (out.map fun p => p.data) = (rfi.poly.map fun p => p.data) ∧
      (out.map fun p => p.key) = (rfi.poly.map fun p => p.key) ∧
      ∀ (σ : Type) (f : Handler σ) (h0 : σ) (sched : List Nat),
        NeverFails f → (∀ k ∈ sched, 0 < k) →
        ∀ fuel, 2 * B.length + 1 < fuel →
          ShardingWithHandle md5Sum r { data := B, sched := sched } f h0 fuel =
            Run.done (none, runHandler f h0 out) := by
  obtain ⟨hlt, -, hr⟩ := Init_accepted hinit
  have e1 : r.win = win := by rw [hr]
  have e2 : r.min = min := by rw [hr]
  have e3 : r.max = max := by rw [hr]
  have e4 : r.avg = avg := by rw [hr]
  have htab : r.win < (r.polynomialFactor.length : Int) := by
    rw [hr]
    simp only [InitFill_length]
    omega
  have h1 : 0 ≤ r.win := by omega
  have h2 : r.win < r.min := by omega
  have h3 : r.min ≤ r.max := by omega
  have h4 : r.avg ≠ 0 := by rw [e4]; exact havg
  have h5 : r.max < MaxScanTokenSize := by omega
  obtain ⟨rfi, hrfi⟩ := Sharding_returns md5Sum r B h1 h2 (by omega) h4 htab
  obtain ⟨n, ret, hn, hfin⟩ := split_agrees_with_Sharding md5Sum r B h1 h2 h3 h4 htab hB
    (B.length + 1) rfi none (hrfi (B.length + 1) (by omega))
  obtain ⟨hlen, hidx⟩ := hfin.index
  refine ⟨rfi, ret.h, hrfi, ?_, ?_, ?_⟩
  · exact map_eq_of_index _ _ _ hlen fun i a b ha hb => (hidx i a b ha hb).1
  · exact map_eq_of_index _ _ _ hlen fun i a b ha hb => (hidx i a b ha hb).2.1
  · intro σ f h0 sched hf hsched fuel hfuel
    have hrun := iterate_split_handler md5Sum r f hf h0 B true n ⟨0, r.min - r.win, []⟩
    rw [hn] at hrun
    exact ShardingWithHandle_eq_split md5Sum r f B sched h0 hf h1 h2 h3 h5 h4 htab hsched n
      ⟨ret.advance, ret.err, ret.offset, runHandler f h0 ret.h⟩ hrun fuel hfuel

/-- The amended C17 on the demonstration buffer. -/
theorem ShardingWithHandle_same_cuts_witness :
    (RobinFinger.Init zeroConfig 3 3 6 4 2 = Run.done (demoConfig, none) ∧
      (0 : Int) ≤ 2 ∧ (3 : Int) ≤ 6 ∧ (6 : Int) < MaxScanTokenSize ∧ (4 : Int) ≠ 0 ∧
      demoBuffer ≠ []) ∧
    ∃ (rfi : RobinFingerInfo) (out : List polynomialInfo),
      (∀ fuel, demoBuffer.length < fuel →
        Sharding demoDigest demoConfig demoBuffer fuel = Run.done (rfi, none)) ∧
      (out.map fun p => p.data) = (rfi.poly.map fun p => p.data) ∧
      (out.map fun p => p.key) = (rfi.poly.map fun p => p.key) ∧
      ∀ (σ : Type) (f : Handler σ) (h0 : σ) (sched : List Nat),
        NeverFails f → (∀ k ∈ sched, 0 < k) →
        ∀ fuel, 2 * demoBuffer.length + 1 < fuel →
          ShardingWithHandle demoDigest demoConfig { data := demoBuffer, sched := sched } f h0
              fuel =
            Run.done (none, runHandler f h0 out) :=
  ⟨⟨by decide, by decide, by decide, by decide, by decide, by decide⟩,
    ShardingWithHandle_same_cuts demoDigest zeroConfig demoConfig 3 3 6 4 2 demoBuffer
      (by decide) (by decide) (by decide) (by decide) (by decide) (by decide)⟩

/-! ## A handler that fails -/

/-- C11.  The handler `failAt 2 e` returns `e` on its second invocation.  Over
a reader of the demonstration buffer (four chunks) `ShardingWithHandle` stops
after the second invocation whatever `e` is, but what it returns depends on
`e`: for `e = io.EOF` and for `e = bufio.ErrFinalToken` it returns `nil`, for
another error value it returns `e`.  Without a failing handler there are four
invocations.  The last part is the mechanism: an error recorded by `setErr` in
a scanner without an error comes out of `Scanner.Err` as itself unless it is
`io.EOF`, which comes out as `nil`. -/
theorem handler_error_swallowed :
    ShardingWithHandle demoDigest demoConfig (readerOver demoBuffer) (failAt 2 GoError.EOF) 0 40 =
        Run.done (none, 2) ∧
      ShardingWithHandle demoDigest demoConfig (readerOver demoBuffer)
          (failAt 2 GoError.ErrFinalToken) 0 40 = Run.done (none, 2) ∧
      ShardingWithHandle demoDigest demoConfig (readerOver demoBuffer)
          (failAt 2 (GoError.other 7)) 0 40 = Run.done (some (GoError.other 7), 2) ∧
      ShardingWithHandle demoDigest demoConfig (readerOver demoBuffer) countCalls 0 40 =
        Run.done (none, 4) ∧
      (∀ e : GoError, scannerErr (setErr none e) = if e = GoError.EOF then none else some e) := by
  refine ⟨by decide!, by decide!, by decide!, by decide!, fun e => ?_⟩
  cases e <;> simp [setErr, scannerErr]

end Robin
